import Mathlib

/-
Verification development for the cardinality-constraint encoder of pysat
(src/cardenc).  The C++ sources are shallowly embedded: every encoder is a
pure Lean function that receives the current top variable id and returns the
list of clauses it appends to the clause set together with the updated top
id.  Machine integers are modelled by Int; the one place where the code
relies on an unsigned cast, namely comparisons through (size_t), is modelled
explicitly by reduction modulo 2^64.
-/

namespace Cardenc

/-- A literal is a non-zero signed integer (data model of the spec). -/
abbrev Lit := Int

/-- A clause is an ordered list of literals (a disjunction). -/
abbrev Clause := List Int

/-- A clause set is an ordered list of clauses; the encoders only append. -/
abbrev CNF := List Clause

/-- Value of a C int reinterpreted through a cast to the 64-bit unsigned
type size_t, as in the comparison written in the source as
(size_t)rhs >= lhs.size(). -/
def usize (x : Int) : Nat := (x % (2 : Int) ^ 64).toNat

/-- A list of nvars fresh variable ids top+1, ..., top+nvars, as allocated
by repeated ++top_id in the source. -/
def freshVars (top : Int) (nvars : Nat) : List Int :=
  (List.range nvars).map (fun (k : Nat) => top + 1 + (k : Int))

/-- Total model of the C++ vector indexing v[i]: the entry at position i,
or 0 when i is out of range (every encoder access is in range; the lemmas
carry the range side conditions). -/
def nth (w : List Int) (i : Nat) : Int := w.getD i 0

/-- Embedding of create_vvect from utils.hh: append nvars fresh variables
to the vector ov and advance the top id. -/
def create_vvect (top : Int) (ov : List Int) (nvars : Nat) : List Int × Int :=
  (ov ++ freshVars top nvars, top + (nvars : Int))

-- ==== common.hh =============================================================

/-- Embedding of common_encode_atleast1: one clause listing all literals. -/
def common_encode_atleast1 (vars : List Int) : CNF := [vars]

/-- Embedding of common_encode_atleastN: one unit clause per literal. -/
def common_encode_atleastN (vars : List Int) : CNF :=
  vars.map (fun v => [v])

/-- Embedding of common_encode_atmost0: one negated unit clause per literal. -/
def common_encode_atmost0 (vars : List Int) : CNF :=
  vars.map (fun v => [-v])

/-- Embedding of common_encode_atmostNm1: one clause with all literals
negated. -/
def common_encode_atmostNm1 (vars : List Int) : CNF :=
  [vars.map (fun v => -v)]

-- ==== pairwise.hh ===========================================================

/-- Helper for the double loop of pairwise_encode_atmost1: clauses
[-vars[i], -vars[j]] for all i < j, in source order. -/
def pairwise_pairs : List Int → CNF
  | [] => []
  | v :: rest => rest.map (fun w => [-v, -w]) ++ pairwise_pairs rest

/-- Embedding of pairwise_encode_atmost1 from pairwise.hh. -/
def pairwise_encode_atmost1 (vars : List Int) : CNF :=
  pairwise_pairs vars

-- ==== bitwise.hh ============================================================

/-- Embedding of bitwise_encode_atmost1 from bitwise.hh.  The number of
auxiliary bits, written ceil(log(n)/log(2)) over doubles in the source, is
modelled by its exact real value Nat.clog 2 n.  The toggle vector togs is a
big-endian binary counter, so while literal i is processed togs[j] is bit
(naux-1-j) of i. -/
def bitwise_encode_atmost1 (top : Int) (vars : List Int) : CNF × Int :=
  let naux := Nat.clog 2 vars.length
  let vids := freshVars top naux
  let cls := (vars.enum).flatMap (fun p =>
    (List.range naux).map (fun j =>
      [-p.2, if Nat.testBit p.1 (naux - 1 - j) then nth vids j
             else -(nth vids j)]))
  (cls, top + (naux : Int))

-- ==== ladder.hh =============================================================

/-- Embedding of ladder_encode_equals1 from ladder.hh.  The auxiliary
vector starts with the sentinel 0 at index 0 followed by p = n-1 fresh
variables, so auxvars[i] = top + i for 1 <= i <= p.  The n = 0 case is
unreachable from every caller (ladder_encode_atmost1 always passes a
non-empty vector) and is modelled as a no-op. -/
def ladder_encode_equals1 (top : Int) (vars : List Int) : CNF × Int :=
  let n := vars.length
  if n = 0 then ([], top)
  else if n = 1 then ([[nth vars 0]], top)
  else if n = 2 then
    ([[nth vars 0, nth vars 1], [-(nth vars 0), -(nth vars 1)]], top)
  else
    let p := n - 1
    let auxvars := 0 :: freshVars top p
    let validity := (List.range' 1 (p - 1)).map (fun i =>
      [-(nth auxvars (i + 1)), nth auxvars i])
    let chanFirst :=
      [[nth auxvars 1, nth vars 0],
       [-(nth vars 0), -(nth auxvars 1)]]
    let chanMid := (List.range' 2 (n - 2)).flatMap (fun i =>
      [[-(nth auxvars (i - 1)), nth auxvars i, nth vars (i - 1)],
       [nth auxvars (i - 1), -(nth vars (i - 1))],
       [-(nth vars (i - 1)), -(nth auxvars i)]])
    let chanLast :=
      [[-(nth auxvars (vars.length - 1)), nth vars (vars.length - 1)],
       [-(nth vars (vars.length - 1)), nth auxvars (vars.length - 1)]]
    (validity ++ chanFirst ++ chanMid ++ chanLast, top + (p : Int))

/-- Embedding of ladder_encode_atmost1 from ladder.hh: allocate one slack
variable, append it to the literals and encode equals-1 on the result. -/
def ladder_encode_atmost1 (top : Int) (vars : List Int) : CNF × Int :=
  let extra := top + 1
  let new_vars := vars ++ [extra]
  ladder_encode_equals1 (top + 1) new_vars

-- ==== seqcounter.hh =========================================================

/-- Model of Pair2IntMap from ptypes.hh: a finite map from integer pairs to
variable ids, represented as an association list (keys are unique, so the
representation is equivalent to the unordered_map of the source). -/
abbrev P2IMap := List ((Int × Int) × Int)

/-- Lookup in a Pair2IntMap, i.e. vset.find(np) in the source. -/
def p2iFind (m : P2IMap) (p : Int × Int) : Option Int :=
  (m.find? (fun q => decide (q.1 = p))).map (fun q => q.2)

/-- Embedding of mk_yvar from utils.hh: return the memoized variable for the
pair if present, otherwise allocate a fresh one and record it.  Returns the
variable, the new top id and the new map. -/
def mk_yvar (top : Int) (m : P2IMap) (p : Int × Int) : Int × Int × P2IMap :=
  match p2iFind m p with
  | some v => (v, top, m)
  | none => (top + 1, top + 1, (p, top + 1) :: m)

/-- State threaded through the loops of seqcounter_encode_atmostN:
current top id, current memo map, clauses appended so far. -/
abbrev SeqSt := Int × P2IMap × CNF

/-- Body of phase 3.2 of seqcounter_encode_atmostN, for one value of i and
one value of j; r1, r2, r3 are the three mk_yvar results (variable, new
top, new map). -/
def seqc_phase32 (vars : List Int) (i : Int) (st : SeqSt) (j : Int) : SeqSt :=
  let r1 := mk_yvar st.1 st.2.1 (i - 1, j - 1)
  let r2 := mk_yvar r1.2.1 r1.2.2 (i, j)
  let c1 : Clause := [-(nth vars (i.toNat - 1)), -r1.1, r2.1]
  let r3 := mk_yvar r2.2.1 r2.2.2 (i - 1, j)
  let c2 : Clause := [-r3.1, r2.1]
  (r3.2.1, r3.2.2, st.2.2 ++ [c1, c2])

/-- Body of phase 3 of seqcounter_encode_atmostN, for one value of i. -/
def seqc_phase3 (vars : List Int) (tval : Int) (st : SeqSt) (i : Int) : SeqSt :=
  let r1 := mk_yvar st.1 st.2.1 (i, 1)
  let c1 : Clause := [-(nth vars (i.toNat - 1)), r1.1]
  let r2 := mk_yvar r1.2.1 r1.2.2 (i - 1, 1)
  let c2 : Clause := [-r2.1, r1.1]
  let st2 : SeqSt := (r2.2.1, r2.2.2, st.2.2 ++ [c1, c2])
  let st3 := ((List.range' 2 (tval.toNat - 1)).map (fun (j : Nat) => (j : Int))).foldl
    (seqc_phase32 vars i) st2
  let r3 := mk_yvar st3.1 st3.2.1 (i - 1, tval)
  let c3 : Clause := [-(nth vars (i.toNat - 1)), -r3.1]
  (r3.2.1, r3.2.2, st3.2.2 ++ [c3])

/-- Phase 1 of seqcounter_encode_atmostN: allocate s(1,1) and emit the
clause tying it to the first literal. -/
def seqc_phase1 (top : Int) (vars : List Int) : SeqSt :=
  let r := mk_yvar top [] (1, 1)
  (r.2.1, r.2.2, [[r.1, -(nth vars 0)]])

/-- Body of phase 2 of seqcounter_encode_atmostN, for one value of j. -/
def seqc_phase2 (st : SeqSt) (j : Int) : SeqSt :=
  let r := mk_yvar st.1 st.2.1 (1, j)
  (r.2.1, r.2.2, st.2.2 ++ [[-r.1]])

/-- Phase 4 of seqcounter_encode_atmostN: the final blocking clause on the
last literal. -/
def seqc_phase4 (vars : List Int) (tval : Int) (st : SeqSt) : CNF × Int :=
  let r := mk_yvar st.1 st.2.1 ((vars.length : Int) - 1, tval)
  (st.2.2 ++ [[-(nth vars (vars.length - 1)), -r.1]], r.2.1)

/-- Embedding of seqcounter_encode_atmostN from seqcounter.hh.  The first
guard is the unsigned comparison (size_t)tval >= vars.size() of the source;
the four phases follow the source line by line, threading the memo map. -/
def seqcounter_encode_atmostN (top : Int) (vars : List Int) (tval : Int) :
    CNF × Int :=
  if vars.length ≤ usize tval then ([], top)
  else if usize tval = vars.length - 1 then (common_encode_atmostNm1 vars, top)
  else if tval = 0 then (common_encode_atmost0 vars, top)
  else
    seqc_phase4 vars tval
      (((List.range' 2 (vars.length - 2)).map (fun (i : Nat) => (i : Int))).foldl
        (seqc_phase3 vars tval)
        (((List.range' 2 (tval.toNat - 1)).map (fun (j : Nat) => (j : Int))).foldl
          seqc_phase2 (seqc_phase1 top vars)))

/-- Embedding of seqcounter_encode_atmost1 from seqcounter.hh under a total
semantics for vector indexing: every access vars[j] goes through List.get?
and an out-of-range access makes the whole computation return none.  The
state of the loop over j is (clauses so far, current cid, current top). -/
def seqcounter_encode_atmost1 (top : Int) (vars : List Int) :
    Option (CNF × Int) :=
  if vars.length = 0 then some ([], top)
  else
    match vars.get? 0 with
    | none => none
    | some v0 =>
      let st0 : Option (CNF × Int × Int) :=
        some ([[-v0, top + 1]], top + 1, top + 1)
      let stN := (List.range' 1 (vars.length - 1)).foldl (fun st j =>
        match st with
        | none => none
        | some (cls, cid, t) =>
          match vars.get? j with
          | none => none
          | some vj =>
            some (cls ++ [[-vj, -cid], [-vj, t + 1], [-cid, t + 1]],
              t + 1, t + 1)) st0
      match stN with
      | none => none
      | some (cls, cid, t) =>
        match vars.get? vars.length with
        | none => none
        | some vl => some (cls ++ [[-vl, -cid]], t)

-- ==== utils.hh vector helpers ==============================================

/-- Embedding of mk_odd_vect from utils.hh: the elements at positions
0, 2, 4, ... , keeping iv.size()/2 of them. -/
def mk_odd_vect : List Int → List Int
  | x :: _ :: rest => x :: mk_odd_vect rest
  | _ => []

/-- Embedding of mk_even_vect from utils.hh: the elements at positions
1, 3, 5, ... , keeping iv.size()/2 of them. -/
def mk_even_vect : List Int → List Int
  | _ :: y :: rest => y :: mk_even_vect rest
  | _ => []

/-- Embedding of mk_half_vect from utils.hh: iv.size()/2 elements starting
at the given offset. -/
def mk_half_vect (iv : List Int) (offset : Nat) : List Int :=
  (List.range (iv.length / 2)).map (fun k => nth iv (offset + k))

/-- Embedding of mk_ksize_vect from utils.hh: sz elements starting at the
given offset. -/
def mk_ksize_vect (iv : List Int) (sz offset : Nat) : List Int :=
  (List.range sz).map (fun k => nth iv (offset + k))

theorem mk_odd_vect_length : ∀ l, (mk_odd_vect l).length = l.length / 2 := by
  intro l
  induction l using mk_odd_vect.induct with
  | case1 x y rest ih => simp [mk_odd_vect, ih]; omega
  | case2 l h =>
    cases l with
    | nil => simp [mk_odd_vect]
    | cons x t =>
      cases t with
      | nil => simp [mk_odd_vect]
      | cons y rest => exact absurd rfl (h x y rest)

theorem mk_even_vect_length : ∀ l, (mk_even_vect l).length = l.length / 2 := by
  intro l
  induction l using mk_even_vect.induct with
  | case1 x y rest ih => simp [mk_even_vect, ih]; omega
  | case2 l h =>
    cases l with
    | nil => simp [mk_even_vect]
    | cons x t =>
      cases t with
      | nil => simp [mk_even_vect]
      | cons y rest => exact absurd rfl (h x y rest)

theorem mk_half_vect_length (iv : List Int) (offset : Nat) :
    (mk_half_vect iv offset).length = iv.length / 2 := by
  simp [mk_half_vect]

theorem mk_ksize_vect_length (iv : List Int) (sz offset : Nat) :
    (mk_ksize_vect iv sz offset).length = sz := by
  simp [mk_ksize_vect]

-- ==== sortcard.hh ===========================================================

/-- Embedding of sortn_half_merge_recur from sortcard.hh.  Since the source
fixes NOPTCLS to true, the zero-run shortcut branches guarded by
NOPTCLS || ... are dead code and only the clause-emitting branches remain;
zvar is threaded but never examined.  The empty-vector case cannot be
reached (the source asserts non-emptiness via av[0] != 0 after halving
vectors of size at least 2) and is modelled as a no-op. -/
def sortn_half_merge_recur (top : Int) (av bv : List Int) (zvar : Int) :
    List Int × CNF × Int :=
  if av.length = 0 then ([], [], top)
  else if av.length = 1 then
    let a := nth av 0
    let b := nth bv 0
    ([top + 1, top + 2],
     [[-a, top + 1], [-b, top + 1], [-a, -b, top + 2]], top + 2)
  else
    let aodd := mk_odd_vect av
    let aeven := mk_even_vect av
    let bodd := mk_odd_vect bv
    let beven := mk_even_vect bv
    let r1 := sortn_half_merge_recur top aodd bodd zvar
    let dv := r1.1
    let r2 := sortn_half_merge_recur r1.2.2 aeven beven zvar
    let ev := r2.1
    let r3 := create_vvect r2.2.2 [nth dv 0] (2 * av.length - 2)
    let cv := r3.1 ++ [nth ev (ev.length - 1)]
    let cls3 := (List.range (av.length - 1)).flatMap (fun i =>
      [[-(nth dv (i + 1)), nth cv (2 * i + 1)],
       [-(nth ev i), nth cv (2 * i + 1)],
       [-(nth dv (i + 1)), -(nth ev i), nth cv (2 * i + 2)]])
    (cv, r1.2.1 ++ r2.2.1 ++ cls3, r3.2)
termination_by av.length
decreasing_by
  all_goals simp [mk_odd_vect_length, mk_even_vect_length]; omega

/-- Embedding of sortn_half_sorter_recur from sortcard.hh.  Vectors of size
at most 1 cannot reach this function (the source asserts av.size() > 1)
and are modelled as a no-op. -/
def sortn_half_sorter_recur (top : Int) (av : List Int) (zvar : Int) :
    List Int × CNF × Int :=
  if av.length ≤ 1 then ([], [], top)
  else if av.length = 2 then
    sortn_half_merge_recur top [nth av 0] [nth av 1] zvar
  else
    let lav := mk_half_vect av 0
    let uav := mk_half_vect av (av.length / 2)
    let r1 := sortn_half_sorter_recur top lav zvar
    let r2 := sortn_half_sorter_recur r1.2.2 uav zvar
    let r3 := sortn_half_merge_recur r2.2.2 r1.1 r2.1 zvar
    (r3.1, r1.2.1 ++ r2.2.1 ++ r3.2.1, r3.2.2)
termination_by av.length
decreasing_by
  all_goals simp [mk_half_vect_length]; omega

/-- Padded size used by sortn_encode_atmostN: the source computes the
smallest power of two not smaller than nvars with trunc(log(nvars)/log(2))
and an epsilon test for exact powers of two; under exact real semantics
this is 2^(Nat.log 2 nvars) when nvars is that power and twice it
otherwise. -/
def sortn_nnvars (nvars : Nat) : Nat :=
  let exponent := Nat.log 2 nvars
  if nvars = 2 ^ exponent then 2 ^ exponent else 2 ^ (exponent + 1)

/-- Embedding of sortn_encode_atmostN from sortcard.hh. -/
def sortn_encode_atmostN (top : Int) (vars : List Int) (rhs : Int) :
    CNF × Int :=
  let nvars : Int := (vars.length : Int)
  if rhs ≥ nvars then ([], top)
  else if rhs = nvars - 1 then (common_encode_atmostNm1 vars, top)
  else if rhs = 0 then (common_encode_atmost0 vars, top)
  else
    let nnvars := sortn_nnvars vars.length
    let padded := nnvars ≠ vars.length
    let zvar := if padded then top + 1 else 0
    let top1 := if padded then top + 1 else top
    let vvect := if padded then
        vars ++ List.replicate (nnvars - vars.length) zvar
      else vars
    let padcls : CNF := if padded then [[-zvar]] else []
    let r := sortn_half_sorter_recur top1 vvect zvar
    (padcls ++ r.2.1 ++ [[-(nth r.1 rhs.toNat)]], r.2.2)

/-- Embedding of cardn_simple_merge_recur from sortcard.hh; as with
sortn_half_merge_recur, NOPTCLS = true makes the zero-run shortcut branches
dead code.  The empty-vector case is unreachable and modelled as a no-op. -/
def cardn_simple_merge_recur (top : Int) (av bv : List Int) (zvar : Int) :
    List Int × CNF × Int :=
  if av.length = 0 then ([], [], top)
  else if av.length = 1 then
    let a := nth av 0
    let b := nth bv 0
    ([top + 1, top + 2],
     [[-a, top + 1], [-b, top + 1], [-a, -b, top + 2]], top + 2)
  else
    let aodd := mk_odd_vect av
    let aeven := mk_even_vect av
    let bodd := mk_odd_vect bv
    let beven := mk_even_vect bv
    let r1 := cardn_simple_merge_recur top aodd bodd zvar
    let dv := r1.1
    let r2 := cardn_simple_merge_recur r1.2.2 aeven beven zvar
    let ev := r2.1
    let r3 := create_vvect r2.2.2 [nth dv 0] av.length
    let cv := r3.1
    let cls3 := (List.range (av.length / 2)).flatMap (fun i =>
      [[-(nth dv (i + 1)), nth cv (2 * i + 1)],
       [-(nth ev i), nth cv (2 * i + 1)],
       [-(nth dv (i + 1)), -(nth ev i), nth cv (2 * i + 2)]])
    (cv, r1.2.1 ++ r2.2.1 ++ cls3, r3.2)
termination_by av.length
decreasing_by
  all_goals simp [mk_odd_vect_length, mk_even_vect_length]; omega

/-- Embedding of cardn_recur from sortcard.hh.  The source is only entered
with av.size() a positive multiple of nkval; the remaining cases are
unreachable and modelled as no-ops. -/
def cardn_recur (top : Int) (av : List Int) (zvar : Int) (nkval : Nat) :
    List Int × CNF × Int :=
  if av.length = nkval then
    if av.length = 1 then (av, [], top)
    else sortn_half_sorter_recur top av zvar
  else if av.length < nkval ∨ nkval = 0 then ([], [], top)
  else
    let lav := mk_ksize_vect av nkval 0
    let uav := mk_ksize_vect av (av.length - nkval) nkval
    let r1 := cardn_recur top lav zvar nkval
    let r2 := cardn_recur r1.2.2 uav zvar nkval
    let r3 := cardn_simple_merge_recur r2.2.2 r1.1 r2.1 zvar
    (r3.1.dropLast, r1.2.1 ++ r2.2.1 ++ r3.2.1, r3.2.2)
termination_by av.length
decreasing_by
  all_goals simp [mk_ksize_vect_length]; omega

/-- Block size used by cardn_encode_atmostN: the source computes
floor(log(rhs)/log(2)) + 1 over doubles and raises 2 to that power; under
exact real semantics the exponent is Nat.log 2 rhs + 1, giving the
smallest power of two strictly greater than rhs. -/
def cardn_nkval (rhs : Nat) : Nat :=
  2 ^ (Nat.log 2 rhs + 1)

/-- Embedding of cardn_encode_atmostN from sortcard.hh. -/
def cardn_encode_atmostN (top : Int) (vars : List Int) (rhs : Int) :
    CNF × Int :=
  let nvars : Int := (vars.length : Int)
  if rhs ≥ nvars then ([], top)
  else if rhs = nvars - 1 then (common_encode_atmostNm1 vars, top)
  else if rhs = 0 then (common_encode_atmost0 vars, top)
  else
    let nkval := cardn_nkval rhs.toNat
    let mval := vars.length / nkval
    let padded := vars.length > mval * nkval
    let nnvars := if padded then (mval + 1) * nkval else vars.length
    let zvar := if padded then top + 1 else 0
    let top1 := if padded then top + 1 else top
    let vvect := if padded then
        vars ++ List.replicate (nnvars - vars.length) zvar
      else vars
    let padcls : CNF := if padded then [[-zvar]] else []
    let r := cardn_recur top1 vvect zvar nkval
    (padcls ++ r.2.1 ++ [[-(nth r.1 rhs.toNat)]], r.2.2)

-- ==== mto.hh: static totalizer =============================================

/-- Embedding of to_UA from mto.hh: the unary-adder clauses relating the
output vector to the two child vectors. -/
def to_UA (outlst alst blst : List Int) : CNF :=
  ((List.range blst.length).map (fun j =>
    [-(nth blst j), nth outlst j])) ++
  ((List.range alst.length).map (fun i =>
    [-(nth alst i), nth outlst i])) ++
  ((List.range' 1 alst.length).flatMap (fun i =>
    (List.range' 1 blst.length).map (fun j =>
      [-(nth alst (i - 1)), -(nth blst (j - 1)),
       nth outlst (i + j - 1)])))

/-- Embedding of the work-stack loop of to_TO from mto.hh as the recursion
the stack implements.  A popped pair (ilst, olst) splits ilst into a first
half of size half = n - n/2 and a second half of size n/2; output vectors
of sub-halves of size at least 2 are allocated here (first half first) and
their pairs pushed, so the LIFO order processes the second half completely
before the first.  Entered only with ilst.length at least 2; smaller inputs
are modelled as a no-op. -/
def to_TO_rec (top : Int) (ilst olst : List Int) : CNF × Int :=
  if h : ilst.length < 2 then ([], top)
  else
    let n := ilst.length
    let half := n - n / 2
    let fsthalf := ilst.take half
    let outfst := if half < 2 then fsthalf else freshVars top half
    let top1 := if half < 2 then top else top + (half : Int)
    let sndhalf := ilst.drop half
    let outsnd := if n - half < 2 then sndhalf else freshVars top1 (n - half)
    let top2 := if n - half < 2 then top1 else top1 + ((n - half : Nat) : Int)
    let clsUA := to_UA olst outfst outsnd
    let rSnd := if n - half < 2 then ([], top2)
      else to_TO_rec top2 sndhalf outsnd
    let rFst := if half < 2 then ([], rSnd.2)
      else to_TO_rec rSnd.2 fsthalf outfst
    (clsUA ++ rSnd.1 ++ rFst.1, rFst.2)
termination_by ilst.length
decreasing_by
  all_goals simp; omega

/-- Embedding of to_TO from mto.hh: inputs of size below 2 are passed
through unchanged, otherwise a fresh output vector is allocated and the
stack loop is run on the bottom pair. -/
def to_TO (top : Int) (invars : List Int) : List Int × CNF × Int :=
  if invars.length < 2 then (invars, [], top)
  else
    let outvars := freshVars top invars.length
    let r := to_TO_rec (top + (invars.length : Int)) invars outvars
    (outvars, r.1, r.2)

/-- Embedding of to_encode_atmostN from mto.hh; the first guard is the
unsigned comparison (size_t)k >= n of the source. -/
def to_encode_atmostN (top : Int) (vars : List Int) (k : Int) : CNF × Int :=
  if vars.length ≤ usize k then ([], top)
  else if k = 0 then (common_encode_atmost0 vars, top)
  else
    let r := to_TO top vars
    (r.2.1 ++ [[-(nth r.1 k.toNat)]], r.2.2)

-- ==== mto.hh: modulo totalizer =============================================

/-- Embedding of mto_MUA_A from mto.hh, the modulo unary adder: hs/rs are
the parent upper/lower digit vectors, fs/asv the first child upper/lower
vectors, gs/bsv the second child upper/lower vectors; one carry variable c
is allocated. -/
def mto_MUA_A (top : Int) (hs rs fs asv gs bsv : List Int) (p : Nat) :
    CNF × Int :=
  let sigma := hs.length
  let alfa := fs.length
  let m := asv.length
  let beta := gs.length
  let n := bsv.length
  let c := top + 1
  let phi1a := (List.range' 1 n).map (fun j =>
    [-(nth bsv (j - 1)), nth rs (j - 1), c])
  let phi1b := (List.range' 1 m).map (fun i =>
    [-(nth asv (i - 1)), nth rs (i - 1), c])
  let phi1c := (List.range' 1 m).flatMap (fun i =>
    (List.range' 1 n).map (fun j =>
      if i + j < p then
        [-(nth asv (i - 1)), -(nth bsv (j - 1)),
         nth rs (i + j - 1), c]
      else if i + j > p then
        [-(nth asv (i - 1)), -(nth bsv (j - 1)),
         nth rs ((i + j) % p - 1)]
      else
        [-(nth asv (i - 1)), -(nth bsv (j - 1)), c]))
  let phi2a : CNF := if sigma = 0 then [[-c]] else [[-c, nth hs 0]]
  let phi2b := (List.range' 1 beta).flatMap (fun j =>
    (if j ≤ sigma then [[-(nth gs (j - 1)), nth hs (j - 1)]]
     else [[-(nth gs (j - 1))]]) ++
    (if j < sigma then [[-c, -(nth gs (j - 1)), nth hs j]]
     else [[-c, -(nth gs (j - 1))]]))
  let phi2c := (List.range' 1 alfa).flatMap (fun i =>
    (if i ≤ sigma then [[-(nth fs (i - 1)), nth hs (i - 1)]]
     else [[-(nth fs (i - 1))]]) ++
    (if i < sigma then [[-c, -(nth fs (i - 1)), nth hs i]]
     else [[-c, -(nth fs (i - 1))]]))
  let phi2d := (List.range' 1 alfa).flatMap (fun i =>
    (List.range' 1 beta).flatMap (fun j =>
      (if i + j ≤ sigma then
        [[-(nth fs (i - 1)), -(nth gs (j - 1)),
          nth hs (i + j - 1)]]
       else [[-(nth fs (i - 1)), -(nth gs (j - 1))]]) ++
      [if i + j < sigma then
        [-c, -(nth fs (i - 1)), -(nth gs (j - 1)), nth hs (i + j)]
       else [-c, -(nth fs (i - 1)), -(nth gs (j - 1))]]))
  (phi1a ++ phi1b ++ phi1c ++ phi2a ++ phi2b ++ phi2c ++ phi2d, c)

/-- Capped upper-vector size of mto_MTO_A: un = len / p, lowered to k / p
when 0 <= k and k / p is smaller. -/
def mto_un (len p : Nat) (k : Int) : Nat :=
  if 0 ≤ k ∧ k.toNat / p < len / p then k.toNat / p else len / p

/-- Embedding of the work-stack loop of mto_MTO_A from mto.hh as the
recursion the stack implements.  For each half: if it is smaller than p it
is summed directly with to_TO (emitting those clauses now, upper vector
empty), otherwise fresh upper/lower vectors are allocated and the half is
pushed; then the modulo unary adder for the parent is emitted; the LIFO
order processes the second half before the first.  Entered only with
ilst.length at least p >= 2; smaller inputs are modelled as a no-op. -/
def mto_MTO_A_rec (top : Int) (ilst ulst llst : List Int) (p : Nat)
    (k : Int) : CNF × Int :=
  if h : ilst.length < 2 then ([], top)
  else
    let ni := ilst.length
    let half := ni - ni / 2
    let fsthalf := ilst.take half
    let sndhalf := ilst.drop half
    let rF : List Int × List Int × CNF × Int :=
      if half < p then
        let t := to_TO top fsthalf
        ([], t.1, t.2.1, t.2.2)
      else
        let un := mto_un half p k
        (freshVars top un, freshVars (top + (un : Int)) (p - 1), [],
          top + (un : Int) + ((p - 1 : Nat) : Int))
    let rS : List Int × List Int × CNF × Int :=
      if ni - half < p then
        let t := to_TO rF.2.2.2 sndhalf
        ([], t.1, t.2.1, t.2.2)
      else
        let un := mto_un (ni - half) p k
        (freshVars rF.2.2.2 un, freshVars (rF.2.2.2 + (un : Int)) (p - 1), [],
          rF.2.2.2 + (un : Int) + ((p - 1 : Nat) : Int))
    let rMUA := mto_MUA_A rS.2.2.2 ulst llst rF.1 rF.2.1 rS.1 rS.2.1 p
    let recS := if ni - half < p then ([], rMUA.2)
      else mto_MTO_A_rec rMUA.2 sndhalf rS.1 rS.2.1 p k
    let recF := if half < p then ([], recS.2)
      else mto_MTO_A_rec recS.2 fsthalf rF.1 rF.2.1 p k
    (rF.2.2.1 ++ rS.2.2.1 ++ rMUA.1 ++ recS.1 ++ recF.1, recF.2)
termination_by ilst.length
decreasing_by
  all_goals simp; omega

/-- Embedding of mto_MTO_A from mto.hh: inputs smaller than p are summed
directly by the static totalizer (empty upper vector); otherwise the
top-level upper and lower vectors are allocated and the stack loop is run. -/
def mto_MTO_A (top : Int) (ivars : List Int) (p : Nat) (k : Int) :
    List Int × List Int × CNF × Int :=
  if ivars.length < p then
    let t := to_TO top ivars
    ([], t.1, t.2.1, t.2.2)
  else
    let un := mto_un ivars.length p k
    let us := freshVars top un
    let ls := freshVars (top + (un : Int)) (p - 1)
    let r := mto_MTO_A_rec (top + (un : Int) + ((p - 1 : Nat) : Int))
      ivars us ls p k
    (us, ls, r.1, r.2)

/-- Embedding of mto_comparator from mto.hh: force upper digits beyond
k / p false, and lower digits beyond k mod p false, conditionally on
upper[ro - 1] when ro > 0. -/
def mto_comparator (upper lower : List Int) (p : Nat) (k : Int) : CNF :=
  let ro := k.toNat / p
  let nu := k.toNat % p
  ((List.range' (ro + 1) (upper.length - ro)).map (fun i =>
    [-(nth upper (i - 1))])) ++
  ((List.range' (nu + 1) (p - (nu + 1))).flatMap (fun i =>
    if 0 < ro then
      if ro - 1 < upper.length then
        [[-(nth upper (ro - 1)), -(nth lower (i - 1))]]
      else []
    else [[-(nth lower (i - 1))]]))

/-- Embedding of mto_encode_atmostN from mto.hh; the group size, written
floor(sqrt((double)n)) in the source, is modelled by its exact value
Nat.sqrt n, raised to 2 when smaller. -/
def mto_encode_atmostN (top : Int) (vars : List Int) (k : Int) : CNF × Int :=
  if vars.length ≤ usize k then ([], top)
  else if k = 0 then (common_encode_atmost0 vars, top)
  else
    let p := if Nat.sqrt vars.length < 2 then 2 else Nat.sqrt vars.length
    let r := mto_MTO_A top vars p (-1)
    (r.2.2.1 ++ mto_comparator r.1 r.2.1 p k, r.2.2.2)

/-- Embedding of kmto_encode_atmostN from mto.hh: identical to the exact
modulo totalizer but with group size floor(sqrt(k)) and every intermediate
upper vector capped through the k argument of mto_MTO_A. -/
def kmto_encode_atmostN (top : Int) (vars : List Int) (k : Int) : CNF × Int :=
  if vars.length ≤ usize k then ([], top)
  else if k = 0 then (common_encode_atmost0 vars, top)
  else
    let p := if Nat.sqrt k.toNat < 2 then 2 else Nat.sqrt k.toNat
    let r := mto_MTO_A top vars p k
    (r.2.2.1 ++ mto_comparator r.1 r.2.1 p k, r.2.2.2)

-- ==== itot.hh ===============================================================

/-- Embedding of the TotTree struct from itot.hh.  A leaf models a node
whose left and right pointers are null; the library creates leaves with a
single count variable and nof_input 1, but the struct itself allows any
contents, so the model does too. -/
inductive TotTree where
  | leaf (vars : List Int) (nof_input : Nat)
  | node (vars : List Int) (nof_input : Nat) (left right : TotTree)
deriving DecidableEq, Repr

/-- The vars field of a TotTree. -/
def TotTree.vars : TotTree → List Int
  | .leaf v _ => v
  | .node v _ _ _ => v

/-- The nof_input field of a TotTree. -/
def TotTree.nof_input : TotTree → Nat
  | .leaf _ n => n
  | .node _ n _ _ => n

/-- Embedding of itot_new_ua from itot.hh. -/
def itot_new_ua (ov : List Int) (rhs : Nat) (av bv : List Int) : CNF :=
  let kmin1 := min rhs bv.length
  let kmin2 := min rhs av.length
  ((List.range kmin1).map (fun j => [-(nth bv j), nth ov j])) ++
  ((List.range kmin2).map (fun i => [-(nth av i), nth ov i])) ++
  ((List.range' 1 kmin2).flatMap (fun i =>
    (List.range' 1 (min (rhs - i) bv.length)).map (fun j =>
      [-(nth av (i - 1)), -(nth bv (j - 1)), nth ov (i + j - 1)])))

/-- Embedding of the queue loop of itot_new from itot.hh: repeatedly pop
the two oldest trees, merge them into a parent with fresh count variables,
emit the unary-adder clauses and push the parent. -/
def itot_new_loop (rhs : Nat) (queue : List TotTree) (top : Int) :
    Option TotTree × CNF × Int :=
  match queue with
  | [] => (none, [], top)
  | [t] => (some t, [], top)
  | l :: r :: rest =>
    let nof := l.nof_input + r.nof_input
    let kmin := min (rhs + 1) nof
    let vars := freshVars top kmin
    let cls := itot_new_ua vars kmin l.vars r.vars
    let rr := itot_new_loop rhs (rest ++ [TotTree.node vars nof l r])
      (top + (kmin : Int))
    (rr.1, cls ++ rr.2.1, rr.2.2)
termination_by queue.length
decreasing_by simp

/-- Embedding of itot_new from itot.hh: build leaves from the literals and
run the queue loop.  On an empty literal vector the source would
dereference an empty deque; the model returns none. -/
def itot_new (top : Int) (lhs : List Int) (rhs : Nat) :
    Option TotTree × CNF × Int :=
  itot_new_loop rhs (lhs.map (fun l => TotTree.leaf [l] 1)) top

/-- Embedding of itot_increase_ua from itot.hh: extend the output vector to
length rhs with fresh variables and emit only the adder clauses whose
output position is new. -/
def itot_increase_ua (top : Int) (ov av bv : List Int) (rhs : Nat) :
    List Int × CNF × Int :=
  let last := ov.length
  let ov' := ov ++ freshVars top (rhs - last)
  let maxj := min rhs bv.length
  let maxi := min rhs av.length
  let c1 := (List.range' last (maxj - last)).map (fun j =>
    [-(nth bv j), nth ov' j])
  let c2 := (List.range' last (maxi - last)).map (fun i =>
    [-(nth av i), nth ov' i])
  let c3 := (List.range' 1 maxi).flatMap (fun i =>
    let maxj2 := min (rhs - i) bv.length
    let minj := max (last + 1 - i) 1
    (List.range' minj (maxj2 + 1 - minj)).map (fun j =>
      [-(nth av (i - 1)), -(nth bv (j - 1)), nth ov' (i + j - 1)]))
  (ov', c1 ++ c2 ++ c3, top + ((rhs - last : Nat) : Int))

/-- Embedding of itot_increase from itot.hh: nothing to do when the current
vector already has min(rhs+1, nof_input) variables; otherwise recurse into
both children first and then extend this node's vector.  A leaf that fails
the guard would make the source dereference null children; every leaf the
library builds has one variable and nof_input 1 and so passes the guard;
the model leaves such a tree unchanged. -/
def itot_increase (tree : TotTree) (rhs : Nat) (top : Int) :
    TotTree × CNF × Int :=
  let kmin := min (rhs + 1) tree.nof_input
  if kmin ≤ tree.vars.length then (tree, [], top)
  else
    match tree with
    | .leaf v n => (TotTree.leaf v n, [], top)
    | .node v n l r =>
      let rl := itot_increase l rhs top
      let rr := itot_increase r rhs rl.2.2
      let ru := itot_increase_ua rr.2.2 v rl.1.vars rr.1.vars kmin
      (TotTree.node ru.1 n rl.1 rr.1, rl.2.1 ++ rr.2.1 ++ ru.2.1, ru.2.2)

/-- Embedding of itot_merge from itot.hh: increase both trees to the bound,
then build one new parent over them exactly as in construction. -/
def itot_merge (ta tb : TotTree) (rhs : Nat) (top : Int) :
    TotTree × CNF × Int :=
  let ra := itot_increase ta rhs top
  let rb := itot_increase tb rhs ra.2.2
  let n := ra.1.nof_input + rb.1.nof_input
  let kmin := min (rhs + 1) n
  let vars := freshVars rb.2.2 kmin
  let cls := itot_new_ua vars kmin ra.1.vars rb.1.vars
  (TotTree.node vars n ra.1 rb.1, ra.2.1 ++ rb.2.1 ++ cls,
    rb.2.2 + (kmin : Int))

/-- Embedding of itot_extend from itot.hh: build a fresh tree from the new
literals and merge it with the existing one.  An empty newin would make the
source dereference null; the model returns none there. -/
def itot_extend (newin : List Int) (ta : TotTree) (rhs : Nat) (top : Int) :
    Option TotTree × CNF × Int :=
  let rb := itot_new top newin rhs
  match rb.1 with
  | none => (none, rb.2.1, rb.2.2)
  | some tb =>
    let rm := itot_merge ta tb rhs rb.2.2
    (some rm.1, rb.2.1 ++ rm.2.1, rm.2.2)

-- ==== card.hh ===============================================================

/-- Tag enc_exp of the EncType enum in card.hh. -/
def enc_exp : Int := 0

/-- Tag enc_seqc of the EncType enum in card.hh. -/
def enc_seqc : Int := 1

/-- Tag enc_sortn of the EncType enum in card.hh. -/
def enc_sortn : Int := 2

/-- Tag enc_cardn of the EncType enum in card.hh. -/
def enc_cardn : Int := 3

/-- Tag enc_bitw of the EncType enum in card.hh. -/
def enc_bitw : Int := 4

/-- Tag enc_ladd of the EncType enum in card.hh. -/
def enc_ladd : Int := 5

/-- Tag enc_tot of the EncType enum in card.hh. -/
def enc_tot : Int := 6

/-- Tag enc_mtot of the EncType enum in card.hh. -/
def enc_mtot : Int := 7

/-- Tag enc_kmtot of the EncType enum in card.hh. -/
def enc_kmtot : Int := 8

/-- Embedding of _encode_atmost from card.hh, the at-most entry point.  The
first two guards use the unsigned comparison through (size_t); none of the
callees writes to the literal vector, so the entry point returns only the
appended clauses and the new top id. -/
def _encode_atmost (lhs : List Int) (rhs : Int) (top : Int) (enc : Int) :
    CNF × Int :=
  if lhs.length ≤ usize rhs then ([], top)
  else if usize rhs = lhs.length - 1 then (common_encode_atmostNm1 lhs, top)
  else if rhs = 0 then (common_encode_atmost0 lhs, top)
  else if enc = enc_cardn then cardn_encode_atmostN top lhs rhs
  else if enc = enc_sortn then sortn_encode_atmostN top lhs rhs
  else if enc = enc_kmtot then kmto_encode_atmostN top lhs rhs
  else if enc = enc_mtot then mto_encode_atmostN top lhs rhs
  else if enc = enc_tot then to_encode_atmostN top lhs rhs
  else if enc = enc_seqc then seqcounter_encode_atmostN top lhs rhs
  else if rhs = 1 then
    if enc = enc_bitw then bitwise_encode_atmost1 top lhs
    else if enc = enc_exp then (pairwise_encode_atmost1 lhs, top)
    else if enc = enc_ladd then ladder_encode_atmost1 top lhs
    else ([], top)
  else ([], top)

/-- Embedding of _encode_atleast from card.hh, the at-least entry point.
The general branch negates the caller's literal buffer in place; the model
returns the final contents of that buffer as the third component. -/
def _encode_atleast (lhs : List Int) (rhs : Int) (top : Int) (enc : Int) :
    CNF × Int × List Int :=
  if rhs ≤ 0 then ([], top, lhs)
  else if rhs = 1 then (common_encode_atleast1 lhs, top, lhs)
  else if rhs = (lhs.length : Int) then (common_encode_atleastN lhs, top, lhs)
  else
    let lhs' := lhs.map (fun x => -x)
    let rhs' := (lhs.length : Int) - rhs
    let r := _encode_atmost lhs' rhs' top enc
    (r.1, r.2, lhs')

-- ==== literal provenance invariant =========================================

/-- A literal l is accounted for relative to a base vector V and a counter
interval (t, t0] when l or its negation is an entry of V, or l or its
negation is a variable allocated in the interval, i.e. strictly above t and
at most t0.  Every encoder only emits literals of this shape. -/
def okLit (V : List Int) (t t0 : Int) (l : Int) : Prop :=
  l ∈ V ∨ -l ∈ V ∨ (t < l ∧ l ≤ t0) ∨ (t < -l ∧ -l ≤ t0)

/-- All entries of a vector are accounted for. -/
def okVec (V : List Int) (t t0 : Int) (w : List Int) : Prop :=
  ∀ v ∈ w, okLit V t t0 v

/-- All literals of all clauses are accounted for. -/
def okCNF (V : List Int) (t t0 : Int) (F : CNF) : Prop :=
  ∀ c ∈ F, ∀ l ∈ c, okLit V t t0 l

/-- An assignment of Booleans to variable ids satisfies a literal: a
positive literal holds when its variable is true, a negative one when its
variable is false. -/
def satLit (a : Int → Bool) (l : Int) : Bool :=
  if 0 < l then a l else !(a (-l))

/-- A clause is satisfied when one of its literals is. -/
def satClause (a : Int → Bool) (c : Clause) : Bool :=
  c.any (satLit a)

/-- A clause set is satisfied when all of its clauses are. -/
def satCNF (a : Int → Bool) (F : CNF) : Bool :=
  F.all (satClause a)

/-- How many of the given literals an assignment makes true. -/
def countTrue (a : Int → Bool) (lhs : List Int) : Nat :=
  (lhs.filter (satLit a)).length

theorem okLit_mono {V : List Int} {t t0 s s0 l : Int} (h : okLit V t t0 l)
    (hs : s ≤ t) (hs0 : t0 ≤ s0) : okLit V s s0 l := by
  rcases h with h | h | h | h
  · exact Or.inl h
  · exact Or.inr (Or.inl h)
  · exact Or.inr (Or.inr (Or.inl ⟨by omega, by omega⟩))
  · exact Or.inr (Or.inr (Or.inr ⟨by omega, by omega⟩))

theorem okLit_sub {V W : List Int} {t t0 l : Int} (h : okLit V t t0 l)
    (hsub : ∀ x ∈ V, x ∈ W) : okLit W t t0 l := by
  rcases h with h | h | h | h
  · exact Or.inl (hsub _ h)
  · exact Or.inr (Or.inl (hsub _ h))
  · exact Or.inr (Or.inr (Or.inl h))
  · exact Or.inr (Or.inr (Or.inr h))

theorem okLit_neg {V : List Int} {t t0 l : Int} (h : okLit V t t0 l) :
    okLit V t t0 (-l) := by
  rcases h with h | h | h | h
  · exact Or.inr (Or.inl (by simpa using h))
  · exact Or.inl (by simpa using h)
  · exact Or.inr (Or.inr (Or.inr (by simpa using h)))
  · exact Or.inr (Or.inr (Or.inl (by simpa using h)))

theorem okLit_of_mem {V : List Int} {t t0 l : Int} (h : l ∈ V) :
    okLit V t t0 l := Or.inl h

theorem okLit_fresh {V : List Int} {t t0 l : Int} (h1 : t < l) (h2 : l ≤ t0) :
    okLit V t t0 l := Or.inr (Or.inr (Or.inl ⟨h1, h2⟩))

theorem okVec_mono {V : List Int} {t t0 s s0 : Int} {w : List Int}
    (h : okVec V t t0 w) (hs : s ≤ t) (hs0 : t0 ≤ s0) : okVec V s s0 w :=
  fun v hv => okLit_mono (h v hv) hs hs0

theorem okVec_sub {V W : List Int} {t t0 : Int} {w : List Int}
    (h : okVec V t t0 w) (hsub : ∀ x ∈ V, x ∈ W) : okVec W t t0 w :=
  fun v hv => okLit_sub (h v hv) hsub

theorem okVec_append {V : List Int} {t t0 : Int} {w1 w2 : List Int}
    (h1 : okVec V t t0 w1) (h2 : okVec V t t0 w2) : okVec V t t0 (w1 ++ w2) := by
  intro v hv
  rcases List.mem_append.1 hv with h | h
  · exact h1 v h
  · exact h2 v h

theorem okVec_of_mem {V : List Int} {t t0 : Int} {w : List Int}
    (h : ∀ v ∈ w, v ∈ V) : okVec V t t0 w :=
  fun v hv => okLit_of_mem (h v hv)

theorem okCNF_mono {V : List Int} {t t0 s s0 : Int} {F : CNF}
    (h : okCNF V t t0 F) (hs : s ≤ t) (hs0 : t0 ≤ s0) : okCNF V s s0 F :=
  fun c hc l hl => okLit_mono (h c hc l hl) hs hs0

theorem okCNF_sub {V W : List Int} {t t0 : Int} {F : CNF}
    (h : okCNF V t t0 F) (hsub : ∀ x ∈ V, x ∈ W) : okCNF W t t0 F :=
  fun c hc l hl => okLit_sub (h c hc l hl) hsub

theorem okCNF_append {V : List Int} {t t0 : Int} {F1 F2 : CNF}
    (h1 : okCNF V t t0 F1) (h2 : okCNF V t t0 F2) :
    okCNF V t t0 (F1 ++ F2) := by
  intro c hc
  rcases List.mem_append.1 hc with h | h
  · exact h1 c h
  · exact h2 c h

theorem okCNF_nil {V : List Int} {t t0 : Int} : okCNF V t t0 [] := by
  intro c hc
  simp at hc

theorem freshVars_length (t : Int) (n : Nat) : (freshVars t n).length = n := by
  rw [freshVars, List.length_map, List.length_range]

theorem freshVars_mem {t : Int} {n : Nat} {v : Int}
    (h : v ∈ freshVars t n) : t < v ∧ v ≤ t + n := by
  simp only [freshVars, List.mem_map, List.mem_range] at h
  obtain ⟨k, hk, hv⟩ := h
  omega

theorem freshVars_getD {t : Int} {n j : Nat} (h : j < n) (d : Int) :
    (freshVars t n).getD j d = t + 1 + j := by
  rw [freshVars, List.getD_eq_getElem?_getD, List.getElem?_map,
    List.getElem?_range h]
  rfl

theorem freshVars_ok {V : List Int} {t : Int} {n : Nat} :
    okVec V t (t + n) (freshVars t n) := by
  intro v hv
  obtain ⟨h1, h2⟩ := freshVars_mem hv
  exact okLit_fresh h1 h2

theorem getD_mem {w : List Int} {i : Nat} (h : i < w.length) (d : Int) :
    w.getD i d ∈ w := by
  rw [List.getD_eq_getElem?_getD, List.getElem?_eq_getElem h]
  exact List.getElem_mem h

theorem getElem_getD_mem {w : List Int} {i : Nat} (h : i < w.length) (d : Int) :
    (w[i]?).getD d ∈ w := by
  rw [List.getElem?_eq_getElem h]
  exact List.getElem_mem h

theorem okVec_getD {V : List Int} {t t0 : Int} {w : List Int} {i : Nat}
    (hw : okVec V t t0 w) (h : i < w.length) (d : Int) :
    okLit V t t0 (w.getD i d) :=
  hw _ (getD_mem h d)

theorem nth_mem {w : List Int} {i : Nat} (h : i < w.length) : nth w i ∈ w := by
  unfold nth
  exact getD_mem h 0

theorem nth_freshVars {t : Int} {n j : Nat} (h : j < n) :
    nth (freshVars t n) j = t + 1 + j := by
  unfold nth
  exact freshVars_getD h 0

theorem okVec_nth {V : List Int} {t t0 : Int} {w : List Int} {i : Nat}
    (hw : okVec V t t0 w) (h : i < w.length) : okLit V t t0 (nth w i) :=
  hw _ (nth_mem h)

theorem forall_mem_single {P : Int → Prop} {a : Int} (ha : P a) :
    ∀ l ∈ [a], P l := by
  intro l hl
  simp at hl
  subst hl
  exact ha

theorem forall_mem_pair {P : Int → Prop} {a b : Int} (ha : P a) (hb : P b) :
    ∀ l ∈ [a, b], P l := by
  intro l hl
  rcases (by simpa using hl : l = a ∨ l = b) with rfl | rfl
  · exact ha
  · exact hb

theorem forall_mem_triple {P : Int → Prop} {a b c : Int}
    (ha : P a) (hb : P b) (hc : P c) : ∀ l ∈ [a, b, c], P l := by
  intro l hl
  rcases (by simpa using hl : l = a ∨ l = b ∨ l = c) with rfl | rfl | rfl
  · exact ha
  · exact hb
  · exact hc

theorem forall_mem_quad {P : Int → Prop} {a b c d : Int}
    (ha : P a) (hb : P b) (hc : P c) (hd : P d) : ∀ l ∈ [a, b, c, d], P l := by
  intro l hl
  rcases (by simpa using hl : l = a ∨ l = b ∨ l = c ∨ l = d) with
    rfl | rfl | rfl | rfl
  · exact ha
  · exact hb
  · exact hc
  · exact hd

theorem enum_snd_mem {l : List Int} {p : Nat × Int} (h : p ∈ l.enum) :
    p.2 ∈ l ∧ p.1 < l.length := by
  obtain ⟨h1, h2, h3⟩ := List.mem_enumFrom h
  simp at h2 h3
  rw [h3]
  exact ⟨List.getElem_mem h2, h2⟩

-- ==== invariant lemmas for the leaf encoders ===============================

theorem common_encode_atleast1_ok {vars : List Int} {t t0 : Int} :
    okCNF vars t t0 (common_encode_atleast1 vars) := by
  intro c hc l hl
  simp only [common_encode_atleast1, List.mem_singleton] at hc
  subst hc
  exact okLit_of_mem hl

theorem common_encode_atleastN_ok {vars : List Int} {t t0 : Int} :
    okCNF vars t t0 (common_encode_atleastN vars) := by
  intro c hc l hl
  simp only [common_encode_atleastN, List.mem_map] at hc
  obtain ⟨v, hv, rfl⟩ := hc
  simp at hl
  subst hl
  exact okLit_of_mem hv

theorem common_encode_atmost0_ok {vars : List Int} {t t0 : Int} :
    okCNF vars t t0 (common_encode_atmost0 vars) := by
  intro c hc l hl
  simp only [common_encode_atmost0, List.mem_map] at hc
  obtain ⟨v, hv, rfl⟩ := hc
  simp at hl
  subst hl
  exact okLit_neg (okLit_of_mem hv)

theorem common_encode_atmostNm1_ok {vars : List Int} {t t0 : Int} :
    okCNF vars t t0 (common_encode_atmostNm1 vars) := by
  intro c hc l hl
  simp only [common_encode_atmostNm1, List.mem_singleton] at hc
  subst hc
  simp only [List.mem_map] at hl
  obtain ⟨v, hv, rfl⟩ := hl
  exact okLit_neg (okLit_of_mem hv)

theorem pairwise_pairs_ok {vars : List Int} {t t0 : Int} :
    okCNF vars t t0 (pairwise_pairs vars) := by
  induction vars with
  | nil => exact okCNF_nil
  | cons v rest ih =>
    rw [pairwise_pairs]
    apply okCNF_append
    · intro c hc l hl
      simp only [List.mem_map] at hc
      obtain ⟨w, hw, rfl⟩ := hc
      refine forall_mem_pair ?_ ?_ l hl
      · exact okLit_neg (okLit_of_mem (by simp))
      · exact okLit_neg (okLit_of_mem (by simp [hw]))
    · exact okCNF_sub ih (by intro x hx; simp [hx])

theorem pairwise_encode_atmost1_ok {vars : List Int} {t t0 : Int} :
    okCNF vars t t0 (pairwise_encode_atmost1 vars) :=
  pairwise_pairs_ok

theorem bitwise_encode_atmost1_ok (top : Int) (vars : List Int) :
    top ≤ (bitwise_encode_atmost1 top vars).2 ∧
    okCNF vars top (bitwise_encode_atmost1 top vars).2
      (bitwise_encode_atmost1 top vars).1 := by
  unfold bitwise_encode_atmost1
  refine ⟨?_, ?_⟩
  · show top ≤ top + (Nat.clog 2 vars.length : Int)
    omega
  intro c hc l hl
  simp only [List.mem_flatMap, List.mem_map, List.mem_range] at hc
  obtain ⟨p, hp, j, hj, rfl⟩ := hc
  have hmem := (enum_snd_mem hp).1
  refine forall_mem_pair ?_ ?_ l hl
  · exact okLit_neg (okLit_of_mem hmem)
  · have hfr : okLit vars top (top + (Nat.clog 2 vars.length : Int))
        (nth (freshVars top (Nat.clog 2 vars.length)) j) := by
      refine okVec_nth freshVars_ok ?_
      rw [freshVars_length]
      exact hj
    split
    · exact hfr
    · exact okLit_neg hfr

theorem cons_zero_getD {w : List Int} {i : Nat} (h : 1 ≤ i) (d : Int) :
    ((0 : Int) :: w).getD i d = w.getD (i - 1) d := by
  obtain ⟨j, rfl⟩ := Nat.exists_eq_add_of_le h
  rw [Nat.add_comm 1 j]
  simp [List.getD_cons_succ]

theorem ladder_aux_getD {top : Int} {p i : Nat} (h1 : 1 ≤ i) (h2 : i ≤ p) :
    nth ((0 : Int) :: freshVars top p) i = top + i := by
  unfold nth
  rw [cons_zero_getD h1, freshVars_getD (by omega)]
  omega

theorem ladder_encode_equals1_ok (top : Int) (vars : List Int) :
    top ≤ (ladder_encode_equals1 top vars).2 ∧
    okCNF vars top (ladder_encode_equals1 top vars).2
      (ladder_encode_equals1 top vars).1 := by
  unfold ladder_encode_equals1
  by_cases h0 : vars.length = 0
  · simp only [h0, if_pos rfl]
    exact ⟨le_refl _, okCNF_nil⟩
  rw [if_neg h0]
  by_cases h1 : vars.length = 1
  · rw [if_pos h1]
    refine ⟨le_refl _, ?_⟩
    intro c hc
    simp only [List.mem_singleton] at hc
    subst hc
    exact forall_mem_single (okLit_of_mem (nth_mem (by omega)))
  rw [if_neg h1]
  by_cases h2 : vars.length = 2
  · rw [if_pos h2]
    refine ⟨le_refl _, ?_⟩
    intro c hc
    rcases (by simpa using hc :
        c = [nth vars 0, nth vars 1] ∨
        c = [-(nth vars 0), -(nth vars 1)]) with rfl | rfl
    · exact forall_mem_pair (okLit_of_mem (nth_mem (by omega)))
        (okLit_of_mem (nth_mem (by omega)))
    · exact forall_mem_pair (okLit_neg (okLit_of_mem (nth_mem (by omega))))
        (okLit_neg (okLit_of_mem (nth_mem (by omega))))
  rw [if_neg h2]
  have hn3 : 3 ≤ vars.length := by omega
  refine ⟨?_, ?_⟩
  · show top ≤ top + ((vars.length - 1 : Nat) : Int)
    omega
  have hvar : ∀ i : Nat, i < vars.length →
      okLit vars top (top + ((vars.length - 1 : Nat) : Int))
      (nth vars i) := fun i hi => okLit_of_mem (nth_mem hi)
  have hauxv : ∀ i : Nat, 1 ≤ i → i ≤ vars.length - 1 →
      okLit vars top (top + ((vars.length - 1 : Nat) : Int))
      (nth ((0 : Int) :: freshVars top (vars.length - 1)) i) := by
    intro i hi1 hi2
    rw [ladder_aux_getD hi1 hi2]
    exact okLit_fresh (by omega) (by omega)
  apply okCNF_append
  apply okCNF_append
  apply okCNF_append
  · intro c hc
    simp only [List.mem_map, List.mem_range'] at hc
    obtain ⟨i, hi, rfl⟩ := hc
    exact forall_mem_pair (okLit_neg (hauxv (i + 1) (by omega) (by omega)))
      (hauxv i (by omega) (by omega))
  · intro c hc
    rcases (by simpa using hc :
        c = [nth ((0 : Int) :: freshVars top (vars.length - 1)) 1, nth vars 0] ∨
        c = [-(nth vars 0), -(nth ((0 : Int) :: freshVars top (vars.length - 1)) 1)])
        with rfl | rfl
    · exact forall_mem_pair (hauxv 1 (by omega) (by omega))
        (hvar 0 (by omega))
    · exact forall_mem_pair (okLit_neg (hvar 0 (by omega)))
        (okLit_neg (hauxv 1 (by omega) (by omega)))
  · intro c hc
    simp only [List.mem_flatMap, List.mem_range'] at hc
    obtain ⟨i, hi, hc⟩ := hc
    rcases (by simpa using hc :
        c = [-(nth ((0 : Int) :: freshVars top (vars.length - 1)) (i - 1)),
             nth ((0 : Int) :: freshVars top (vars.length - 1)) i, nth vars (i - 1)] ∨
        c = [nth ((0 : Int) :: freshVars top (vars.length - 1)) (i - 1),
             -(nth vars (i - 1))] ∨
        c = [-(nth vars (i - 1)),
             -(nth ((0 : Int) :: freshVars top (vars.length - 1)) i)]) with rfl | rfl | rfl
    · exact forall_mem_triple (okLit_neg (hauxv (i - 1) (by omega) (by omega)))
        (hauxv i (by omega) (by omega)) (hvar (i - 1) (by omega))
    · exact forall_mem_pair (hauxv (i - 1) (by omega) (by omega))
        (okLit_neg (hvar (i - 1) (by omega)))
    · exact forall_mem_pair (okLit_neg (hvar (i - 1) (by omega)))
        (okLit_neg (hauxv i (by omega) (by omega)))
  · intro c hc
    rcases (by simpa using hc :
        c = [-(nth ((0 : Int) :: freshVars top (vars.length - 1)) (vars.length - 1)),
             nth vars (vars.length - 1)] ∨
        c = [-(nth vars (vars.length - 1)),
             nth ((0 : Int) :: freshVars top (vars.length - 1)) (vars.length - 1)]) with rfl | rfl
    · exact forall_mem_pair (okLit_neg (hauxv (vars.length - 1) (by omega) (by omega)))
        (hvar (vars.length - 1) (by omega))
    · exact forall_mem_pair (okLit_neg (hvar (vars.length - 1) (by omega)))
        (hauxv (vars.length - 1) (by omega) (by omega))

theorem ladder_encode_atmost1_ok (top : Int) (vars : List Int) :
    top ≤ (ladder_encode_atmost1 top vars).2 ∧
    okCNF vars top (ladder_encode_atmost1 top vars).2
      (ladder_encode_atmost1 top vars).1 := by
  have heq : ladder_encode_atmost1 top vars =
      ladder_encode_equals1 (top + 1) (vars ++ [top + 1]) := rfl
  rw [heq]
  obtain ⟨hA, hB⟩ := ladder_encode_equals1_ok (top + 1) (vars ++ [top + 1])
  refine ⟨by omega, ?_⟩
  intro c hc l hl
  have hok := hB c hc l hl
  rcases hok with hm | hm | hm | hm
  · rcases List.mem_append.1 hm with hm | hm
    · exact okLit_of_mem hm
    · simp at hm
      exact okLit_fresh (by omega) (by omega)
  · rcases List.mem_append.1 hm with hm | hm
    · exact Or.inr (Or.inl hm)
    · simp at hm
      refine Or.inr (Or.inr (Or.inr ?_))
      omega
  · exact okLit_fresh (by omega) (by omega)
  · exact Or.inr (Or.inr (Or.inr ⟨by omega, by omega⟩))

-- ==== invariant lemmas for the sequential counter ==========================

/-- All variables recorded in a memo map lie in the interval (b, t]. -/
def mapOK (m : P2IMap) (b t : Int) : Prop :=
  ∀ q ∈ m, b < q.2 ∧ q.2 ≤ t

theorem mapOK_mono {m : P2IMap} {b t t' : Int} (h : mapOK m b t)
    (ht : t ≤ t') : mapOK m b t' :=
  fun q hq => ⟨(h q hq).1, le_trans (h q hq).2 ht⟩

theorem mk_yvar_ok {m : P2IMap} {b top : Int} (h : mapOK m b top)
    (hb : b ≤ top) (p : Int × Int) :
    top ≤ (mk_yvar top m p).2.1 ∧
    mapOK (mk_yvar top m p).2.2 b (mk_yvar top m p).2.1 ∧
    b < (mk_yvar top m p).1 ∧ (mk_yvar top m p).1 ≤ (mk_yvar top m p).2.1 := by
  unfold mk_yvar
  cases hf : p2iFind m p with
  | some v =>
    simp only []
    have hv : b < v ∧ v ≤ top := by
      unfold p2iFind at hf
      cases hq : m.find? (fun q => decide (q.1 = p)) with
      | none => rw [hq] at hf; simp at hf
      | some q =>
        rw [hq] at hf
        simp at hf
        subst hf
        exact h q (List.mem_of_find?_eq_some hq)
    exact ⟨le_refl _, h, hv.1, hv.2⟩
  | none =>
    simp only []
    refine ⟨by omega, ?_, by omega, by omega⟩
    intro q hq
    rcases List.mem_cons.1 hq with rfl | hq
    · simp
      omega
    · have := h q hq
      omega

/-- Invariant threaded through the loops of seqcounter_encode_atmostN:
the top id never decreases below the base b, the memo map only holds
variables allocated since b, and every clause so far is accounted for. -/
def SeqInv (vars : List Int) (b : Int) (st : SeqSt) : Prop :=
  b ≤ st.1 ∧ mapOK st.2.1 b st.1 ∧ okCNF vars b st.1 st.2.2

theorem foldl_inv {α σ : Type} (Inv : σ → Prop) (P : α → Prop)
    (f : σ → α → σ) (hf : ∀ s x, Inv s → P x → Inv (f s x)) :
    ∀ (l : List α), (∀ x ∈ l, P x) → ∀ s, Inv s → Inv (l.foldl f s) := by
  intro l
  induction l with
  | nil => intro _ s hs; exact hs
  | cons x xs ih =>
    intro hl s hs
    exact ih (fun y hy => hl y (List.mem_cons_of_mem x hy)) (f s x)
      (hf s x hs (hl x (List.mem_cons_self x xs)))

theorem seqc_phase32_ok {vars : List Int} {b : Int} {st : SeqSt} {i j : Int}
    (hst : SeqInv vars b st) (hi : i.toNat - 1 < vars.length) :
    SeqInv vars b (seqc_phase32 vars i st j) := by
  obtain ⟨h1, h2, h3⟩ := hst
  simp only [seqc_phase32]
  obtain ⟨m1a, m1b, m1c, m1d⟩ := mk_yvar_ok h2 h1 (i - 1, j - 1)
  obtain ⟨m2a, m2b, m2c, m2d⟩ := mk_yvar_ok m1b (by omega) (i, j)
  obtain ⟨m3a, m3b, m3c, m3d⟩ := mk_yvar_ok m2b (by omega) (i - 1, j)
  refine ⟨by omega, m3b, ?_⟩
  apply okCNF_append
  · exact okCNF_mono h3 (le_refl _) (by omega)
  · intro c hc
    rcases (by simpa using hc : c = _ ∨ c = _) with rfl | rfl
    · exact forall_mem_triple (okLit_neg (okLit_of_mem (nth_mem hi)))
        (okLit_neg (okLit_fresh m1c (by omega)))
        (okLit_fresh m2c (by omega))
    · exact forall_mem_pair (okLit_neg (okLit_fresh m3c (by omega)))
        (okLit_fresh m2c (by omega))

theorem seqc_phase3_ok {vars : List Int} {b tval : Int} {st : SeqSt} {i : Int}
    (hst : SeqInv vars b st) (hi : i.toNat - 1 < vars.length) :
    SeqInv vars b (seqc_phase3 vars tval st i) := by
  obtain ⟨h1, h2, h3⟩ := hst
  simp only [seqc_phase3]
  obtain ⟨m1a, m1b, m1c, m1d⟩ := mk_yvar_ok h2 h1 (i, 1)
  obtain ⟨m2a, m2b, m2c, m2d⟩ := mk_yvar_ok m1b (by omega) (i - 1, 1)
  have hst2 : SeqInv vars b ((mk_yvar (mk_yvar st.1 st.2.1 (i, 1)).2.1
      (mk_yvar st.1 st.2.1 (i, 1)).2.2 (i - 1, 1)).2.1,
      (mk_yvar (mk_yvar st.1 st.2.1 (i, 1)).2.1
      (mk_yvar st.1 st.2.1 (i, 1)).2.2 (i - 1, 1)).2.2,
      st.2.2 ++ [[-(nth vars (i.toNat - 1)), (mk_yvar st.1 st.2.1 (i, 1)).1],
        [-(mk_yvar (mk_yvar st.1 st.2.1 (i, 1)).2.1
           (mk_yvar st.1 st.2.1 (i, 1)).2.2 (i - 1, 1)).1,
         (mk_yvar st.1 st.2.1 (i, 1)).1]]) := by
    refine ⟨by omega, m2b, ?_⟩
    apply okCNF_append
    · exact okCNF_mono h3 (le_refl _) (by omega)
    · intro c hc
      rcases (by simpa using hc : c = _ ∨ c = _) with rfl | rfl
      · exact forall_mem_pair (okLit_neg (okLit_of_mem (nth_mem hi)))
          (okLit_fresh m1c (by omega))
      · exact forall_mem_pair (okLit_neg (okLit_fresh m2c (by omega)))
          (okLit_fresh m1c (by omega))
  have hfold := foldl_inv (SeqInv vars b) (fun _ => True)
    (seqc_phase32 vars i) (fun s x hs _ => seqc_phase32_ok hs hi)
    ((List.range' 2 (tval.toNat - 1)).map (fun (j : Nat) => (j : Int)))
    (fun x _ => trivial) _ hst2
  obtain ⟨f1, f2, f3⟩ := hfold
  obtain ⟨m4a, m4b, m4c, m4d⟩ := mk_yvar_ok f2 f1 (i - 1, tval)
  refine ⟨by omega, m4b, ?_⟩
  apply okCNF_append
  · exact okCNF_mono f3 (le_refl _) (by omega)
  · intro c hc
    rcases (by simpa using hc : c = _) with rfl
    exact forall_mem_pair (okLit_neg (okLit_of_mem (nth_mem hi)))
      (okLit_neg (okLit_fresh m4c (by omega)))

theorem seqc_phase1_ok {top : Int} {vars : List Int} (hn : 0 < vars.length) :
    SeqInv vars top (seqc_phase1 top vars) := by
  have he : seqc_phase1 top vars =
      (top + 1, [((1, 1), top + 1)], [[top + 1, -(nth vars 0)]]) := rfl
  rw [he]
  refine ⟨by omega, ?_, ?_⟩
  · intro q hq
    simp only [List.mem_singleton] at hq
    subst hq
    exact ⟨by norm_num, by norm_num⟩
  · intro c hc
    rcases (by simpa using hc : c = _) with rfl
    exact forall_mem_pair (okLit_fresh (by omega) (by omega))
      (okLit_neg (okLit_of_mem (nth_mem hn)))

theorem seqc_phase2_ok {vars : List Int} {b : Int} {st : SeqSt} {j : Int}
    (hst : SeqInv vars b st) : SeqInv vars b (seqc_phase2 st j) := by
  obtain ⟨h1, h2, h3⟩ := hst
  simp only [seqc_phase2]
  obtain ⟨m1a, m1b, m1c, m1d⟩ := mk_yvar_ok h2 h1 (1, j)
  refine ⟨by omega, m1b, ?_⟩
  apply okCNF_append
  · exact okCNF_mono h3 (le_refl _) (by omega)
  · intro c hc
    rcases (by simpa using hc : c = _) with rfl
    exact forall_mem_single (okLit_neg (okLit_fresh m1c (by omega)))

theorem seqc_phase4_ok {vars : List Int} {b tval : Int} {st : SeqSt}
    (hst : SeqInv vars b st) (hn : 0 < vars.length) :
    b ≤ (seqc_phase4 vars tval st).2 ∧
    okCNF vars b (seqc_phase4 vars tval st).2 (seqc_phase4 vars tval st).1 := by
  obtain ⟨h1, h2, h3⟩ := hst
  simp only [seqc_phase4]
  obtain ⟨m1a, m1b, m1c, m1d⟩ := mk_yvar_ok h2 h1 ((vars.length : Int) - 1, tval)
  refine ⟨by omega, ?_⟩
  apply okCNF_append
  · exact okCNF_mono h3 (le_refl _) (by omega)
  · intro c hc
    rcases (by simpa using hc : c = _) with rfl
    exact forall_mem_pair (okLit_neg (okLit_of_mem (nth_mem (by omega))))
      (okLit_neg (okLit_fresh m1c (by omega)))

theorem seqcounter_encode_atmostN_ok (top : Int) (vars : List Int)
    (tval : Int) :
    top ≤ (seqcounter_encode_atmostN top vars tval).2 ∧
    okCNF vars top (seqcounter_encode_atmostN top vars tval).2
      (seqcounter_encode_atmostN top vars tval).1 := by
  unfold seqcounter_encode_atmostN
  by_cases hb1 : vars.length ≤ usize tval
  · rw [if_pos hb1]
    exact ⟨le_refl _, okCNF_nil⟩
  rw [if_neg hb1]
  by_cases hb2 : usize tval = vars.length - 1
  · rw [if_pos hb2]
    exact ⟨le_refl _, common_encode_atmostNm1_ok⟩
  rw [if_neg hb2]
  by_cases hb3 : tval = 0
  · rw [if_pos hb3]
    exact ⟨le_refl _, common_encode_atmost0_ok⟩
  rw [if_neg hb3]
  have hn1 : 0 < vars.length := by
    rcases Nat.eq_zero_or_pos vars.length with h | h
    · exact absurd (by omega) hb1
    · exact h
  have h1 := @seqc_phase1_ok top vars hn1
  have h2 := foldl_inv (SeqInv vars top) (fun _ => True) seqc_phase2
    (fun s x hs _ => seqc_phase2_ok hs)
    ((List.range' 2 (tval.toNat - 1)).map (fun (j : Nat) => (j : Int)))
    (fun x _ => trivial) _ h1
  have h3 := foldl_inv (SeqInv vars top)
    (fun x : Int => x.toNat - 1 < vars.length) (seqc_phase3 vars tval)
    (fun s x hs hx => seqc_phase3_ok hs hx)
    ((List.range' 2 (vars.length - 2)).map (fun (i : Nat) => (i : Int)))
    (by
      intro x hx
      simp only [List.mem_map, List.mem_range'] at hx
      obtain ⟨i, hi, hv⟩ := hx
      omega) _ h2
  exact seqc_phase4_ok h3 hn1

-- ==== invariant lemmas for the sorting and cardinality networks ============

theorem okVec_of_subset {V : List Int} {t t0 : Int} {w w' : List Int}
    (h : okVec V t t0 w) (hsub : ∀ x ∈ w', x ∈ w) : okVec V t t0 w' :=
  fun v hv => h v (hsub v hv)

theorem okLit_neg' {V : List Int} {t t0 l : Int} (h : okLit V t t0 (-l)) :
    okLit V t t0 l := by
  simpa using okLit_neg h

/-- Composition: if the entries of W are accounted for over (b, t1]
relative to V, then anything accounted for over (t1, t2] relative to W is
accounted for over (b, t2] relative to V. -/
theorem okLit_compose {V W : List Int} {b t1 t2 l : Int}
    (hW : okVec V b t1 W) (hl : okLit W t1 t2 l) (h1 : b ≤ t1)
    (h2 : t1 ≤ t2) : okLit V b t2 l := by
  have lift : ∀ x, x ∈ W → okLit V b t2 x := by
    intro x hx
    rcases hW x hx with h | h | h | h
    · exact Or.inl h
    · exact Or.inr (Or.inl h)
    · exact Or.inr (Or.inr (Or.inl ⟨h.1, by omega⟩))
    · exact Or.inr (Or.inr (Or.inr ⟨h.1, by omega⟩))
  rcases hl with h | h | h | h
  · exact lift l h
  · exact okLit_neg' (lift (-l) h)
  · exact Or.inr (Or.inr (Or.inl ⟨by omega, h.2⟩))
  · exact Or.inr (Or.inr (Or.inr ⟨by omega, h.2⟩))

theorem okVec_compose {V W : List Int} {b t1 t2 : Int} {w : List Int}
    (hW : okVec V b t1 W) (hw : okVec W t1 t2 w) (h1 : b ≤ t1)
    (h2 : t1 ≤ t2) : okVec V b t2 w :=
  fun v hv => okLit_compose hW (hw v hv) h1 h2

theorem okCNF_compose {V W : List Int} {b t1 t2 : Int} {F : CNF}
    (hW : okVec V b t1 W) (hF : okCNF W t1 t2 F) (h1 : b ≤ t1)
    (h2 : t1 ≤ t2) : okCNF V b t2 F :=
  fun c hc l hl => okLit_compose hW (hF c hc l hl) h1 h2

theorem mk_odd_vect_subset : ∀ (l : List Int), ∀ x ∈ mk_odd_vect l, x ∈ l := by
  intro l
  induction l using mk_odd_vect.induct with
  | case1 a y rest ih =>
    intro x hx
    rw [mk_odd_vect] at hx
    rcases List.mem_cons.1 hx with rfl | hx
    · simp
    · simp [ih x hx]
  | case2 l h =>
    cases l with
    | nil => intro x hx; simp [mk_odd_vect] at hx
    | cons a t =>
      cases t with
      | nil => intro x hx; simp [mk_odd_vect] at hx
      | cons y rest => exact absurd rfl (h a y rest)

theorem mk_even_vect_subset : ∀ (l : List Int), ∀ x ∈ mk_even_vect l, x ∈ l := by
  intro l
  induction l using mk_even_vect.induct with
  | case1 a y rest ih =>
    intro x hx
    rw [mk_even_vect] at hx
    rcases List.mem_cons.1 hx with rfl | hx
    · simp
    · simp [ih x hx]
  | case2 l h =>
    cases l with
    | nil => intro x hx; simp [mk_even_vect] at hx
    | cons a t =>
      cases t with
      | nil => intro x hx; simp [mk_even_vect] at hx
      | cons y rest => exact absurd rfl (h a y rest)

theorem mk_half_vect_subset {iv : List Int} {offset : Nat}
    (h : offset + iv.length / 2 ≤ iv.length) :
    ∀ x ∈ mk_half_vect iv offset, x ∈ iv := by
  intro x hx
  simp only [mk_half_vect, List.mem_map, List.mem_range] at hx
  obtain ⟨k, hk, rfl⟩ := hx
  exact nth_mem (by omega)

theorem mk_ksize_vect_subset {iv : List Int} {sz offset : Nat}
    (h : offset + sz ≤ iv.length) :
    ∀ x ∈ mk_ksize_vect iv sz offset, x ∈ iv := by
  intro x hx
  simp only [mk_ksize_vect, List.mem_map, List.mem_range] at hx
  obtain ⟨k, hk, rfl⟩ := hx
  exact nth_mem (by omega)

theorem subset_append_of {w1 w2 av bv : List Int}
    (h1 : ∀ x ∈ w1, x ∈ av) (h2 : ∀ x ∈ w2, x ∈ bv) :
    ∀ x ∈ w1 ++ w2, x ∈ av ++ bv := by
  intro x hx
  rcases List.mem_append.1 hx with h | h
  · exact List.mem_append_left _ (h1 x h)
  · exact List.mem_append_right _ (h2 x h)

theorem sortn_half_merge_recur_okAux :
    ∀ (n : Nat) (top : Int) (av bv : List Int) (zvar : Int)
      (CV : List Int) (CLS : CNF) (T : Int),
    av.length ≤ n → bv.length = av.length → (∃ k, av.length = 2 ^ k) →
    sortn_half_merge_recur top av bv zvar = (CV, CLS, T) →
    top ≤ T ∧ CV.length = 2 * av.length ∧
    okVec (av ++ bv) top T CV ∧ okCNF (av ++ bv) top T CLS := by
  intro n
  induction n with
  | zero =>
    intro top av bv zvar CV CLS T hn hlen hpow hres
    obtain ⟨k, hk⟩ := hpow
    have : 1 ≤ 2 ^ k := Nat.one_le_two_pow
    omega
  | succ n ih =>
    intro top av bv zvar CV CLS T hn hlen hpow hres
    obtain ⟨k, hk⟩ := hpow
    have hk1 : 1 ≤ 2 ^ k := Nat.one_le_two_pow
    have h0 : ¬ av.length = 0 := by omega
    by_cases h1 : av.length = 1
    · have heq : sortn_half_merge_recur top av bv zvar =
          ([top + 1, top + 2],
           [[-(nth av 0), top + 1], [-(nth bv 0), top + 1],
            [-(nth av 0), -(nth bv 0), top + 2]], top + 2) := by
        rw [sortn_half_merge_recur.eq_def]
        rw [if_neg h0, if_pos h1]
      rw [heq] at hres
      injection hres with hCV hres
      injection hres with hCLS hT
      subst hCV hCLS hT
      refine ⟨by omega, by simp [h1], ?_, ?_⟩
      · intro v hv
        rcases (by simpa using hv : v = top + 1 ∨ v = top + 2) with rfl | rfl
        · exact okLit_fresh (by omega) (by omega)
        · exact okLit_fresh (by omega) (by omega)
      · intro c hc
        have hav : nth av 0 ∈ av ++ bv :=
          List.mem_append_left _ (nth_mem (by omega))
        have hbv : nth bv 0 ∈ av ++ bv :=
          List.mem_append_right _ (nth_mem (by omega))
        rcases (by simpa using hc : c = _ ∨ c = _ ∨ c = _) with rfl | rfl | rfl
        · exact forall_mem_pair (okLit_neg (okLit_of_mem hav))
            (okLit_fresh (by omega) (by omega))
        · exact forall_mem_pair (okLit_neg (okLit_of_mem hbv))
            (okLit_fresh (by omega) (by omega))
        · exact forall_mem_triple (okLit_neg (okLit_of_mem hav))
            (okLit_neg (okLit_of_mem hbv))
            (okLit_fresh (by omega) (by omega))
    · obtain ⟨k2, rfl⟩ : ∃ k2, k = k2 + 1 := by
        rcases k with _ | k2
        · omega
        · exact ⟨k2, rfl⟩
      have hk2 : av.length = 2 ^ k2 * 2 := by rw [hk, pow_succ]
      have hpos : 1 ≤ 2 ^ k2 := Nat.one_le_two_pow
      have hao : (mk_odd_vect av).length = 2 ^ k2 := by
        rw [mk_odd_vect_length, hk2]
        omega
      have hae : (mk_even_vect av).length = 2 ^ k2 := by
        rw [mk_even_vect_length, hk2]
        omega
      have hbo : (mk_odd_vect bv).length = 2 ^ k2 := by
        rw [mk_odd_vect_length, hlen, hk2]
        omega
      have hbe : (mk_even_vect bv).length = 2 ^ k2 := by
        rw [mk_even_vect_length, hlen, hk2]
        omega
      have hsubO : ∀ x ∈ mk_odd_vect av ++ mk_odd_vect bv, x ∈ av ++ bv :=
        subset_append_of (mk_odd_vect_subset av) (mk_odd_vect_subset bv)
      have hsubE : ∀ x ∈ mk_even_vect av ++ mk_even_vect bv, x ∈ av ++ bv :=
        subset_append_of (mk_even_vect_subset av) (mk_even_vect_subset bv)
      set r1 := sortn_half_merge_recur top (mk_odd_vect av)
        (mk_odd_vect bv) zvar with hr1
      set r2 := sortn_half_merge_recur r1.2.2 (mk_even_vect av)
        (mk_even_vect bv) zvar with hr2
      obtain ⟨a1, a2, a3, a4⟩ := ih top (mk_odd_vect av) (mk_odd_vect bv)
        zvar r1.1 r1.2.1 r1.2.2 (by omega) (by rw [hbo, hao]) ⟨k2, hao⟩ rfl
      obtain ⟨b1, b2, b3, b4⟩ := ih r1.2.2 (mk_even_vect av)
        (mk_even_vect bv) zvar r2.1 r2.2.1 r2.2.2 (by omega)
        (by rw [hbe, hae]) ⟨k2, hae⟩ rfl
      set cv := (nth r1.1 0 :: freshVars r2.2.2 (2 * av.length - 2)) ++
        [nth r2.1 (r2.1.length - 1)] with hcvdef
      have heq : sortn_half_merge_recur top av bv zvar =
          (cv, r1.2.1 ++ r2.2.1 ++
            (List.range (av.length - 1)).flatMap (fun i =>
              [[-(nth r1.1 (i + 1)), nth cv (2 * i + 1)],
               [-(nth r2.1 i), nth cv (2 * i + 1)],
               [-(nth r1.1 (i + 1)), -(nth r2.1 i), nth cv (2 * i + 2)]]),
            r2.2.2 + ((2 * av.length - 2 : Nat) : Int)) := by
        rw [sortn_half_merge_recur.eq_def]
        rw [if_neg h0, if_neg h1]
        rfl
      rw [heq] at hres
      injection hres with hCV hres
      injection hres with hCLS hT
      subst hCV hCLS hT
      have hdvlen : r1.1.length = av.length := by rw [a2, hao, hk2]; omega
      have hevlen : r2.1.length = av.length := by rw [b2, hae, hk2]; omega
      have hcvlen : cv.length = 2 * av.length := by
        rw [hcvdef]
        simp [freshVars_length]
        omega
      have hcv : okVec (av ++ bv) top
          (r2.2.2 + ((2 * av.length - 2 : Nat) : Int)) cv := by
        rw [hcvdef]
        apply okVec_append
        · intro v hv
          rcases List.mem_cons.1 hv with rfl | hv
          · exact okLit_mono (okLit_sub (okVec_nth a3 (by omega)) hsubO)
              (le_refl _) (by omega)
          · obtain ⟨hf1, hf2⟩ := freshVars_mem hv
            exact okLit_fresh (by omega) (by omega)
        · intro v hv
          simp only [List.mem_singleton] at hv
          subst hv
          exact okLit_mono (okLit_sub (okVec_nth b3 (by omega)) hsubE)
            (by omega) (by omega)
      refine ⟨by omega, hcvlen, hcv, ?_⟩
      apply okCNF_append
      apply okCNF_append
      · exact okCNF_mono (okCNF_sub a4 hsubO) (le_refl _) (by omega)
      · exact okCNF_mono (okCNF_sub b4 hsubE) (by omega) (by omega)
      · intro c hc
        simp only [List.mem_flatMap, List.mem_range] at hc
        obtain ⟨i, hi, hc⟩ := hc
        have hdvi : okLit (av ++ bv) top
            (r2.2.2 + ((2 * av.length - 2 : Nat) : Int)) (nth r1.1 (i + 1)) :=
          okLit_mono (okLit_sub (okVec_nth a3 (by omega)) hsubO)
            (le_refl _) (by omega)
        have hevi : okLit (av ++ bv) top
            (r2.2.2 + ((2 * av.length - 2 : Nat) : Int)) (nth r2.1 i) :=
          okLit_mono (okLit_sub (okVec_nth b3 (by omega)) hsubE)
            (by omega) (by omega)
        have hcv1 : okLit (av ++ bv) top
            (r2.2.2 + ((2 * av.length - 2 : Nat) : Int)) (nth cv (2 * i + 1)) :=
          okVec_nth hcv (by omega)
        have hcv2 : okLit (av ++ bv) top
            (r2.2.2 + ((2 * av.length - 2 : Nat) : Int)) (nth cv (2 * i + 2)) :=
          okVec_nth hcv (by omega)
        rcases (by simpa using hc : c = _ ∨ c = _ ∨ c = _) with rfl | rfl | rfl
        · exact forall_mem_pair (okLit_neg hdvi) hcv1
        · exact forall_mem_pair (okLit_neg hevi) hcv1
        · exact forall_mem_triple (okLit_neg hdvi) (okLit_neg hevi) hcv2

theorem sortn_half_merge_recur_ok (top : Int) (av bv : List Int) (zvar : Int)
    (hlen : bv.length = av.length) (hpow : ∃ k, av.length = 2 ^ k) :
    top ≤ (sortn_half_merge_recur top av bv zvar).2.2 ∧
    (sortn_half_merge_recur top av bv zvar).1.length = 2 * av.length ∧
    okVec (av ++ bv) top (sortn_half_merge_recur top av bv zvar).2.2
      (sortn_half_merge_recur top av bv zvar).1 ∧
    okCNF (av ++ bv) top (sortn_half_merge_recur top av bv zvar).2.2
      (sortn_half_merge_recur top av bv zvar).2.1 :=
  sortn_half_merge_recur_okAux av.length top av bv zvar _ _ _ (le_refl _)
    hlen hpow rfl

theorem sortn_half_sorter_recur_okAux :
    ∀ (n : Nat) (top : Int) (av : List Int) (zvar : Int)
      (OUT : List Int) (CLS : CNF) (T : Int),
    av.length ≤ n → 2 ≤ av.length → (∃ k, av.length = 2 ^ k) →
    sortn_half_sorter_recur top av zvar = (OUT, CLS, T) →
    top ≤ T ∧ OUT.length = av.length ∧
    okVec av top T OUT ∧ okCNF av top T CLS := by
  intro n
  induction n with
  | zero =>
    intro top av zvar OUT CLS T hn h2 hpow hres
    omega
  | succ n ih =>
    intro top av zvar OUT CLS T hn h2 hpow hres
    obtain ⟨k, hk⟩ := hpow
    have h0 : ¬ av.length ≤ 1 := by omega
    by_cases h1 : av.length = 2
    · have heq : sortn_half_sorter_recur top av zvar =
          sortn_half_merge_recur top [nth av 0] [nth av 1] zvar := by
        rw [sortn_half_sorter_recur.eq_def]
        rw [if_neg h0, if_pos h1]
      rw [heq] at hres
      obtain ⟨m1, m2, m3, m4⟩ := sortn_half_merge_recur_okAux 1 top
        [nth av 0] [nth av 1] zvar OUT CLS T (by simp) (by simp)
        ⟨0, by simp⟩ hres
      have hsub : ∀ x ∈ ([nth av 0] ++ [nth av 1] : List Int), x ∈ av := by
        intro x hx
        rcases (by simpa using hx : x = nth av 0 ∨ x = nth av 1) with rfl | rfl
        · exact nth_mem (by omega)
        · exact nth_mem (by omega)
      refine ⟨m1, by simp at m2; omega, okVec_sub m3 hsub, okCNF_sub m4 hsub⟩
    · obtain ⟨k2, rfl⟩ : ∃ k2, k = k2 + 1 := by
        rcases k with _ | k2
        · omega
        · exact ⟨k2, rfl⟩
      have hk2 : av.length = 2 ^ k2 * 2 := by rw [hk, pow_succ]
      have hpos : 1 ≤ 2 ^ k2 := Nat.one_le_two_pow
      have hk2ge : 2 ≤ 2 ^ k2 := by
        rcases Nat.eq_zero_or_pos k2 with rfl | hp
        · simp at hk2
          omega
        · calc 2 = 2 ^ 1 := by norm_num
            _ ≤ 2 ^ k2 := Nat.pow_le_pow_right (by norm_num) hp
      have hlav : (mk_half_vect av 0).length = 2 ^ k2 := by
        rw [mk_half_vect_length, hk2]
        omega
      have huav : (mk_half_vect av (av.length / 2)).length = 2 ^ k2 := by
        rw [mk_half_vect_length, hk2]
        omega
      have hsubL : ∀ x ∈ mk_half_vect av 0, x ∈ av :=
        mk_half_vect_subset (by omega)
      have hsubU : ∀ x ∈ mk_half_vect av (av.length / 2), x ∈ av :=
        mk_half_vect_subset (by omega)
      set r1 := sortn_half_sorter_recur top (mk_half_vect av 0) zvar with hr1
      set r2 := sortn_half_sorter_recur r1.2.2
        (mk_half_vect av (av.length / 2)) zvar with hr2
      set r3 := sortn_half_merge_recur r2.2.2 r1.1 r2.1 zvar with hr3
      obtain ⟨a1, a2, a3, a4⟩ := ih top (mk_half_vect av 0) zvar
        r1.1 r1.2.1 r1.2.2 (by omega) (by omega) ⟨k2, hlav⟩ rfl
      obtain ⟨b1, b2, b3, b4⟩ := ih r1.2.2 (mk_half_vect av (av.length / 2))
        zvar r2.1 r2.2.1 r2.2.2 (by omega) (by omega) ⟨k2, huav⟩ rfl
      obtain ⟨c1, c2, c3, c4⟩ := sortn_half_merge_recur_okAux r1.1.length
        r2.2.2 r1.1 r2.1 zvar r3.1 r3.2.1 r3.2.2 (le_refl _)
        (by omega) ⟨k2, by omega⟩ rfl
      have heq : sortn_half_sorter_recur top av zvar =
          (r3.1, r1.2.1 ++ r2.2.1 ++ r3.2.1, r3.2.2) := by
        rw [sortn_half_sorter_recur.eq_def]
        rw [if_neg h0, if_neg h1]
      rw [heq] at hres
      injection hres with hCV hres
      injection hres with hCLS hT
      subst hCV hCLS hT
      have hW : okVec av top r2.2.2 (r1.1 ++ r2.1) :=
        okVec_append (okVec_mono (okVec_sub a3 hsubL) (le_refl _) b1)
          (okVec_mono (okVec_sub b3 hsubU) a1 (le_refl _))
      refine ⟨by omega, by omega, ?_, ?_⟩
      · exact okVec_compose hW c3 (by omega) c1
      · apply okCNF_append
        apply okCNF_append
        · exact okCNF_mono (okCNF_sub a4 hsubL) (le_refl _) (by omega)
        · exact okCNF_mono (okCNF_sub b4 hsubU) a1 c1
        · exact okCNF_compose hW c4 (by omega) c1

theorem sortn_nnvars_spec (n : Nat) :
    n ≤ sortn_nnvars n ∧ (∃ k, sortn_nnvars n = 2 ^ k) ∧
    (sortn_nnvars n ≠ n → 2 ≤ sortn_nnvars n) := by
  unfold sortn_nnvars
  by_cases h : n = 2 ^ Nat.log 2 n
  · rw [if_pos h]
    exact ⟨le_of_eq h, ⟨Nat.log 2 n, rfl⟩, fun hne => absurd h.symm hne⟩
  · rw [if_neg h]
    have hlt : n < 2 ^ (Nat.log 2 n + 1) := Nat.lt_pow_succ_log_self
      (by norm_num) n
    refine ⟨by omega, ⟨Nat.log 2 n + 1, rfl⟩, fun _ => ?_⟩
    have : 2 ^ 1 ≤ 2 ^ (Nat.log 2 n + 1) :=
      Nat.pow_le_pow_right (by norm_num) (by omega)
    omega

theorem sortn_encode_atmostN_ok (top : Int) (vars : List Int) (rhs : Int)
    (h0 : 0 ≤ rhs) :
    top ≤ (sortn_encode_atmostN top vars rhs).2 ∧
    okCNF vars top (sortn_encode_atmostN top vars rhs).2
      (sortn_encode_atmostN top vars rhs).1 := by
  obtain ⟨hn1, ⟨kn, hkn⟩, hn2⟩ := sortn_nnvars_spec vars.length
  by_cases hb1 : rhs ≥ (vars.length : Int)
  · have heq : sortn_encode_atmostN top vars rhs = ([], top) := by
      unfold sortn_encode_atmostN
      rw [if_pos hb1]
    rw [heq]
    exact ⟨le_refl _, okCNF_nil⟩
  by_cases hb2 : rhs = (vars.length : Int) - 1
  · have heq : sortn_encode_atmostN top vars rhs =
        (common_encode_atmostNm1 vars, top) := by
      unfold sortn_encode_atmostN
      rw [if_neg hb1, if_pos hb2]
    rw [heq]
    exact ⟨le_refl _, common_encode_atmostNm1_ok⟩
  by_cases hb3 : rhs = 0
  · have heq : sortn_encode_atmostN top vars rhs =
        (common_encode_atmost0 vars, top) := by
      unfold sortn_encode_atmostN
      rw [if_neg hb1, if_neg hb2, if_pos hb3]
    rw [heq]
    exact ⟨le_refl _, common_encode_atmost0_ok⟩
  have hn3 : 3 ≤ vars.length := by omega
  by_cases hpad : sortn_nnvars vars.length ≠ vars.length
  · set vvect := vars ++ List.replicate
      (sortn_nnvars vars.length - vars.length) (top + 1) with hvv
    set r := sortn_half_sorter_recur (top + 1) vvect (top + 1) with hr
    have heq : sortn_encode_atmostN top vars rhs =
        ([[-(top + 1)]] ++ r.2.1 ++ [[-(nth r.1 rhs.toNat)]], r.2.2) := by
      unfold sortn_encode_atmostN
      rw [if_neg hb1, if_neg hb2, if_neg hb3]
      simp only [if_pos hpad]
    rw [heq]
    have hvlen : vvect.length = sortn_nnvars vars.length := by
      rw [hvv]
      simp
      omega
    have hok : okVec vars top (top + 1) vvect := by
      rw [hvv]
      apply okVec_append
      · exact okVec_of_mem (fun v hv => hv)
      · intro v hv
        have := List.eq_of_mem_replicate hv
        subst this
        exact okLit_fresh (by omega) (by omega)
    obtain ⟨a1, a2, a3, a4⟩ := sortn_half_sorter_recur_okAux vvect.length
      (top + 1) vvect (top + 1) r.1 r.2.1 r.2.2 (le_refl _)
      (by omega) ⟨kn, by omega⟩ rfl
    refine ⟨by omega, ?_⟩
    apply okCNF_append
    apply okCNF_append
    · intro c hc
      simp only [List.mem_singleton] at hc
      subst hc
      exact forall_mem_single (okLit_neg (okLit_fresh
        (show top < top + 1 by omega) (show top + 1 ≤ r.2.2 by omega)))
    · exact okCNF_compose hok a4 (by omega) a1
    · intro c hc
      rcases (by simpa using hc : c = _) with rfl
      refine forall_mem_single (okLit_neg ?_)
      exact okLit_compose hok
        (okVec_nth a3 (show rhs.toNat < r.1.length by omega)) (by omega) a1
  · push_neg at hpad
    set r := sortn_half_sorter_recur top vars 0 with hr
    have heq : sortn_encode_atmostN top vars rhs =
        ([] ++ r.2.1 ++ [[-(nth r.1 rhs.toNat)]], r.2.2) := by
      unfold sortn_encode_atmostN
      rw [if_neg hb1, if_neg hb2, if_neg hb3]
      simp only [hpad, ne_eq, not_true_eq_false, if_false]
    rw [heq]
    obtain ⟨a1, a2, a3, a4⟩ := sortn_half_sorter_recur_okAux vars.length
      top vars 0 r.1 r.2.1 r.2.2 (le_refl _) (by omega)
      ⟨kn, by omega⟩ rfl
    refine ⟨a1, ?_⟩
    apply okCNF_append
    apply okCNF_append
    · exact okCNF_nil
    · exact a4
    · intro c hc
      rcases (by simpa using hc : c = _) with rfl
      exact forall_mem_single (okLit_neg
        (okVec_nth a3 (show rhs.toNat < r.1.length by omega)))

theorem cardn_simple_merge_recur_okAux :
    ∀ (n : Nat) (top : Int) (av bv : List Int) (zvar : Int)
      (CV : List Int) (CLS : CNF) (T : Int),
    av.length ≤ n → bv.length = av.length → (∃ k, av.length = 2 ^ k) →
    cardn_simple_merge_recur top av bv zvar = (CV, CLS, T) →
    top ≤ T ∧ CV.length = av.length + 1 ∧
    okVec (av ++ bv) top T CV ∧ okCNF (av ++ bv) top T CLS := by
  intro n
  induction n with
  | zero =>
    intro top av bv zvar CV CLS T hn hlen hpow hres
    obtain ⟨k, hk⟩ := hpow
    have : 1 ≤ 2 ^ k := Nat.one_le_two_pow
    omega
  | succ n ih =>
    intro top av bv zvar CV CLS T hn hlen hpow hres
    obtain ⟨k, hk⟩ := hpow
    have hk1 : 1 ≤ 2 ^ k := Nat.one_le_two_pow
    have h0 : ¬ av.length = 0 := by omega
    by_cases h1 : av.length = 1
    · have heq : cardn_simple_merge_recur top av bv zvar =
          ([top + 1, top + 2],
           [[-(nth av 0), top + 1], [-(nth bv 0), top + 1],
            [-(nth av 0), -(nth bv 0), top + 2]], top + 2) := by
        rw [cardn_simple_merge_recur.eq_def]
        rw [if_neg h0, if_pos h1]
      rw [heq] at hres
      injection hres with hCV hres
      injection hres with hCLS hT
      subst hCV hCLS hT
      refine ⟨by omega, by simp [h1], ?_, ?_⟩
      · intro v hv
        rcases (by simpa using hv : v = top + 1 ∨ v = top + 2) with rfl | rfl
        · exact okLit_fresh (by omega) (by omega)
        · exact okLit_fresh (by omega) (by omega)
      · intro c hc
        have hav : nth av 0 ∈ av ++ bv :=
          List.mem_append_left _ (nth_mem (by omega))
        have hbv : nth bv 0 ∈ av ++ bv :=
          List.mem_append_right _ (nth_mem (by omega))
        rcases (by simpa using hc : c = _ ∨ c = _ ∨ c = _) with rfl | rfl | rfl
        · exact forall_mem_pair (okLit_neg (okLit_of_mem hav))
            (okLit_fresh (by omega) (by omega))
        · exact forall_mem_pair (okLit_neg (okLit_of_mem hbv))
            (okLit_fresh (by omega) (by omega))
        · exact forall_mem_triple (okLit_neg (okLit_of_mem hav))
            (okLit_neg (okLit_of_mem hbv))
            (okLit_fresh (by omega) (by omega))
    · obtain ⟨k2, rfl⟩ : ∃ k2, k = k2 + 1 := by
        rcases k with _ | k2
        · omega
        · exact ⟨k2, rfl⟩
      have hk2 : av.length = 2 ^ k2 * 2 := by rw [hk, pow_succ]
      have hpos : 1 ≤ 2 ^ k2 := Nat.one_le_two_pow
      have hao : (mk_odd_vect av).length = 2 ^ k2 := by
        rw [mk_odd_vect_length, hk2]
        omega
      have hae : (mk_even_vect av).length = 2 ^ k2 := by
        rw [mk_even_vect_length, hk2]
        omega
      have hbo : (mk_odd_vect bv).length = 2 ^ k2 := by
        rw [mk_odd_vect_length, hlen, hk2]
        omega
      have hbe : (mk_even_vect bv).length = 2 ^ k2 := by
        rw [mk_even_vect_length, hlen, hk2]
        omega
      have hsubO : ∀ x ∈ mk_odd_vect av ++ mk_odd_vect bv, x ∈ av ++ bv :=
        subset_append_of (mk_odd_vect_subset av) (mk_odd_vect_subset bv)
      have hsubE : ∀ x ∈ mk_even_vect av ++ mk_even_vect bv, x ∈ av ++ bv :=
        subset_append_of (mk_even_vect_subset av) (mk_even_vect_subset bv)
      set r1 := cardn_simple_merge_recur top (mk_odd_vect av)
        (mk_odd_vect bv) zvar with hr1
      set r2 := cardn_simple_merge_recur r1.2.2 (mk_even_vect av)
        (mk_even_vect bv) zvar with hr2
      obtain ⟨a1, a2, a3, a4⟩ := ih top (mk_odd_vect av) (mk_odd_vect bv)
        zvar r1.1 r1.2.1 r1.2.2 (by omega) (by rw [hbo, hao]) ⟨k2, hao⟩ rfl
      obtain ⟨b1, b2, b3, b4⟩ := ih r1.2.2 (mk_even_vect av)
        (mk_even_vect bv) zvar r2.1 r2.2.1 r2.2.2 (by omega)
        (by rw [hbe, hae]) ⟨k2, hae⟩ rfl
      set cv := nth r1.1 0 :: freshVars r2.2.2 av.length with hcvdef
      have heq : cardn_simple_merge_recur top av bv zvar =
          (cv, r1.2.1 ++ r2.2.1 ++
            (List.range (av.length / 2)).flatMap (fun i =>
              [[-(nth r1.1 (i + 1)), nth cv (2 * i + 1)],
               [-(nth r2.1 i), nth cv (2 * i + 1)],
               [-(nth r1.1 (i + 1)), -(nth r2.1 i), nth cv (2 * i + 2)]]),
            r2.2.2 + ((av.length : Nat) : Int)) := by
        rw [cardn_simple_merge_recur.eq_def]
        rw [if_neg h0, if_neg h1]
        rfl
      rw [heq] at hres
      injection hres with hCV hres
      injection hres with hCLS hT
      subst hCV hCLS hT
      have hdvlen : r1.1.length = 2 ^ k2 + 1 := by rw [a2, hao]
      have hevlen : r2.1.length = 2 ^ k2 + 1 := by rw [b2, hae]
      have hcvlen : cv.length = av.length + 1 := by
        rw [hcvdef]
        simp [freshVars_length]
      have hcv : okVec (av ++ bv) top
          (r2.2.2 + ((av.length : Nat) : Int)) cv := by
        rw [hcvdef]
        intro v hv
        rcases List.mem_cons.1 hv with rfl | hv
        · exact okLit_mono (okLit_sub (okVec_nth a3 (by omega)) hsubO)
            (le_refl _) (by omega)
        · obtain ⟨hf1, hf2⟩ := freshVars_mem hv
          exact okLit_fresh (by omega) (by omega)
      refine ⟨by omega, hcvlen, hcv, ?_⟩
      apply okCNF_append
      apply okCNF_append
      · exact okCNF_mono (okCNF_sub a4 hsubO) (le_refl _) (by omega)
      · exact okCNF_mono (okCNF_sub b4 hsubE) (by omega) (by omega)
      · intro c hc
        simp only [List.mem_flatMap, List.mem_range] at hc
        obtain ⟨i, hi, hc⟩ := hc
        have hdvi : okLit (av ++ bv) top
            (r2.2.2 + ((av.length : Nat) : Int)) (nth r1.1 (i + 1)) :=
          okLit_mono (okLit_sub (okVec_nth a3 (by omega)) hsubO)
            (le_refl _) (by omega)
        have hevi : okLit (av ++ bv) top
            (r2.2.2 + ((av.length : Nat) : Int)) (nth r2.1 i) :=
          okLit_mono (okLit_sub (okVec_nth b3 (by omega)) hsubE)
            (by omega) (by omega)
        have hcv1 : okLit (av ++ bv) top
            (r2.2.2 + ((av.length : Nat) : Int)) (nth cv (2 * i + 1)) :=
          okVec_nth hcv (by omega)
        have hcv2 : okLit (av ++ bv) top
            (r2.2.2 + ((av.length : Nat) : Int)) (nth cv (2 * i + 2)) :=
          okVec_nth hcv (by omega)
        rcases (by simpa using hc : c = _ ∨ c = _ ∨ c = _) with rfl | rfl | rfl
        · exact forall_mem_pair (okLit_neg hdvi) hcv1
        · exact forall_mem_pair (okLit_neg hevi) hcv1
        · exact forall_mem_triple (okLit_neg hdvi) (okLit_neg hevi) hcv2

theorem cardn_recur_okAux :
    ∀ (n : Nat) (top : Int) (av : List Int) (zvar : Int) (nkval : Nat)
      (OUT : List Int) (CLS : CNF) (T : Int),
    av.length ≤ n → 0 < av.length → nkval ∣ av.length →
    (∃ k, nkval = 2 ^ k) →
    cardn_recur top av zvar nkval = (OUT, CLS, T) →
    top ≤ T ∧ OUT.length = nkval ∧
    okVec av top T OUT ∧ okCNF av top T CLS := by
  intro n
  induction n with
  | zero =>
    intro top av zvar nkval OUT CLS T hn hlen hdvd hpow hres
    omega
  | succ n ih =>
    intro top av zvar nkval OUT CLS T hn hlen hdvd hpow hres
    obtain ⟨k, hk⟩ := hpow
    have hk1 : 1 ≤ 2 ^ k := Nat.one_le_two_pow
    have hle : nkval ≤ av.length := Nat.le_of_dvd hlen hdvd
    by_cases h1 : av.length = nkval
    · by_cases h2 : av.length = 1
      · have heq : cardn_recur top av zvar nkval = (av, [], top) := by
          rw [cardn_recur.eq_def]
          rw [if_pos h1, if_pos h2]
        rw [heq] at hres
        injection hres with hCV hres
        injection hres with hCLS hT
        subst hCV hCLS hT
        exact ⟨le_refl _, by omega, okVec_of_mem (fun v hv => hv), okCNF_nil⟩
      · have heq : cardn_recur top av zvar nkval =
            sortn_half_sorter_recur top av zvar := by
          rw [cardn_recur.eq_def]
          rw [if_pos h1, if_neg h2]
        rw [heq] at hres
        obtain ⟨a1, a2, a3, a4⟩ := sortn_half_sorter_recur_okAux av.length
          top av zvar OUT CLS T (le_refl _) (by omega) ⟨k, by omega⟩ hres
        exact ⟨a1, by omega, a3, a4⟩
    · have hcond : ¬ (av.length < nkval ∨ nkval = 0) := by omega
      obtain ⟨m, hm⟩ := hdvd
      have hm2 : 2 ≤ m := by
        rcases m with _ | _ | m
        · omega
        · omega
        · omega
      have hlav : (mk_ksize_vect av nkval 0).length = nkval :=
        mk_ksize_vect_length av nkval 0
      have huav : (mk_ksize_vect av (av.length - nkval) nkval).length =
          av.length - nkval :=
        mk_ksize_vect_length av (av.length - nkval) nkval
      have hsubL : ∀ x ∈ mk_ksize_vect av nkval 0, x ∈ av :=
        mk_ksize_vect_subset (by omega)
      have hsubU : ∀ x ∈ mk_ksize_vect av (av.length - nkval) nkval, x ∈ av :=
        mk_ksize_vect_subset (by omega)
      set r1 := cardn_recur top (mk_ksize_vect av nkval 0) zvar nkval with hr1
      set r2 := cardn_recur r1.2.2
        (mk_ksize_vect av (av.length - nkval) nkval) zvar nkval with hr2
      set r3 := cardn_simple_merge_recur r2.2.2 r1.1 r2.1 zvar with hr3
      obtain ⟨a1, a2, a3, a4⟩ := ih top (mk_ksize_vect av nkval 0) zvar nkval
        r1.1 r1.2.1 r1.2.2 (by omega) (by omega) (by rw [hlav]) ⟨k, hk⟩ rfl
      obtain ⟨b1, b2, b3, b4⟩ := ih r1.2.2
        (mk_ksize_vect av (av.length - nkval) nkval) zvar nkval
        r2.1 r2.2.1 r2.2.2 (by omega) (by omega)
        (by rw [huav, hm]; exact Nat.dvd_sub' (dvd_mul_right nkval m) dvd_rfl)
        ⟨k, hk⟩ rfl
      obtain ⟨c1, c2, c3, c4⟩ := cardn_simple_merge_recur_okAux r1.1.length
        r2.2.2 r1.1 r2.1 zvar r3.1 r3.2.1 r3.2.2 (le_refl _)
        (by omega) ⟨k, by omega⟩ rfl
      have heq : cardn_recur top av zvar nkval =
          (r3.1.dropLast, r1.2.1 ++ r2.2.1 ++ r3.2.1, r3.2.2) := by
        rw [cardn_recur.eq_def]
        rw [if_neg h1, if_neg hcond]
      rw [heq] at hres
      injection hres with hCV hres
      injection hres with hCLS hT
      subst hCV hCLS hT
      have hW : okVec av top r2.2.2 (r1.1 ++ r2.1) :=
        okVec_append (okVec_mono (okVec_sub a3 hsubL) (le_refl _) b1)
          (okVec_mono (okVec_sub b3 hsubU) a1 (le_refl _))
      refine ⟨by omega, ?_, ?_, ?_⟩
      · rw [List.length_dropLast]
        omega
      · intro v hv
        exact okVec_compose hW c3 (by omega) c1 v
          (List.mem_of_mem_dropLast hv)
      · apply okCNF_append
        apply okCNF_append
        · exact okCNF_mono (okCNF_sub a4 hsubL) (le_refl _) (by omega)
        · exact okCNF_mono (okCNF_sub b4 hsubU) a1 c1
        · exact okCNF_compose hW c4 (by omega) c1

theorem cardn_encode_atmostN_ok (top : Int) (vars : List Int) (rhs : Int)
    (h0 : 0 ≤ rhs) :
    top ≤ (cardn_encode_atmostN top vars rhs).2 ∧
    okCNF vars top (cardn_encode_atmostN top vars rhs).2
      (cardn_encode_atmostN top vars rhs).1 := by
  by_cases hb1 : rhs ≥ (vars.length : Int)
  · have heq : cardn_encode_atmostN top vars rhs = ([], top) := by
      unfold cardn_encode_atmostN
      rw [if_pos hb1]
    rw [heq]
    exact ⟨le_refl _, okCNF_nil⟩
  by_cases hb2 : rhs = (vars.length : Int) - 1
  · have heq : cardn_encode_atmostN top vars rhs =
        (common_encode_atmostNm1 vars, top) := by
      unfold cardn_encode_atmostN
      rw [if_neg hb1, if_pos hb2]
    rw [heq]
    exact ⟨le_refl _, common_encode_atmostNm1_ok⟩
  by_cases hb3 : rhs = 0
  · have heq : cardn_encode_atmostN top vars rhs =
        (common_encode_atmost0 vars, top) := by
      unfold cardn_encode_atmostN
      rw [if_neg hb1, if_neg hb2, if_pos hb3]
    rw [heq]
    exact ⟨le_refl _, common_encode_atmost0_ok⟩
  have hn3 : 3 ≤ vars.length := by omega
  have hKpow : cardn_nkval rhs.toNat = 2 ^ (Nat.log 2 rhs.toNat + 1) := rfl
  have hKpos : 0 < cardn_nkval rhs.toNat := by
    rw [hKpow]
    exact Nat.pos_pow_of_pos _ (by norm_num)
  have hklt : rhs.toNat < cardn_nkval rhs.toNat := by
    rw [hKpow]
    exact Nat.lt_pow_succ_log_self (by norm_num) rhs.toNat
  have hmod := Nat.div_add_mod vars.length (cardn_nkval rhs.toNat)
  have hmlt := Nat.mod_lt vars.length hKpos
  have hexp : (vars.length / cardn_nkval rhs.toNat + 1) * cardn_nkval rhs.toNat
      = cardn_nkval rhs.toNat * (vars.length / cardn_nkval rhs.toNat) +
        cardn_nkval rhs.toNat := by ring
  have hcomm : vars.length / cardn_nkval rhs.toNat * cardn_nkval rhs.toNat =
      cardn_nkval rhs.toNat * (vars.length / cardn_nkval rhs.toNat) :=
    Nat.mul_comm _ _
  by_cases hpad : vars.length >
      vars.length / cardn_nkval rhs.toNat * cardn_nkval rhs.toNat
  · set vvect := vars ++ List.replicate
      ((vars.length / cardn_nkval rhs.toNat + 1) * cardn_nkval rhs.toNat -
        vars.length) (top + 1) with hvv
    set r := cardn_recur (top + 1) vvect (top + 1)
      (cardn_nkval rhs.toNat) with hr
    have heq : cardn_encode_atmostN top vars rhs =
        ([[-(top + 1)]] ++ r.2.1 ++ [[-(nth r.1 rhs.toNat)]], r.2.2) := by
      unfold cardn_encode_atmostN
      rw [if_neg hb1, if_neg hb2, if_neg hb3]
      simp only [if_pos hpad]
    rw [heq]
    have hvlen : vvect.length =
        (vars.length / cardn_nkval rhs.toNat + 1) * cardn_nkval rhs.toNat := by
      rw [hvv]
      simp only [List.length_append, List.length_replicate]
      omega
    have hok : okVec vars top (top + 1) vvect := by
      rw [hvv]
      apply okVec_append
      · exact okVec_of_mem (fun v hv => hv)
      · intro v hv
        have := List.eq_of_mem_replicate hv
        subst this
        exact okLit_fresh (by omega) (by omega)
    obtain ⟨a1, a2, a3, a4⟩ := cardn_recur_okAux vvect.length (top + 1)
      vvect (top + 1) (cardn_nkval rhs.toNat) r.1 r.2.1 r.2.2 (le_refl _)
      (by omega) (by rw [hvlen]; exact dvd_mul_left _ _)
      ⟨Nat.log 2 rhs.toNat + 1, hKpow⟩ rfl
    refine ⟨by omega, ?_⟩
    apply okCNF_append
    apply okCNF_append
    · intro c hc
      simp only [List.mem_singleton] at hc
      subst hc
      exact forall_mem_single (okLit_neg (okLit_fresh
        (show top < top + 1 by omega) (show top + 1 ≤ r.2.2 by omega)))
    · exact okCNF_compose hok a4 (by omega) a1
    · intro c hc
      simp only [List.mem_singleton] at hc
      subst hc
      refine forall_mem_single (okLit_neg ?_)
      exact okLit_compose hok
        (okVec_nth a3 (show rhs.toNat < r.1.length by omega)) (by omega) a1
  · have hNK : vars.length =
        vars.length / cardn_nkval rhs.toNat * cardn_nkval rhs.toNat := by
      have := Nat.div_mul_le_self vars.length (cardn_nkval rhs.toNat)
      omega
    set r := cardn_recur top vars 0 (cardn_nkval rhs.toNat) with hr
    have heq : cardn_encode_atmostN top vars rhs =
        ([] ++ r.2.1 ++ [[-(nth r.1 rhs.toNat)]], r.2.2) := by
      unfold cardn_encode_atmostN
      rw [if_neg hb1, if_neg hb2, if_neg hb3]
      simp only [if_neg hpad]
    rw [heq]
    obtain ⟨a1, a2, a3, a4⟩ := cardn_recur_okAux vars.length top vars 0
      (cardn_nkval rhs.toNat) r.1 r.2.1 r.2.2 (le_refl _) (by omega)
      (by rw [hNK]; exact dvd_mul_left _ _)
      ⟨Nat.log 2 rhs.toNat + 1, hKpow⟩ rfl
    refine ⟨a1, ?_⟩
    apply okCNF_append
    apply okCNF_append
    · exact okCNF_nil
    · exact a4
    · intro c hc
      simp only [List.mem_singleton] at hc
      subst hc
      exact forall_mem_single (okLit_neg
        (okVec_nth a3 (show rhs.toNat < r.1.length by omega)))

theorem okVec_nil {V : List Int} {t t0 : Int} : okVec V t t0 [] := by
  intro v hv
  simp at hv

theorem usize_toNat {x : Int} (h0 : 0 ≤ x) (h1 : x < 2 ^ 64) :
    usize x = x.toNat := by
  unfold usize
  congr 1
  omega

theorem usize_of_neg {x : Int} (h0 : -(2 ^ 31) ≤ x) (h1 : x < 0) :
    2 ^ 63 ≤ usize x := by
  unfold usize
  omega

theorem to_UA_ok {V : List Int} {t t0 : Int} {outlst alst blst : List Int}
    (ho : okVec V t t0 outlst) (ha : okVec V t t0 alst)
    (hb : okVec V t t0 blst)
    (hlen : alst.length + blst.length ≤ outlst.length) :
    okCNF V t t0 (to_UA outlst alst blst) := by
  unfold to_UA
  apply okCNF_append
  apply okCNF_append
  · intro c hc
    simp only [List.mem_map, List.mem_range] at hc
    obtain ⟨j, hj, rfl⟩ := hc
    exact forall_mem_pair (okLit_neg (okVec_nth hb hj))
      (okVec_nth ho (by omega))
  · intro c hc
    simp only [List.mem_map, List.mem_range] at hc
    obtain ⟨i, hi, rfl⟩ := hc
    exact forall_mem_pair (okLit_neg (okVec_nth ha hi))
      (okVec_nth ho (by omega))
  · intro c hc
    simp only [List.mem_flatMap, List.mem_map, List.mem_range'_1] at hc
    obtain ⟨i, hi, j, hj, rfl⟩ := hc
    exact forall_mem_triple (okLit_neg (okVec_nth ha (by omega)))
      (okLit_neg (okVec_nth hb (by omega)))
      (okVec_nth ho (by omega))

theorem to_TO_rec_okAux :
    ∀ (n : Nat) (top : Int) (ilst olst : List Int) (CLS : CNF) (T : Int)
      (V : List Int) (b : Int),
    ilst.length ≤ n →
    okVec V b top ilst → okVec V b top olst → b ≤ top →
    ilst.length ≤ olst.length →
    to_TO_rec top ilst olst = (CLS, T) →
    top ≤ T ∧ okCNF V b T CLS := by
  intro n
  induction n with
  | zero =>
    intro top ilst olst CLS T V b hn hi ho hb hlen hres
    have h2 : ilst.length < 2 := by omega
    rw [to_TO_rec.eq_def, dif_pos h2] at hres
    injection hres with h1 h2
    subst h1 h2
    exact ⟨le_refl _, okCNF_nil⟩
  | succ n ih =>
    intro top ilst olst CLS T V b hn hi ho hb hlen hres
    by_cases h2 : ilst.length < 2
    · rw [to_TO_rec.eq_def, dif_pos h2] at hres
      injection hres with h1 h2
      subst h1 h2
      exact ⟨le_refl _, okCNF_nil⟩
    · set half := ilst.length - ilst.length / 2 with hhalf
      have hh1 : 1 ≤ half := by omega
      have hh2 : half ≤ ilst.length := by omega
      set OF := if half < 2 then ilst.take half else freshVars top half
        with hOF
      set T1 := if half < 2 then top else top + (half : Int) with hT1
      set OS := if ilst.length - half < 2 then ilst.drop half
        else freshVars T1 (ilst.length - half) with hOS
      set T2 := if ilst.length - half < 2 then T1
        else T1 + ((ilst.length - half : Nat) : Int) with hT2
      set RS := if ilst.length - half < 2 then (([] : CNF), T2)
        else to_TO_rec T2 (ilst.drop half) OS with hRS
      set RF := if half < 2 then (([] : CNF), RS.2)
        else to_TO_rec RS.2 (ilst.take half) OF with hRF
      have heq : to_TO_rec top ilst olst =
          (to_UA olst OF OS ++ RS.1 ++ RF.1, RF.2) := by
        rw [to_TO_rec.eq_def, dif_neg h2]
      rw [heq] at hres
      injection hres with h1 h2
      subst h1 h2
      have hOFp : OF.length = half ∧ okVec V b T1 OF ∧ top ≤ T1 := by
        rw [hOF, hT1]
        by_cases hc : half < 2
        · rw [if_pos hc, if_pos hc]
          refine ⟨by simp [List.length_take]; omega, ?_, le_refl _⟩
          exact fun v hv => hi v (List.take_subset _ _ hv)
        · rw [if_neg hc, if_neg hc]
          refine ⟨freshVars_length _ _, ?_, by omega⟩
          intro v hv
          obtain ⟨hv1, hv2⟩ := freshVars_mem hv
          exact okLit_fresh (by omega) (by omega)
      have hOSp : OS.length = ilst.length - half ∧ okVec V b T2 OS ∧
          T1 ≤ T2 := by
        rw [hOS, hT2]
        by_cases hc : ilst.length - half < 2
        · rw [if_pos hc, if_pos hc]
          refine ⟨by simp [List.length_drop], ?_, le_refl _⟩
          exact fun v hv => okLit_mono (hi v (List.drop_subset _ _ hv))
            (le_refl _) hOFp.2.2
        · rw [if_neg hc, if_neg hc]
          refine ⟨freshVars_length _ _, ?_, by omega⟩
          intro v hv
          obtain ⟨hv1, hv2⟩ := freshVars_mem hv
          exact okLit_fresh (by omega) (by omega)
      have hUA : okCNF V b T2 (to_UA olst OF OS) := by
        apply to_UA_ok
        · exact okVec_mono ho (le_refl _) (by omega)
        · exact okVec_mono hOFp.2.1 (le_refl _) hOSp.2.2
        · exact hOSp.2.1
        · omega
      have hRSp : T2 ≤ RS.2 ∧ okCNF V b RS.2 RS.1 := by
        rw [hRS]
        by_cases hc : ilst.length - half < 2
        · rw [if_pos hc]
          exact ⟨le_refl _, okCNF_nil⟩
        · rw [if_neg hc]
          refine ih T2 (ilst.drop half) OS _ _ V b ?_ ?_ hOSp.2.1
            (by omega) (by rw [List.length_drop]; omega) rfl
          · rw [List.length_drop]
            omega
          · exact fun v hv => okLit_mono (hi v (List.drop_subset _ _ hv))
              (le_refl _) (by omega)
      have hRFp : RS.2 ≤ RF.2 ∧ okCNF V b RF.2 RF.1 := by
        rw [hRF]
        by_cases hc : half < 2
        · rw [if_pos hc]
          exact ⟨le_refl _, okCNF_nil⟩
        · rw [if_neg hc]
          refine ih RS.2 (ilst.take half) OF _ _ V b ?_ ?_ ?_
            (by omega) (by rw [List.length_take]; omega) rfl
          · rw [List.length_take]
            omega
          · exact fun v hv => okLit_mono (hi v (List.take_subset _ _ hv))
              (le_refl _) (by omega)
          · exact okVec_mono hOFp.2.1 (le_refl _) (by omega)
      refine ⟨by omega, ?_⟩
      apply okCNF_append
      apply okCNF_append
      · exact okCNF_mono hUA (le_refl _) (by omega)
      · exact okCNF_mono hRSp.2 (le_refl _) (by omega)
      · exact hRFp.2

theorem to_TO_ok (top : Int) (invars : List Int) (V : List Int) (b : Int)
    (hin : okVec V b top invars) (hb : b ≤ top) :
    top ≤ (to_TO top invars).2.2 ∧
    (to_TO top invars).1.length = invars.length ∧
    okVec V b (to_TO top invars).2.2 (to_TO top invars).1 ∧
    okCNF V b (to_TO top invars).2.2 (to_TO top invars).2.1 := by
  by_cases h2 : invars.length < 2
  · have heq : to_TO top invars = (invars, [], top) := by
      unfold to_TO
      rw [if_pos h2]
    rw [heq]
    exact ⟨le_refl _, rfl, hin, okCNF_nil⟩
  · set r := to_TO_rec (top + (invars.length : Int)) invars
      (freshVars top invars.length) with hr
    have heq : to_TO top invars = (freshVars top invars.length, r.1, r.2) := by
      unfold to_TO
      rw [if_neg h2]
    rw [heq]
    show top ≤ r.2 ∧ (freshVars top invars.length).length = invars.length ∧
      okVec V b r.2 (freshVars top invars.length) ∧ okCNF V b r.2 r.1
    have hof : okVec V b (top + (invars.length : Int))
        (freshVars top invars.length) := by
      intro v hv
      obtain ⟨hv1, hv2⟩ := freshVars_mem hv
      exact okLit_fresh (by omega) (by omega)
    obtain ⟨a1, a2⟩ := to_TO_rec_okAux invars.length
      (top + (invars.length : Int)) invars (freshVars top invars.length)
      r.1 r.2 V b (le_refl _)
      (okVec_mono hin (le_refl _) (by omega)) hof (by omega)
      (by rw [freshVars_length]) rfl
    refine ⟨by omega, freshVars_length _ _, ?_, a2⟩
    exact okVec_mono hof (le_refl _) (by omega)

theorem mto_MUA_A_ok {V : List Int} {b : Int} {top : Int}
    {hs rs fs asv gs bsv : List Int} {p : Nat}
    (hhs : okVec V b top hs) (hrs : okVec V b top rs)
    (hfs : okVec V b top fs) (has : okVec V b top asv)
    (hgs : okVec V b top gs) (hbs : okVec V b top bsv)
    (hb : b ≤ top)
    (hm : asv.length ≤ p - 1) (hn : bsv.length ≤ p - 1)
    (hrl : p - 1 ≤ rs.length) (hp : 2 ≤ p) :
    (mto_MUA_A top hs rs fs asv gs bsv p).2 = top + 1 ∧
    okCNF V b (top + 1) (mto_MUA_A top hs rs fs asv gs bsv p).1 := by
  have hL : ∀ (w : List Int), okVec V b top w → ∀ i, i < w.length →
      okLit V b (top + 1) (nth w i) := fun w hw i hi =>
    okLit_mono (okVec_nth hw hi) (le_refl _) (by omega)
  have hC : okLit V b (top + 1) (top + 1) := okLit_fresh (by omega) (le_refl _)
  refine ⟨rfl, ?_⟩
  intro cl hcl
  simp only [mto_MUA_A, List.mem_append] at hcl
  rcases hcl with ((((((h1a | h1b) | h1c) | h2a) | h2b) | h2c) | h2d)
  · simp only [List.mem_map, List.mem_range'_1] at h1a
    obtain ⟨j, hj, rfl⟩ := h1a
    exact forall_mem_triple (okLit_neg (hL bsv hbs (j - 1) (by omega)))
      (hL rs hrs (j - 1) (by omega)) hC
  · simp only [List.mem_map, List.mem_range'_1] at h1b
    obtain ⟨i, hi, rfl⟩ := h1b
    exact forall_mem_triple (okLit_neg (hL asv has (i - 1) (by omega)))
      (hL rs hrs (i - 1) (by omega)) hC
  · simp only [List.mem_flatMap, List.mem_map, List.mem_range'_1] at h1c
    obtain ⟨i, hi, j, hj, rfl⟩ := h1c
    by_cases hij : i + j < p
    · rw [if_pos hij]
      exact forall_mem_quad (okLit_neg (hL asv has (i - 1) (by omega)))
        (okLit_neg (hL bsv hbs (j - 1) (by omega)))
        (hL rs hrs (i + j - 1) (by omega)) hC
    · rw [if_neg hij]
      by_cases hij2 : i + j > p
      · rw [if_pos hij2]
        have hmod : (i + j) % p = i + j - p := by
          rw [Nat.mod_eq_sub_mod (by omega)]
          exact Nat.mod_eq_of_lt (by omega)
        exact forall_mem_triple (okLit_neg (hL asv has (i - 1) (by omega)))
          (okLit_neg (hL bsv hbs (j - 1) (by omega)))
          (hL rs hrs ((i + j) % p - 1) (by rw [hmod]; omega))
      · rw [if_neg hij2]
        exact forall_mem_triple (okLit_neg (hL asv has (i - 1) (by omega)))
          (okLit_neg (hL bsv hbs (j - 1) (by omega))) hC
  · by_cases hsig : hs.length = 0
    · rw [if_pos hsig] at h2a
      simp only [List.mem_singleton] at h2a
      subst h2a
      exact forall_mem_single (okLit_neg hC)
    · rw [if_neg hsig] at h2a
      simp only [List.mem_singleton] at h2a
      subst h2a
      exact forall_mem_pair (okLit_neg hC) (hL hs hhs 0 (by omega))
  · simp only [List.mem_flatMap, List.mem_range'_1, List.mem_append] at h2b
    obtain ⟨j, hj, hcl⟩ := h2b
    rcases hcl with hcl | hcl
    · by_cases hle : j ≤ hs.length
      · rw [if_pos hle] at hcl
        simp only [List.mem_singleton] at hcl
        subst hcl
        exact forall_mem_pair (okLit_neg (hL gs hgs (j - 1) (by omega)))
          (hL hs hhs (j - 1) (by omega))
      · rw [if_neg hle] at hcl
        simp only [List.mem_singleton] at hcl
        subst hcl
        exact forall_mem_single (okLit_neg (hL gs hgs (j - 1) (by omega)))
    · by_cases hlt : j < hs.length
      · rw [if_pos hlt] at hcl
        simp only [List.mem_singleton] at hcl
        subst hcl
        exact forall_mem_triple (okLit_neg hC)
          (okLit_neg (hL gs hgs (j - 1) (by omega)))
          (hL hs hhs j hlt)
      · rw [if_neg hlt] at hcl
        simp only [List.mem_singleton] at hcl
        subst hcl
        exact forall_mem_pair (okLit_neg hC)
          (okLit_neg (hL gs hgs (j - 1) (by omega)))
  · simp only [List.mem_flatMap, List.mem_range'_1, List.mem_append] at h2c
    obtain ⟨i, hi, hcl⟩ := h2c
    rcases hcl with hcl | hcl
    · by_cases hle : i ≤ hs.length
      · rw [if_pos hle] at hcl
        simp only [List.mem_singleton] at hcl
        subst hcl
        exact forall_mem_pair (okLit_neg (hL fs hfs (i - 1) (by omega)))
          (hL hs hhs (i - 1) (by omega))
      · rw [if_neg hle] at hcl
        simp only [List.mem_singleton] at hcl
        subst hcl
        exact forall_mem_single (okLit_neg (hL fs hfs (i - 1) (by omega)))
    · by_cases hlt : i < hs.length
      · rw [if_pos hlt] at hcl
        simp only [List.mem_singleton] at hcl
        subst hcl
        exact forall_mem_triple (okLit_neg hC)
          (okLit_neg (hL fs hfs (i - 1) (by omega)))
          (hL hs hhs i hlt)
      · rw [if_neg hlt] at hcl
        simp only [List.mem_singleton] at hcl
        subst hcl
        exact forall_mem_pair (okLit_neg hC)
          (okLit_neg (hL fs hfs (i - 1) (by omega)))
  · simp only [List.mem_flatMap, List.mem_range'_1, List.mem_append] at h2d
    obtain ⟨i, hi, j, hj, hcl⟩ := h2d
    rcases hcl with hcl | hcl
    · by_cases hle : i + j ≤ hs.length
      · rw [if_pos hle] at hcl
        simp only [List.mem_singleton] at hcl
        subst hcl
        exact forall_mem_triple (okLit_neg (hL fs hfs (i - 1) (by omega)))
          (okLit_neg (hL gs hgs (j - 1) (by omega)))
          (hL hs hhs (i + j - 1) (by omega))
      · rw [if_neg hle] at hcl
        simp only [List.mem_singleton] at hcl
        subst hcl
        exact forall_mem_pair (okLit_neg (hL fs hfs (i - 1) (by omega)))
          (okLit_neg (hL gs hgs (j - 1) (by omega)))
    · simp only [List.mem_singleton] at hcl
      subst hcl
      by_cases hlt : i + j < hs.length
      · rw [if_pos hlt]
        exact forall_mem_quad (okLit_neg hC)
          (okLit_neg (hL fs hfs (i - 1) (by omega)))
          (okLit_neg (hL gs hgs (j - 1) (by omega)))
          (hL hs hhs (i + j) hlt)
      · rw [if_neg hlt]
        exact forall_mem_triple (okLit_neg hC)
          (okLit_neg (hL fs hfs (i - 1) (by omega)))
          (okLit_neg (hL gs hgs (j - 1) (by omega)))

theorem mto_MTO_A_rec_okAux :
    ∀ (n : Nat) (top : Int) (ilst ulst llst : List Int) (p : Nat) (k : Int)
      (CLS : CNF) (T : Int) (V : List Int) (b : Int),
    ilst.length ≤ n →
    okVec V b top ilst → okVec V b top ulst → okVec V b top llst →
    b ≤ top → llst.length = p - 1 → 2 ≤ p →
    mto_MTO_A_rec top ilst ulst llst p k = (CLS, T) →
    top ≤ T ∧ okCNF V b T CLS := by
  intro n
  induction n with
  | zero =>
    intro top ilst ulst llst p k CLS T V b hn hi hu hl hb hll hp hres
    have h2 : ilst.length < 2 := by omega
    rw [mto_MTO_A_rec.eq_def, dif_pos h2] at hres
    injection hres with e1 e2
    subst e1 e2
    exact ⟨le_refl _, okCNF_nil⟩
  | succ n ih =>
    intro top ilst ulst llst p k CLS T V b hn hi hu hl hb hll hp hres
    by_cases h2 : ilst.length < 2
    · rw [mto_MTO_A_rec.eq_def, dif_pos h2] at hres
      injection hres with e1 e2
      subst e1 e2
      exact ⟨le_refl _, okCNF_nil⟩
    · set half := ilst.length - ilst.length / 2 with hhalf
      have hh1 : 1 ≤ half := by omega
      have hh2 : half ≤ ilst.length := by omega
      set rF : List Int × List Int × CNF × Int :=
        if half < p then
          (([] : List Int), (to_TO top (ilst.take half)).1,
            (to_TO top (ilst.take half)).2.1,
            (to_TO top (ilst.take half)).2.2)
        else
          (freshVars top (mto_un half p k),
           freshVars (top + ((mto_un half p k : Nat) : Int)) (p - 1),
           ([] : CNF),
           top + ((mto_un half p k : Nat) : Int) + ((p - 1 : Nat) : Int))
        with hrF
      set rS : List Int × List Int × CNF × Int :=
        if ilst.length - half < p then
          (([] : List Int), (to_TO rF.2.2.2 (ilst.drop half)).1,
            (to_TO rF.2.2.2 (ilst.drop half)).2.1,
            (to_TO rF.2.2.2 (ilst.drop half)).2.2)
        else
          (freshVars rF.2.2.2 (mto_un (ilst.length - half) p k),
           freshVars (rF.2.2.2 +
             ((mto_un (ilst.length - half) p k : Nat) : Int)) (p - 1),
           ([] : CNF),
           rF.2.2.2 + ((mto_un (ilst.length - half) p k : Nat) : Int) +
             ((p - 1 : Nat) : Int))
        with hrS
      set rMUA := mto_MUA_A rS.2.2.2 ulst llst rF.1 rF.2.1 rS.1 rS.2.1 p
        with hrMUA
      set recS := if ilst.length - half < p then (([] : CNF), rMUA.2)
        else mto_MTO_A_rec rMUA.2 (ilst.drop half) rS.1 rS.2.1 p k with hrecS
      set recF := if half < p then (([] : CNF), recS.2)
        else mto_MTO_A_rec recS.2 (ilst.take half) rF.1 rF.2.1 p k with hrecF
      have heq : mto_MTO_A_rec top ilst ulst llst p k =
          (rF.2.2.1 ++ rS.2.2.1 ++ rMUA.1 ++ recS.1 ++ recF.1, recF.2) := by
        rw [mto_MTO_A_rec.eq_def, dif_neg h2]
      rw [heq] at hres
      injection hres with e1 e2
      subst e1 e2
      have hrFp : top ≤ rF.2.2.2 ∧ okVec V b rF.2.2.2 rF.1 ∧
          okVec V b rF.2.2.2 rF.2.1 ∧ okCNF V b rF.2.2.2 rF.2.2.1 ∧
          rF.2.1.length ≤ p - 1 ∧ (p ≤ half → rF.2.1.length = p - 1) := by
        rw [hrF]
        by_cases hc : half < p
        · rw [if_pos hc]
          obtain ⟨w1, w2, w3, w4⟩ := to_TO_ok top (ilst.take half) V b
            (fun v hv => hi v (List.take_subset _ _ hv)) hb
          have w5 : (to_TO top (ilst.take half)).1.length ≤ p - 1 := by
            rw [w2, List.length_take]
            omega
          exact ⟨w1, okVec_nil, w3, w4, w5,
            fun hcon => absurd hc (by omega)⟩
        · rw [if_neg hc]
          have f0 : top ≤ top + ((mto_un half p k : Nat) : Int) +
              ((p - 1 : Nat) : Int) := by omega
          have f1 : okVec V b
              (top + ((mto_un half p k : Nat) : Int) + ((p - 1 : Nat) : Int))
              (freshVars top (mto_un half p k)) := by
            intro v hv
            obtain ⟨hv1, hv2⟩ := freshVars_mem hv
            exact okLit_fresh (by omega) (by omega)
          have f2 : okVec V b
              (top + ((mto_un half p k : Nat) : Int) + ((p - 1 : Nat) : Int))
              (freshVars (top + ((mto_un half p k : Nat) : Int)) (p - 1)) := by
            intro v hv
            obtain ⟨hv1, hv2⟩ := freshVars_mem hv
            exact okLit_fresh (by omega) (by omega)
          exact ⟨f0, f1, f2, okCNF_nil, le_of_eq (freshVars_length _ _),
            fun _ => freshVars_length _ _⟩
      obtain ⟨ht1, hFv1, hFv2, hFc, hFl, hFi⟩ := hrFp
      have hbF : b ≤ rF.2.2.2 := le_trans hb ht1
      have hrSp : rF.2.2.2 ≤ rS.2.2.2 ∧ okVec V b rS.2.2.2 rS.1 ∧
          okVec V b rS.2.2.2 rS.2.1 ∧ okCNF V b rS.2.2.2 rS.2.2.1 ∧
          rS.2.1.length ≤ p - 1 ∧
          (p ≤ ilst.length - half → rS.2.1.length = p - 1) := by
        rw [hrS]
        by_cases hc : ilst.length - half < p
        · rw [if_pos hc]
          obtain ⟨w1, w2, w3, w4⟩ := to_TO_ok rF.2.2.2 (ilst.drop half) V b
            (fun v hv => okLit_mono (hi v (List.drop_subset _ _ hv))
              (le_refl _) ht1) hbF
          have w5 : (to_TO rF.2.2.2 (ilst.drop half)).1.length ≤ p - 1 := by
            rw [w2, List.length_drop]
            omega
          exact ⟨w1, okVec_nil, w3, w4, w5,
            fun hcon => absurd hc (by omega)⟩
        · rw [if_neg hc]
          have f0 : rF.2.2.2 ≤ rF.2.2.2 +
              ((mto_un (ilst.length - half) p k : Nat) : Int) +
              ((p - 1 : Nat) : Int) := by omega
          have f1 : okVec V b
              (rF.2.2.2 + ((mto_un (ilst.length - half) p k : Nat) : Int) +
                ((p - 1 : Nat) : Int))
              (freshVars rF.2.2.2 (mto_un (ilst.length - half) p k)) := by
            intro v hv
            obtain ⟨hv1, hv2⟩ := freshVars_mem hv
            exact okLit_fresh (by omega) (by omega)
          have f2 : okVec V b
              (rF.2.2.2 + ((mto_un (ilst.length - half) p k : Nat) : Int) +
                ((p - 1 : Nat) : Int))
              (freshVars (rF.2.2.2 +
                ((mto_un (ilst.length - half) p k : Nat) : Int)) (p - 1)) := by
            intro v hv
            obtain ⟨hv1, hv2⟩ := freshVars_mem hv
            exact okLit_fresh (by omega) (by omega)
          exact ⟨f0, f1, f2, okCNF_nil, le_of_eq (freshVars_length _ _),
            fun _ => freshVars_length _ _⟩
      obtain ⟨ht2, hSv1, hSv2, hSc, hSl, hSi⟩ := hrSp
      have hbS : b ≤ rS.2.2.2 := le_trans hbF ht2
      obtain ⟨hM1, hM2⟩ := mto_MUA_A_ok
        (okVec_mono hu (le_refl _) (le_trans ht1 ht2))
        (okVec_mono hl (le_refl _) (le_trans ht1 ht2))
        (okVec_mono hFv1 (le_refl _) ht2)
        (okVec_mono hFv2 (le_refl _) ht2)
        hSv1 hSv2 hbS hFl hSl (by omega) hp
      rw [← hrMUA] at hM1 hM2
      have hrecSp : rMUA.2 ≤ recS.2 ∧ okCNF V b recS.2 recS.1 := by
        rw [hrecS]
        by_cases hc : ilst.length - half < p
        · rw [if_pos hc]
          exact ⟨le_refl _, okCNF_nil⟩
        · rw [if_neg hc]
          refine ih rMUA.2 (ilst.drop half) rS.1 rS.2.1 p k _ _ V b
            ?_ ?_ ?_ ?_ ?_ ?_ hp rfl
          · rw [List.length_drop]
            omega
          · exact fun v hv => okLit_mono (hi v (List.drop_subset _ _ hv))
              (le_refl _) (by omega)
          · exact okVec_mono hSv1 (le_refl _) (by omega)
          · exact okVec_mono hSv2 (le_refl _) (by omega)
          · omega
          · exact hSi (by omega)
      obtain ⟨ht3, hRSc⟩ := hrecSp
      have hrecFp : recS.2 ≤ recF.2 ∧ okCNF V b recF.2 recF.1 := by
        rw [hrecF]
        by_cases hc : half < p
        · rw [if_pos hc]
          exact ⟨le_refl _, okCNF_nil⟩
        · rw [if_neg hc]
          refine ih recS.2 (ilst.take half) rF.1 rF.2.1 p k _ _ V b
            ?_ ?_ ?_ ?_ ?_ ?_ hp rfl
          · rw [List.length_take]
            omega
          · exact fun v hv => okLit_mono (hi v (List.take_subset _ _ hv))
              (le_refl _) (by omega)
          · exact okVec_mono hFv1 (le_refl _) (by omega)
          · exact okVec_mono hFv2 (le_refl _) (by omega)
          · omega
          · exact hFi (by omega)
      obtain ⟨ht4, hRFc⟩ := hrecFp
      refine ⟨by omega, ?_⟩
      apply okCNF_append
      apply okCNF_append
      apply okCNF_append
      apply okCNF_append
      · exact okCNF_mono hFc (le_refl _) (by omega)
      · exact okCNF_mono hSc (le_refl _) (by omega)
      · exact okCNF_mono hM2 (le_refl _) (by omega)
      · exact okCNF_mono hRSc (le_refl _) (by omega)
      · exact hRFc

theorem mto_MTO_A_ok (top : Int) (ivars : List Int) (p : Nat) (k : Int)
    (V : List Int) (b : Int) (hin : okVec V b top ivars) (hb : b ≤ top)
    (hp : 2 ≤ p) :
    top ≤ (mto_MTO_A top ivars p k).2.2.2 ∧
    okVec V b (mto_MTO_A top ivars p k).2.2.2 (mto_MTO_A top ivars p k).1 ∧
    okVec V b (mto_MTO_A top ivars p k).2.2.2 (mto_MTO_A top ivars p k).2.1 ∧
    okCNF V b (mto_MTO_A top ivars p k).2.2.2
      (mto_MTO_A top ivars p k).2.2.1 ∧
    (p - 1 ≤ ivars.length → p - 1 ≤ (mto_MTO_A top ivars p k).2.1.length) := by
  by_cases hc : ivars.length < p
  · have heq : mto_MTO_A top ivars p k =
        ([], (to_TO top ivars).1, (to_TO top ivars).2.1,
          (to_TO top ivars).2.2) := by
      unfold mto_MTO_A
      rw [if_pos hc]
    rw [heq]
    obtain ⟨w1, w2, w3, w4⟩ := to_TO_ok top ivars V b hin hb
    exact ⟨w1, okVec_nil, w3, w4, fun hcon => by rw [w2]; omega⟩
  · set us := freshVars top (mto_un ivars.length p k) with hus
    set ls := freshVars (top + ((mto_un ivars.length p k : Nat) : Int))
      (p - 1) with hls
    set r := mto_MTO_A_rec
      (top + ((mto_un ivars.length p k : Nat) : Int) + ((p - 1 : Nat) : Int))
      ivars us ls p k with hr
    have heq : mto_MTO_A top ivars p k = (us, ls, r.1, r.2) := by
      unfold mto_MTO_A
      rw [if_neg hc]
    rw [heq]
    show top ≤ r.2 ∧ okVec V b r.2 us ∧ okVec V b r.2 ls ∧
      okCNF V b r.2 r.1 ∧ (p - 1 ≤ ivars.length → p - 1 ≤ ls.length)
    set T0 := top + ((mto_un ivars.length p k : Nat) : Int) +
      ((p - 1 : Nat) : Int) with hT0
    have hu : okVec V b T0 us := by
      rw [hus]
      intro v hv
      obtain ⟨hv1, hv2⟩ := freshVars_mem hv
      exact okLit_fresh (by omega) (by omega)
    have hl : okVec V b T0 ls := by
      rw [hls]
      intro v hv
      obtain ⟨hv1, hv2⟩ := freshVars_mem hv
      exact okLit_fresh (by omega) (by omega)
    obtain ⟨a1, a2⟩ := mto_MTO_A_rec_okAux ivars.length T0 ivars us ls p k
      r.1 r.2 V b (le_refl _)
      (okVec_mono hin (le_refl _) (by omega)) hu hl (by omega)
      (by rw [hls, freshVars_length]) hp rfl
    refine ⟨by omega, okVec_mono hu (le_refl _) a1,
      okVec_mono hl (le_refl _) a1, a2, fun _ => ?_⟩
    rw [hls, freshVars_length]

theorem mto_comparator_ok {V : List Int} {b top : Int}
    {upper lower : List Int} {p : Nat} {k : Int}
    (hu : okVec V b top upper) (hl : okVec V b top lower)
    (hlo : p - 1 ≤ lower.length) (hp : 2 ≤ p) :
    okCNF V b top (mto_comparator upper lower p k) := by
  have hnu : k.toNat % p < p := Nat.mod_lt _ (by omega)
  simp only [mto_comparator]
  generalize hgro : k.toNat / p = ro
  generalize hgnu : k.toNat % p = nu
  rw [hgnu] at hnu
  apply okCNF_append
  · intro c hc
    simp only [List.mem_map, List.mem_range'_1] at hc
    obtain ⟨i, hi, rfl⟩ := hc
    exact forall_mem_single (okLit_neg
      (okVec_nth hu (show i - 1 < upper.length by omega)))
  · intro c hc
    simp only [List.mem_flatMap, List.mem_range'_1] at hc
    obtain ⟨i, hi, hcl⟩ := hc
    by_cases hro : 0 < ro
    · rw [if_pos hro] at hcl
      by_cases hup : ro - 1 < upper.length
      · rw [if_pos hup] at hcl
        simp only [List.mem_singleton] at hcl
        subst hcl
        exact forall_mem_pair (okLit_neg (okVec_nth hu hup))
          (okLit_neg (okVec_nth hl (show i - 1 < lower.length by omega)))
      · rw [if_neg hup] at hcl
        simp at hcl
    · rw [if_neg hro] at hcl
      simp only [List.mem_singleton] at hcl
      subst hcl
      exact forall_mem_single (okLit_neg
        (okVec_nth hl (show i - 1 < lower.length by omega)))

theorem to_encode_atmostN_ok (top : Int) (vars : List Int) (k : Int)
    (h1 : -(2 ^ 31) ≤ k) (h2 : k < 2 ^ 31) (h3 : vars.length < 2 ^ 63) :
    top ≤ (to_encode_atmostN top vars k).2 ∧
    okCNF vars top (to_encode_atmostN top vars k).2
      (to_encode_atmostN top vars k).1 := by
  by_cases hg : vars.length ≤ usize k
  · have heq : to_encode_atmostN top vars k = ([], top) := by
      unfold to_encode_atmostN
      rw [if_pos hg]
    rw [heq]
    exact ⟨le_refl _, okCNF_nil⟩
  by_cases hk0 : k = 0
  · have heq : to_encode_atmostN top vars k =
        (common_encode_atmost0 vars, top) := by
      unfold to_encode_atmostN
      rw [if_neg hg, if_pos hk0]
    rw [heq]
    exact ⟨le_refl _, common_encode_atmost0_ok⟩
  have hkpos : 0 < k := by
    by_contra hcon
    push_neg at hcon
    have hneg : k < 0 := by
      rcases eq_or_lt_of_le hcon with he | hlt
      · exact absurd he hk0
      · exact hlt
    have := usize_of_neg h1 hneg
    exact hg (by omega)
  have hu : usize k = k.toNat := usize_toNat (by omega) (by omega)
  have hkn : k.toNat < vars.length := by omega
  set r := to_TO top vars with hr
  have heq : to_encode_atmostN top vars k =
      (r.2.1 ++ [[-(nth r.1 k.toNat)]], r.2.2) := by
    unfold to_encode_atmostN
    rw [if_neg hg, if_neg hk0]
  rw [heq]
  obtain ⟨w1, w2, w3, w4⟩ := to_TO_ok top vars vars top
    (okVec_of_mem (fun v hv => hv)) (le_refl _)
  rw [← hr] at w1 w2 w3 w4
  refine ⟨w1, ?_⟩
  apply okCNF_append
  · exact w4
  · intro c hc
    simp only [List.mem_singleton] at hc
    subst hc
    exact forall_mem_single (okLit_neg
      (okVec_nth w3 (show k.toNat < r.1.length by omega)))

theorem mto_encode_atmostN_ok (top : Int) (vars : List Int) (k : Int)
    (h1 : -(2 ^ 31) ≤ k) (h2 : k < 2 ^ 31) (h3 : vars.length < 2 ^ 63) :
    top ≤ (mto_encode_atmostN top vars k).2 ∧
    okCNF vars top (mto_encode_atmostN top vars k).2
      (mto_encode_atmostN top vars k).1 := by
  by_cases hg : vars.length ≤ usize k
  · have heq : mto_encode_atmostN top vars k = ([], top) := by
      unfold mto_encode_atmostN
      rw [if_pos hg]
    rw [heq]
    exact ⟨le_refl _, okCNF_nil⟩
  by_cases hk0 : k = 0
  · have heq : mto_encode_atmostN top vars k =
        (common_encode_atmost0 vars, top) := by
      unfold mto_encode_atmostN
      rw [if_neg hg, if_pos hk0]
    rw [heq]
    exact ⟨le_refl _, common_encode_atmost0_ok⟩
  set p := if Nat.sqrt vars.length < 2 then 2 else Nat.sqrt vars.length
    with hpdef
  have hp : 2 ≤ p := by
    rw [hpdef]
    split_ifs with hs
    · exact le_refl 2
    · omega
  have hsl : Nat.sqrt vars.length ≤ vars.length := Nat.sqrt_le_self _
  have hn1 : 1 ≤ vars.length := by
    by_contra hcon
    exact hg (by omega)
  have hplen : p - 1 ≤ vars.length := by
    rw [hpdef]
    split_ifs with hs
    · omega
    · omega
  set r := mto_MTO_A top vars p (-1) with hr
  have heq : mto_encode_atmostN top vars k =
      (r.2.2.1 ++ mto_comparator r.1 r.2.1 p k, r.2.2.2) := by
    unfold mto_encode_atmostN
    rw [if_neg hg, if_neg hk0]
  rw [heq]
  obtain ⟨m1, m2, m3, m4, m5⟩ := mto_MTO_A_ok top vars p (-1) vars top
    (okVec_of_mem (fun v hv => hv)) (le_refl _) hp
  refine ⟨m1, ?_⟩
  apply okCNF_append
  · exact m4
  · exact mto_comparator_ok m2 m3 (m5 hplen) hp

theorem kmto_encode_atmostN_ok (top : Int) (vars : List Int) (k : Int)
    (h1 : -(2 ^ 31) ≤ k) (h2 : k < 2 ^ 31) (h3 : vars.length < 2 ^ 63) :
    top ≤ (kmto_encode_atmostN top vars k).2 ∧
    okCNF vars top (kmto_encode_atmostN top vars k).2
      (kmto_encode_atmostN top vars k).1 := by
  by_cases hg : vars.length ≤ usize k
  · have heq : kmto_encode_atmostN top vars k = ([], top) := by
      unfold kmto_encode_atmostN
      rw [if_pos hg]
    rw [heq]
    exact ⟨le_refl _, okCNF_nil⟩
  by_cases hk0 : k = 0
  · have heq : kmto_encode_atmostN top vars k =
        (common_encode_atmost0 vars, top) := by
      unfold kmto_encode_atmostN
      rw [if_neg hg, if_pos hk0]
    rw [heq]
    exact ⟨le_refl _, common_encode_atmost0_ok⟩
  have hkpos : 0 < k := by
    by_contra hcon
    push_neg at hcon
    have hneg : k < 0 := by
      rcases eq_or_lt_of_le hcon with he | hlt
      · exact absurd he hk0
      · exact hlt
    have := usize_of_neg h1 hneg
    exact hg (by omega)
  have hu : usize k = k.toNat := usize_toNat (by omega) (by omega)
  have hkn : k.toNat < vars.length := by omega
  set p := if Nat.sqrt k.toNat < 2 then 2 else Nat.sqrt k.toNat with hpdef
  have hp : 2 ≤ p := by
    rw [hpdef]
    split_ifs with hs
    · exact le_refl 2
    · omega
  have hsl : Nat.sqrt k.toNat ≤ k.toNat := Nat.sqrt_le_self _
  have hplen : p - 1 ≤ vars.length := by
    rw [hpdef]
    split_ifs with hs
    · omega
    · omega
  set r := mto_MTO_A top vars p k with hr
  have heq : kmto_encode_atmostN top vars k =
      (r.2.2.1 ++ mto_comparator r.1 r.2.1 p k, r.2.2.2) := by
    unfold kmto_encode_atmostN
    rw [if_neg hg, if_neg hk0]
  rw [heq]
  obtain ⟨m1, m2, m3, m4, m5⟩ := mto_MTO_A_ok top vars p k vars top
    (okVec_of_mem (fun v hv => hv)) (le_refl _) hp
  refine ⟨m1, ?_⟩
  apply okCNF_append
  · exact m4
  · exact mto_comparator_ok m2 m3 (m5 hplen) hp

/-- All count variables of all nodes of a totalizer tree are accounted for
relative to a base vector V and a counter interval (t, t0]. -/
def okTree (V : List Int) (t t0 : Int) : TotTree → Prop
  | .leaf v _ => okVec V t t0 v
  | .node v _ l r => okVec V t t0 v ∧ okTree V t t0 l ∧ okTree V t t0 r

theorem okTree_mono {V : List Int} {t t0 s s0 : Int} :
    ∀ {tree : TotTree}, okTree V t t0 tree → s ≤ t → t0 ≤ s0 →
    okTree V s s0 tree := by
  intro tree
  induction tree with
  | leaf v n =>
    intro h hs hs0
    exact okVec_mono h hs hs0
  | node v n l r ihl ihr =>
    intro h hs hs0
    exact ⟨okVec_mono h.1 hs hs0, ihl h.2.1 hs hs0, ihr h.2.2 hs hs0⟩

theorem okTree_vars {V : List Int} {t t0 : Int} {tree : TotTree}
    (h : okTree V t t0 tree) : okVec V t t0 tree.vars := by
  cases tree with
  | leaf v n => exact h
  | node v n l r => exact h.1

theorem itot_new_ua_ok {V : List Int} {t t0 : Int} {ov av bv : List Int}
    {rhs : Nat} (ho : okVec V t t0 ov) (ha : okVec V t t0 av)
    (hb : okVec V t t0 bv) (hr : rhs ≤ ov.length) :
    okCNF V t t0 (itot_new_ua ov rhs av bv) := by
  unfold itot_new_ua
  apply okCNF_append
  apply okCNF_append
  · intro c hc
    simp only [List.mem_map, List.mem_range] at hc
    obtain ⟨j, hj, rfl⟩ := hc
    exact forall_mem_pair (okLit_neg (okVec_nth hb (by omega)))
      (okVec_nth ho (by omega))
  · intro c hc
    simp only [List.mem_map, List.mem_range] at hc
    obtain ⟨i, hi, rfl⟩ := hc
    exact forall_mem_pair (okLit_neg (okVec_nth ha (by omega)))
      (okVec_nth ho (by omega))
  · intro c hc
    simp only [List.mem_flatMap, List.mem_map, List.mem_range'_1] at hc
    obtain ⟨i, hi, j, hj, rfl⟩ := hc
    exact forall_mem_triple (okLit_neg (okVec_nth ha (by omega)))
      (okLit_neg (okVec_nth hb (by omega)))
      (okVec_nth ho (by omega))

theorem itot_new_loop_okAux :
    ∀ (n : Nat) (rhs : Nat) (queue : List TotTree) (top : Int)
      (RES : Option TotTree) (CLS : CNF) (T : Int) (V : List Int) (b : Int),
    queue.length ≤ n →
    (∀ t ∈ queue, okTree V b top t) → b ≤ top →
    itot_new_loop rhs queue top = (RES, CLS, T) →
    top ≤ T ∧ okCNF V b T CLS ∧
    (∀ tr, RES = some tr → okTree V b T tr) := by
  intro n
  induction n with
  | zero =>
    intro rhs queue top RES CLS T V b hn hq hb hres
    have hq0 : queue = [] := List.length_eq_zero.1 (by omega)
    subst hq0
    rw [itot_new_loop] at hres
    injection hres with e1 e2
    injection e2 with e2 e3
    subst e1 e2 e3
    exact ⟨le_refl _, okCNF_nil, fun tr htr => by simp at htr⟩
  | succ n ih =>
    intro rhs queue top RES CLS T V b hn hq hb hres
    match queue, hq with
    | [], hq =>
      rw [itot_new_loop] at hres
      injection hres with e1 e2
      injection e2 with e2 e3
      subst e1 e2 e3
      exact ⟨le_refl _, okCNF_nil, fun tr htr => by simp at htr⟩
    | [t], hq =>
      rw [itot_new_loop] at hres
      injection hres with e1 e2
      injection e2 with e2 e3
      subst e1 e2 e3
      refine ⟨le_refl _, okCNF_nil, fun tr htr => ?_⟩
      have het : t = tr := by injection htr
      subst het
      exact hq _ (by simp)
    | l :: r :: rest, hq =>
      set kmin := min (rhs + 1) (l.nof_input + r.nof_input) with hkmin
      set vars := freshVars top kmin with hvars
      set rr := itot_new_loop rhs
        (rest ++ [TotTree.node vars (l.nof_input + r.nof_input) l r])
        (top + (kmin : Int)) with hrr
      have heq : itot_new_loop rhs (l :: r :: rest) top =
          (rr.1, itot_new_ua vars kmin l.vars r.vars ++ rr.2.1, rr.2.2) := by
        rw [itot_new_loop]
      rw [heq] at hres
      injection hres with e1 e2
      injection e2 with e2 e3
      subst e1 e2 e3
      have hvv : okVec V b (top + (kmin : Int)) vars := by
        rw [hvars]
        intro v hv
        obtain ⟨hv1, hv2⟩ := freshVars_mem hv
        exact okLit_fresh (by omega) (by omega)
      have hql : okTree V b top l := hq l (by simp)
      have hqr : okTree V b top r := hq r (by simp)
      have hquene : ∀ t ∈ rest ++
          [TotTree.node vars (l.nof_input + r.nof_input) l r],
          okTree V b (top + (kmin : Int)) t := by
        intro t ht
        rcases List.mem_append.1 ht with ht | ht
        · exact okTree_mono (hq t (by simp [ht])) (le_refl _) (by omega)
        · simp only [List.mem_singleton] at ht
          subst ht
          exact ⟨hvv, okTree_mono hql (le_refl _) (by omega),
            okTree_mono hqr (le_refl _) (by omega)⟩
      obtain ⟨a1, a2, a3⟩ := ih rhs
        (rest ++ [TotTree.node vars (l.nof_input + r.nof_input) l r])
        (top + (kmin : Int)) rr.1 rr.2.1 rr.2.2 V b
        (by simp at hn ⊢; omega) hquene (by omega) rfl
      refine ⟨by omega, ?_, a3⟩
      apply okCNF_append
      · apply okCNF_mono _ (le_refl _) a1
        apply itot_new_ua_ok hvv
          (okVec_mono (okTree_vars hql) (le_refl _) (by omega))
          (okVec_mono (okTree_vars hqr) (le_refl _) (by omega))
        rw [hvars, freshVars_length]
      · exact a2

theorem itot_new_ok (top : Int) (lhs : List Int) (rhs : Nat)
    (V : List Int) (b : Int) (hin : okVec V b top lhs) (hb : b ≤ top) :
    top ≤ (itot_new top lhs rhs).2.2 ∧
    okCNF V b (itot_new top lhs rhs).2.2 (itot_new top lhs rhs).2.1 ∧
    (∀ tr, (itot_new top lhs rhs).1 = some tr →
      okTree V b (itot_new top lhs rhs).2.2 tr) := by
  apply itot_new_loop_okAux (lhs.map (fun l => TotTree.leaf [l] 1)).length
    rhs (lhs.map (fun l => TotTree.leaf [l] 1)) top _ _ _ V b (le_refl _)
    _ hb rfl
  intro t ht
  simp only [List.mem_map] at ht
  obtain ⟨x, hx, rfl⟩ := ht
  intro v hv
  simp only [List.mem_singleton] at hv
  subst hv
  exact hin v hx

theorem itot_increase_ua_ok {V : List Int} {b : Int} (top : Int)
    (ov av bv : List Int) (rhs : Nat)
    (ho : okVec V b top ov) (ha : okVec V b top av)
    (hb : okVec V b top bv) (hbt : b ≤ top) :
    top ≤ (itot_increase_ua top ov av bv rhs).2.2 ∧
    okVec V b (itot_increase_ua top ov av bv rhs).2.2
      (itot_increase_ua top ov av bv rhs).1 ∧
    okCNF V b (itot_increase_ua top ov av bv rhs).2.2
      (itot_increase_ua top ov av bv rhs).2.1 := by
  have hlen : (ov ++ freshVars top (rhs - ov.length)).length =
      ov.length + (rhs - ov.length) := by
    simp [freshVars_length]
  have hov' : okVec V b (top + ((rhs - ov.length : Nat) : Int))
      (ov ++ freshVars top (rhs - ov.length)) := by
    apply okVec_append
    · exact okVec_mono ho (le_refl _) (by omega)
    · intro v hv
      obtain ⟨hv1, hv2⟩ := freshVars_mem hv
      exact okLit_fresh (by omega) (by omega)
  refine ⟨by simp only [itot_increase_ua]; omega, ?_, ?_⟩
  · exact hov'
  · intro c hc
    simp only [itot_increase_ua, List.mem_append, List.mem_map,
      List.mem_flatMap, List.mem_range'_1] at hc
    show ∀ l ∈ c, okLit V b (top + ((rhs - ov.length : Nat) : Int)) l
    have ha' : okVec V b (top + ((rhs - ov.length : Nat) : Int)) av :=
      okVec_mono ha (le_refl _) (by omega)
    have hb' : okVec V b (top + ((rhs - ov.length : Nat) : Int)) bv :=
      okVec_mono hb (le_refl _) (by omega)
    rcases hc with (hc | hc) | hc
    · obtain ⟨j, hj, rfl⟩ := hc
      exact forall_mem_pair
        (okLit_neg (okVec_nth hb' (show j < bv.length by omega)))
        (okVec_nth hov' (show j < _ by rw [hlen]; omega))
    · obtain ⟨i, hi, rfl⟩ := hc
      exact forall_mem_pair
        (okLit_neg (okVec_nth ha' (show i < av.length by omega)))
        (okVec_nth hov' (show i < _ by rw [hlen]; omega))
    · obtain ⟨i, hi, j, hj, rfl⟩ := hc
      exact forall_mem_triple
        (okLit_neg (okVec_nth ha' (show i - 1 < av.length by omega)))
        (okLit_neg (okVec_nth hb' (show j - 1 < bv.length by omega)))
        (okVec_nth hov' (show i + j - 1 < _ by rw [hlen]; omega))

theorem itot_increase_ok :
    ∀ (tree : TotTree) (rhs : Nat) (top : Int) (V : List Int) (b : Int),
    okTree V b top tree → b ≤ top →
    top ≤ (itot_increase tree rhs top).2.2 ∧
    okTree V b (itot_increase tree rhs top).2.2
      (itot_increase tree rhs top).1 ∧
    okCNF V b (itot_increase tree rhs top).2.2
      (itot_increase tree rhs top).2.1 := by
  intro tree
  induction tree with
  | leaf v n =>
    intro rhs top V b ht hb
    have heq : itot_increase (TotTree.leaf v n) rhs top =
        (TotTree.leaf v n, [], top) := by
      rw [itot_increase.eq_def]
      simp only [TotTree.nof_input, TotTree.vars]
      split_ifs <;> rfl
    rw [heq]
    exact ⟨le_refl _, ht, okCNF_nil⟩
  | node v n l r ihl ihr =>
    intro rhs top V b ht hb
    by_cases hg : min (rhs + 1) n ≤ v.length
    · have heq : itot_increase (TotTree.node v n l r) rhs top =
          (TotTree.node v n l r, [], top) := by
        rw [itot_increase.eq_def]
        simp only [TotTree.nof_input, TotTree.vars]
        rw [if_pos hg]
      rw [heq]
      exact ⟨le_refl _, ht, okCNF_nil⟩
    · set rl := itot_increase l rhs top with hrl
      set rr := itot_increase r rhs rl.2.2 with hrr
      set ru := itot_increase_ua rr.2.2 v rl.1.vars rr.1.vars
        (min (rhs + 1) n) with hru
      have heq : itot_increase (TotTree.node v n l r) rhs top =
          (TotTree.node ru.1 n rl.1 rr.1,
            rl.2.1 ++ rr.2.1 ++ ru.2.1, ru.2.2) := by
        rw [itot_increase.eq_def]
        simp only [TotTree.nof_input, TotTree.vars]
        rw [if_neg hg]
        rfl
      rw [heq]
      show top ≤ ru.2.2 ∧
        okTree V b ru.2.2 (TotTree.node ru.1 n rl.1 rr.1) ∧
        okCNF V b ru.2.2 (rl.2.1 ++ rr.2.1 ++ ru.2.1)
      obtain ⟨a1, a2, a3⟩ := ihl rhs top V b ht.2.1 hb
      rw [← hrl] at a1 a2 a3
      obtain ⟨b1, b2, b3⟩ := ihr rhs rl.2.2 V b
        (okTree_mono ht.2.2 (le_refl _) a1) (by omega)
      rw [← hrr] at b1 b2 b3
      obtain ⟨c1, c2, c3⟩ := itot_increase_ua_ok rr.2.2 v rl.1.vars
        rr.1.vars (min (rhs + 1) n)
        (okVec_mono ht.1 (le_refl _) (by omega))
        (okVec_mono (okTree_vars a2) (le_refl _) b1)
        (okTree_vars b2) (by omega)
      rw [← hru] at c1 c2 c3
      refine ⟨by omega, ⟨c2, okTree_mono a2 (le_refl _) (by omega),
        okTree_mono b2 (le_refl _) (by omega)⟩, ?_⟩
      apply okCNF_append
      apply okCNF_append
      · exact okCNF_mono a3 (le_refl _) (by omega)
      · exact okCNF_mono b3 (le_refl _) (by omega)
      · exact c3

theorem itot_merge_ok (ta tb : TotTree) (rhs : Nat) (top : Int)
    (V : List Int) (b : Int) (hta : okTree V b top ta)
    (htb : okTree V b top tb) (hb : b ≤ top) :
    top ≤ (itot_merge ta tb rhs top).2.2 ∧
    okTree V b (itot_merge ta tb rhs top).2.2 (itot_merge ta tb rhs top).1 ∧
    okCNF V b (itot_merge ta tb rhs top).2.2
      (itot_merge ta tb rhs top).2.1 := by
  set ra := itot_increase ta rhs top with hra
  set rb := itot_increase tb rhs ra.2.2 with hrb
  set kmin := min (rhs + 1) (ra.1.nof_input + rb.1.nof_input) with hkmin
  set vars := freshVars rb.2.2 kmin with hvars
  have heq : itot_merge ta tb rhs top =
      (TotTree.node vars (ra.1.nof_input + rb.1.nof_input) ra.1 rb.1,
        ra.2.1 ++ rb.2.1 ++ itot_new_ua vars kmin ra.1.vars rb.1.vars,
        rb.2.2 + (kmin : Int)) := by
    unfold itot_merge
    rfl
  rw [heq]
  show top ≤ rb.2.2 + (kmin : Int) ∧
    okTree V b (rb.2.2 + (kmin : Int))
      (TotTree.node vars (ra.1.nof_input + rb.1.nof_input) ra.1 rb.1) ∧
    okCNF V b (rb.2.2 + (kmin : Int))
      (ra.2.1 ++ rb.2.1 ++ itot_new_ua vars kmin ra.1.vars rb.1.vars)
  obtain ⟨a1, a2, a3⟩ := itot_increase_ok ta rhs top V b hta hb
  rw [← hra] at a1 a2 a3
  obtain ⟨b1, b2, b3⟩ := itot_increase_ok tb rhs ra.2.2 V b
    (okTree_mono htb (le_refl _) a1) (by omega)
  rw [← hrb] at b1 b2 b3
  have hvv : okVec V b (rb.2.2 + (kmin : Int)) vars := by
    rw [hvars]
    intro v hv
    obtain ⟨hv1, hv2⟩ := freshVars_mem hv
    exact okLit_fresh (by omega) (by omega)
  refine ⟨by omega, ⟨hvv, okTree_mono a2 (le_refl _) (by omega),
    okTree_mono b2 (le_refl _) (by omega)⟩, ?_⟩
  apply okCNF_append
  apply okCNF_append
  · exact okCNF_mono a3 (le_refl _) (by omega)
  · exact okCNF_mono b3 (le_refl _) (by omega)
  · apply itot_new_ua_ok hvv
      (okVec_mono (okTree_vars a2) (le_refl _) (by omega))
      (okVec_mono (okTree_vars b2) (le_refl _) (by omega))
    rw [hvars, freshVars_length]

theorem itot_extend_ok (newin : List Int) (ta : TotTree) (rhs : Nat)
    (top : Int) (V : List Int) (b : Int) (hin : okVec V b top newin)
    (hta : okTree V b top ta) (hb : b ≤ top) :
    top ≤ (itot_extend newin ta rhs top).2.2 ∧
    okCNF V b (itot_extend newin ta rhs top).2.2
      (itot_extend newin ta rhs top).2.1 ∧
    (∀ tr, (itot_extend newin ta rhs top).1 = some tr →
      okTree V b (itot_extend newin ta rhs top).2.2 tr) := by
  obtain ⟨n1, n2, n3⟩ := itot_new_ok top newin rhs V b hin hb
  cases hopt : (itot_new top newin rhs).1 with
  | none =>
    have heq : itot_extend newin ta rhs top =
        (none, (itot_new top newin rhs).2.1,
          (itot_new top newin rhs).2.2) := by
      simp only [itot_extend, hopt]
    rw [heq]
    exact ⟨n1, n2, fun tr htr => by simp at htr⟩
  | some tb =>
    set rm := itot_merge ta tb rhs (itot_new top newin rhs).2.2 with hrm
    have heq : itot_extend newin ta rhs top =
        (some rm.1, (itot_new top newin rhs).2.1 ++ rm.2.1, rm.2.2) := by
      simp only [itot_extend, hopt]
    rw [heq]
    show top ≤ rm.2.2 ∧
      okCNF V b rm.2.2 ((itot_new top newin rhs).2.1 ++ rm.2.1) ∧
      (∀ tr, (some rm.1 : Option TotTree) = some tr →
        okTree V b rm.2.2 tr)
    obtain ⟨m1, m2, m3⟩ := itot_merge_ok ta tb rhs
      (itot_new top newin rhs).2.2 V b
      (okTree_mono hta (le_refl _) n1) (n3 tb hopt) (by omega)
    rw [← hrm] at m1 m2 m3
    refine ⟨by omega, ?_, fun tr htr => ?_⟩
    · exact okCNF_append (okCNF_mono n2 (le_refl _) (by omega)) m3
    · injection htr with htr
      subst htr
      exact m2

theorem encode_atmost_branch1 (lhs : List Int) (rhs top enc : Int)
    (h : lhs.length ≤ usize rhs) :
    _encode_atmost lhs rhs top enc = ([], top) := by
  unfold _encode_atmost
  rw [if_pos h]

theorem encode_atmost_branch2 (lhs : List Int) (rhs top enc : Int)
    (h1 : ¬ lhs.length ≤ usize rhs) (h2 : usize rhs = lhs.length - 1) :
    _encode_atmost lhs rhs top enc = ([lhs.map (fun v => -v)], top) := by
  unfold _encode_atmost
  rw [if_neg h1, if_pos h2]
  rfl

theorem encode_atmost_branch3 (lhs : List Int) (top enc : Int)
    (h1 : ¬ lhs.length ≤ usize 0) (h2 : ¬ usize 0 = lhs.length - 1) :
    _encode_atmost lhs 0 top enc = (lhs.map (fun v => [-v]), top) := by
  unfold _encode_atmost
  rw [if_neg h1, if_neg h2, if_pos rfl]
  rfl

theorem _encode_atmost_ok (lhs : List Int) (rhs top enc : Int)
    (h1 : -(2 ^ 31) ≤ rhs) (h2 : rhs < 2 ^ 31) (h3 : lhs.length < 2 ^ 63) :
    top ≤ (_encode_atmost lhs rhs top enc).2 ∧
    okCNF lhs top (_encode_atmost lhs rhs top enc).2
      (_encode_atmost lhs rhs top enc).1 := by
  unfold _encode_atmost
  by_cases hb1 : lhs.length ≤ usize rhs
  · rw [if_pos hb1]
    exact ⟨le_refl _, okCNF_nil⟩
  rw [if_neg hb1]
  have hpos : 0 ≤ rhs := by
    by_contra hcon
    push_neg at hcon
    have := usize_of_neg h1 hcon
    exact hb1 (by omega)
  by_cases hb2 : usize rhs = lhs.length - 1
  · rw [if_pos hb2]
    exact ⟨le_refl _, common_encode_atmostNm1_ok⟩
  rw [if_neg hb2]
  by_cases hb3 : rhs = 0
  · rw [if_pos hb3]
    exact ⟨le_refl _, common_encode_atmost0_ok⟩
  rw [if_neg hb3]
  by_cases hb4 : enc = enc_cardn
  · rw [if_pos hb4]
    exact cardn_encode_atmostN_ok top lhs rhs hpos
  rw [if_neg hb4]
  by_cases hb5 : enc = enc_sortn
  · rw [if_pos hb5]
    exact sortn_encode_atmostN_ok top lhs rhs hpos
  rw [if_neg hb5]
  by_cases hb6 : enc = enc_kmtot
  · rw [if_pos hb6]
    exact kmto_encode_atmostN_ok top lhs rhs h1 h2 h3
  rw [if_neg hb6]
  by_cases hb7 : enc = enc_mtot
  · rw [if_pos hb7]
    exact mto_encode_atmostN_ok top lhs rhs h1 h2 h3
  rw [if_neg hb7]
  by_cases hb8 : enc = enc_tot
  · rw [if_pos hb8]
    exact to_encode_atmostN_ok top lhs rhs h1 h2 h3
  rw [if_neg hb8]
  by_cases hb9 : enc = enc_seqc
  · rw [if_pos hb9]
    exact seqcounter_encode_atmostN_ok top lhs rhs
  rw [if_neg hb9]
  by_cases hb10 : rhs = 1
  · rw [if_pos hb10]
    by_cases hb11 : enc = enc_bitw
    · rw [if_pos hb11]
      exact bitwise_encode_atmost1_ok top lhs
    rw [if_neg hb11]
    by_cases hb12 : enc = enc_exp
    · rw [if_pos hb12]
      exact ⟨le_refl _, pairwise_encode_atmost1_ok⟩
    rw [if_neg hb12]
    by_cases hb13 : enc = enc_ladd
    · rw [if_pos hb13]
      exact ladder_encode_atmost1_ok top lhs
    rw [if_neg hb13]
    exact ⟨le_refl _, okCNF_nil⟩
  · rw [if_neg hb10]
    exact ⟨le_refl _, okCNF_nil⟩

theorem okLit_map_neg {V : List Int} {t t0 l : Int}
    (h : okLit (V.map (fun x => -x)) t t0 l) : okLit V t t0 l := by
  rcases h with h | h | h | h
  · simp only [List.mem_map] at h
    obtain ⟨x, hx, rfl⟩ := h
    exact Or.inr (Or.inl (by simpa using hx))
  · simp only [List.mem_map] at h
    obtain ⟨x, hx, hxe⟩ := h
    have : x = l := by omega
    subst this
    exact Or.inl hx
  · exact Or.inr (Or.inr (Or.inl h))
  · exact Or.inr (Or.inr (Or.inr h))

theorem _encode_atleast_ok (lhs : List Int) (rhs top enc : Int)
    (h2 : rhs < 2 ^ 31) (h3 : lhs.length < 2 ^ 31) :
    top ≤ (_encode_atleast lhs rhs top enc).2.1 ∧
    okCNF lhs top (_encode_atleast lhs rhs top enc).2.1
      (_encode_atleast lhs rhs top enc).1 := by
  unfold _encode_atleast
  by_cases hb1 : rhs ≤ 0
  · rw [if_pos hb1]
    exact ⟨le_refl _, okCNF_nil⟩
  rw [if_neg hb1]
  by_cases hb2 : rhs = 1
  · rw [if_pos hb2]
    exact ⟨le_refl _, common_encode_atleast1_ok⟩
  rw [if_neg hb2]
  by_cases hb3 : rhs = (lhs.length : Int)
  · rw [if_pos hb3]
    exact ⟨le_refl _, common_encode_atleastN_ok⟩
  rw [if_neg hb3]
  show top ≤ (_encode_atmost (lhs.map (fun x => -x))
      ((lhs.length : Int) - rhs) top enc).2 ∧ _
  obtain ⟨a1, a2⟩ := _encode_atmost_ok (lhs.map (fun x => -x))
    ((lhs.length : Int) - rhs) top enc (by omega) (by omega)
    (by rw [List.length_map]; omega)
  exact ⟨a1, fun c hc l hl => okLit_map_neg (a2 c hc l hl)⟩

theorem okCNF_aux_bound {V : List Int} {t T : Int} {F : CNF}
    (h : okCNF V t T F) (ht : 0 ≤ t) (hT : t ≤ T) :
    ∀ c ∈ F, ∀ l ∈ c, l ∉ V → -l ∉ V → l ≤ T ∧ -l ≤ T := by
  intro c hc l hl h1 h2
  rcases h c hc l hl with hm | hm | hm | hm
  · exact absurd hm h1
  · exact absurd hm h2
  · omega
  · omega

theorem okCNF_no_zero {V : List Int} {t T : Int} {F : CNF}
    (h : okCNF V t T F) (h0 : ∀ v ∈ V, v ≠ 0) (ht : 0 ≤ t) :
    ∀ c ∈ F, ∀ l ∈ c, l ≠ 0 := by
  intro c hc l hl
  rcases h c hc l hl with hm | hm | hm | hm
  · exact h0 l hm
  · intro hz
    exact h0 _ hm (by omega)
  · intro hz
    omega
  · intro hz
    omega

theorem satLit_neg (a : Int → Bool) {l : Int} (h : l ≠ 0) :
    satLit a (-l) = !(satLit a l) := by
  unfold satLit
  rcases lt_trichotomy l 0 with hl | hl | hl
  · rw [if_pos (by omega), if_neg (by omega)]
    simp
  · exact absurd hl h
  · rw [if_neg (by omega), if_pos hl]
    simp

theorem countTrue_le (a : Int → Bool) (lhs : List Int) :
    countTrue a lhs ≤ lhs.length := List.length_filter_le _ _

theorem countTrue_eq_zero_iff (a : Int → Bool) (lhs : List Int) :
    countTrue a lhs = 0 ↔ ∀ l ∈ lhs, satLit a l = false := by
  unfold countTrue
  rw [List.length_eq_zero, List.filter_eq_nil_iff]
  simp only [Bool.not_eq_true]

theorem satCNF_append (a : Int → Bool) (F G : CNF) :
    satCNF a (F ++ G) = (satCNF a F && satCNF a G) := by
  unfold satCNF
  exact List.all_append

theorem satCNF_iff (a : Int → Bool) (F : CNF) :
    satCNF a F = true ↔ ∀ c ∈ F, satClause a c = true := by
  unfold satCNF
  exact List.all_eq_true

theorem satCNF_mem {a : Int → Bool} {F : CNF} {c : Clause}
    (h : satCNF a F = true) (hc : c ∈ F) : satClause a c = true :=
  (satCNF_iff a F).1 h c hc

theorem satClause_of_lit {a : Int → Bool} {c : Clause} {l : Int}
    (hl : l ∈ c) (h : satLit a l = true) : satClause a c = true := by
  unfold satClause
  exact List.any_eq_true.2 ⟨l, hl, h⟩

theorem satClause_elim {a : Int → Bool} {c : Clause}
    (h : satClause a c = true) : ∃ l ∈ c, satLit a l = true := by
  unfold satClause at h
  exact List.any_eq_true.1 h

theorem satLit_false_of_neg {a : Int → Bool} {l : Int} (h0 : l ≠ 0)
    (h : satLit a (-l) = true) : satLit a l = false := by
  rw [satLit_neg a h0] at h
  revert h
  cases satLit a l <;> simp

theorem satLit_neg_true_of_false {a : Int → Bool} {l : Int} (h0 : l ≠ 0)
    (h : satLit a l = false) : satLit a (-l) = true := by
  rw [satLit_neg a h0, h]
  rfl

theorem satClause_forced_pair {a : Int → Bool} {x y : Int} (h0 : x ≠ 0)
    (h : satClause a [-x, y] = true) (hx : satLit a x = true) :
    satLit a y = true := by
  obtain ⟨l, hl, hsat⟩ := satClause_elim h
  rcases (by simpa using hl : l = -x ∨ l = y) with rfl | rfl
  · rw [satLit_false_of_neg h0 hsat] at hx
    exact absurd hx (by simp)
  · exact hsat

theorem satClause_forced_triple {a : Int → Bool} {x y z : Int}
    (h0x : x ≠ 0) (h0y : y ≠ 0)
    (h : satClause a [-x, -y, z] = true)
    (hx : satLit a x = true) (hy : satLit a y = true) :
    satLit a z = true := by
  obtain ⟨l, hl, hsat⟩ := satClause_elim h
  rcases (by simpa using hl : l = -x ∨ l = -y ∨ l = z) with rfl | rfl | rfl
  · rw [satLit_false_of_neg h0x hsat] at hx
    exact absurd hx (by simp)
  · rw [satLit_false_of_neg h0y hsat] at hy
    exact absurd hy (by simp)
  · exact hsat

theorem satClause_forced_quad {a : Int → Bool} {x y z w : Int}
    (h0x : x ≠ 0) (h0y : y ≠ 0) (h0z : z ≠ 0)
    (h : satClause a [-x, -y, -z, w] = true)
    (hx : satLit a x = true) (hy : satLit a y = true)
    (hz : satLit a z = true) : satLit a w = true := by
  obtain ⟨l, hl, hsat⟩ := satClause_elim h
  rcases (by simpa using hl : l = -x ∨ l = -y ∨ l = -z ∨ l = w) with
    rfl | rfl | rfl | rfl
  · rw [satLit_false_of_neg h0x hsat] at hx
    exact absurd hx (by simp)
  · rw [satLit_false_of_neg h0y hsat] at hy
    exact absurd hy (by simp)
  · rw [satLit_false_of_neg h0z hsat] at hz
    exact absurd hz (by simp)
  · exact hsat

theorem satClause_block_pair {a : Int → Bool} {x y : Int}
    (h0x : x ≠ 0) (h0y : y ≠ 0)
    (h : satClause a [-x, -y] = true)
    (hx : satLit a x = true) (hy : satLit a y = true) : False := by
  obtain ⟨l, hl, hsat⟩ := satClause_elim h
  rcases (by simpa using hl : l = -x ∨ l = -y) with rfl | rfl
  · rw [satLit_false_of_neg h0x hsat] at hx
    exact absurd hx (by simp)
  · rw [satLit_false_of_neg h0y hsat] at hy
    exact absurd hy (by simp)

theorem satClause_block_triple {a : Int → Bool} {x y z : Int}
    (h0x : x ≠ 0) (h0y : y ≠ 0) (h0z : z ≠ 0)
    (h : satClause a [-x, -y, -z] = true)
    (hx : satLit a x = true) (hy : satLit a y = true)
    (hz : satLit a z = true) : False := by
  obtain ⟨l, hl, hsat⟩ := satClause_elim h
  rcases (by simpa using hl : l = -x ∨ l = -y ∨ l = -z) with rfl | rfl | rfl
  · rw [satLit_false_of_neg h0x hsat] at hx
    exact absurd hx (by simp)
  · rw [satLit_false_of_neg h0y hsat] at hy
    exact absurd hy (by simp)
  · rw [satLit_false_of_neg h0z hsat] at hz
    exact absurd hz (by simp)

theorem satLit_agree {a a' : Int → Bool} {t l : Int}
    (hag : ∀ x : Int, x ≤ t → a' x = a x) (h1 : l ≤ t) (h2 : -l ≤ t) :
    satLit a' l = satLit a l := by
  unfold satLit
  by_cases hl : 0 < l
  · rw [if_pos hl, if_pos hl, hag l h1]
  · rw [if_neg hl, if_neg hl, hag (-l) h2]

theorem satLit_agree_okLit {V : List Int} {b T : Int} {a a' : Int → Bool}
    {l : Int} (hok : okLit V b T l)
    (hag : ∀ x : Int, x ≤ T → a' x = a x)
    (hV : ∀ m ∈ V, m ≤ T ∧ -m ≤ T) (hb : 0 ≤ b) :
    satLit a' l = satLit a l := by
  rcases hok with h | h | h | h
  · exact satLit_agree hag (hV l h).1 (hV l h).2
  · obtain ⟨h1, h2⟩ := hV (-l) h
    exact satLit_agree hag (by omega) h1
  · exact satLit_agree hag (by omega) (by omega)
  · exact satLit_agree hag (by omega) (by omega)

theorem satClause_agree {a a' : Int → Bool} {c : Clause}
    (h : ∀ l ∈ c, satLit a' l = satLit a l) :
    satClause a' c = satClause a c := by
  unfold satClause
  induction c with
  | nil => rfl
  | cons x xs ih =>
    simp only [List.any_cons]
    rw [h x (by simp), ih (fun l hl => h l (by simp [hl]))]

theorem satCNF_agree {a a' : Int → Bool} {F : CNF}
    (h : ∀ c ∈ F, satClause a' c = satClause a c) :
    satCNF a' F = satCNF a F := by
  unfold satCNF
  induction F with
  | nil => rfl
  | cons c cs ih =>
    simp only [List.all_cons]
    rw [h c (by simp), ih (fun d hd => h d (by simp [hd]))]

theorem satCNF_agree_okCNF {V : List Int} {b T : Int} {a a' : Int → Bool}
    {F : CNF} (hok : okCNF V b T F)
    (hag : ∀ x : Int, x ≤ T → a' x = a x)
    (hV : ∀ m ∈ V, m ≤ T ∧ -m ≤ T) (hb : 0 ≤ b) :
    satCNF a' F = satCNF a F :=
  satCNF_agree (fun c hc => satClause_agree (fun l hl =>
    satLit_agree_okLit (hok c hc l hl) hag hV hb))

theorem countTrue_agree {a a' : Int → Bool} {t : Int} {w : List Int}
    (hag : ∀ x : Int, x ≤ t → a' x = a x)
    (hw : ∀ l ∈ w, l ≤ t ∧ -l ≤ t) :
    countTrue a' w = countTrue a w := by
  unfold countTrue
  rw [List.filter_congr (fun l hl =>
    satLit_agree hag (hw l hl).1 (hw l hl).2)]

theorem countTrue_cons (a : Int → Bool) (x : Int) (w : List Int) :
    countTrue a (x :: w) =
      (if satLit a x = true then 1 else 0) + countTrue a w := by
  unfold countTrue
  rw [List.filter_cons]
  split_ifs
  · simp only [List.length_cons]
    omega
  · simp

theorem countTrue_append (a : Int → Bool) (w1 w2 : List Int) :
    countTrue a (w1 ++ w2) = countTrue a w1 + countTrue a w2 := by
  unfold countTrue
  rw [List.filter_append, List.length_append]

theorem countTrue_pos_exists {a : Int → Bool} {w : List Int}
    (h : 1 ≤ countTrue a w) :
    ∃ i, i < w.length ∧ satLit a (nth w i) = true := by
  induction w with
  | nil => simp [countTrue] at h
  | cons x xs ih =>
    rw [countTrue_cons] at h
    by_cases hx : satLit a x = true
    · exact ⟨0, by simp, by simpa [nth]⟩
    · rw [if_neg hx] at h
      obtain ⟨i, hi, hs⟩ := ih (by omega)
      exact ⟨i + 1, by simp only [List.length_cons]; omega,
        by simpa [nth] using hs⟩

theorem countTrue_two_positions {a : Int → Bool} {w : List Int}
    (h : 2 ≤ countTrue a w) :
    ∃ i1 i2, i1 < i2 ∧ i2 < w.length ∧
      satLit a (nth w i1) = true ∧ satLit a (nth w i2) = true := by
  induction w with
  | nil => simp [countTrue] at h
  | cons x xs ih =>
    rw [countTrue_cons] at h
    by_cases hx : satLit a x = true
    · rw [if_pos hx] at h
      obtain ⟨i, hi, hs⟩ := @countTrue_pos_exists a xs (by omega)
      exact ⟨0, i + 1, by omega, by simp only [List.length_cons]; omega,
        by simpa [nth], by simpa [nth] using hs⟩
    · rw [if_neg hx] at h
      obtain ⟨i1, i2, h12, h2, s1, s2⟩ := ih (by omega)
      exact ⟨i1 + 1, i2 + 1, by omega, by simp only [List.length_cons]; omega,
        by simpa [nth] using s1, by simpa [nth] using s2⟩

theorem countTrue_eq_one_exists {a : Int → Bool} {w : List Int}
    (h : countTrue a w = 1) :
    ∃ i, i < w.length ∧ satLit a (nth w i) = true ∧
      ∀ j, j < w.length → j ≠ i → satLit a (nth w j) = false := by
  induction w with
  | nil => simp [countTrue] at h
  | cons x xs ih =>
    rw [countTrue_cons] at h
    by_cases hx : satLit a x = true
    · rw [if_pos hx] at h
      refine ⟨0, by simp, by simpa [nth], ?_⟩
      intro j hj hne
      obtain ⟨j0, rfl⟩ : ∃ j0, j = j0 + 1 := ⟨j - 1, by omega⟩
      show satLit a (nth xs j0) = false
      by_contra hcon
      have : 1 ≤ countTrue a xs := by
        rcases Nat.eq_zero_or_pos (countTrue a xs) with hz | hp
        · have := (countTrue_eq_zero_iff a xs).1 hz (nth xs j0)
            (nth_mem (by simpa using hj))
          exact absurd this hcon
        · exact hp
      omega
    · rw [if_neg hx] at h
      obtain ⟨i, hi, hs, hothers⟩ := ih (by omega)
      refine ⟨i + 1, by simp only [List.length_cons]; omega,
        by simpa [nth] using hs, ?_⟩
      intro j hj hne
      rcases Nat.eq_zero_or_pos j with rfl | hp
      · simpa [nth] using (by revert hx; cases satLit a x <;> simp)
      · obtain ⟨j0, rfl⟩ : ∃ j0, j = j0 + 1 := ⟨j - 1, by omega⟩
        exact hothers j0 (by simpa using hj) (by omega)

theorem countTrue_of_unique {a : Int → Bool} {w : List Int} {i0 : Nat}
    (h : ∀ j, j < w.length → (satLit a (nth w j) = true ↔ j = i0))
    (hi : i0 < w.length) : countTrue a w = 1 := by
  induction w generalizing i0 with
  | nil => simp at hi
  | cons x xs ih =>
    rw [countTrue_cons]
    rcases Nat.eq_zero_or_pos i0 with rfl | hp
    · have hx0 : satLit a x = true := by
        have := (h 0 (by simp)).2 rfl
        simpa [nth] using this
      rw [if_pos hx0]
      have hz : countTrue a xs = 0 := by
        apply (countTrue_eq_zero_iff a xs).2
        intro l hl
        obtain ⟨j, hj, rfl⟩ := List.mem_iff_getElem.1 hl
        have := h (j + 1) (by simp; omega)
        simp only [nth, List.getD_cons_succ] at this
        rw [show xs.getD j 0 = xs[j] from List.getD_eq_getElem xs 0 hj]
          at this
        revert this
        cases satLit a xs[j] <;> simp
      omega
    · obtain ⟨i1, rfl⟩ : ∃ i1, i0 = i1 + 1 := ⟨i0 - 1, by omega⟩
      have hx : satLit a x = false := by
        have := h 0 (by simp)
        simp only [nth, List.getD_cons_zero] at this
        revert this
        cases satLit a x <;> simp
      rw [if_neg (by simp [hx])]
      have := ih (fun j hj => by
        have := h (j + 1) (by simp; omega)
        simpa [nth] using this) (by simpa using hi)
      omega

-- ==== clause semantics: prefix predicates and assignments ==================

/-- A vector reads as at least c leading true positions. -/
def forcedPrefix (a : Int → Bool) (w : List Int) (c : Nat) : Prop :=
  ∀ j, j < c → j < w.length → satLit a (nth w j) = true

/-- A vector reads as exactly c leading true positions and false beyond. -/
def exactPrefix (a : Int → Bool) (w : List Int) (c : Nat) : Prop :=
  ∀ j, j < w.length → (satLit a (nth w j) = true ↔ j < c)

/-- All entries of a vector are nonzero literals with ids at most t. -/
def boundedLits (t : Int) (w : List Int) : Prop :=
  ∀ v ∈ w, v ≠ 0 ∧ v ≤ t ∧ -v ≤ t

theorem exactPrefix_forced {a : Int → Bool} {w : List Int} {c : Nat}
    (h : exactPrefix a w c) : forcedPrefix a w c :=
  fun j hj hl => (h j hl).2 hj

theorem boundedLits_mono {t t' : Int} {w : List Int}
    (h : boundedLits t w) (ht : t ≤ t') : boundedLits t' w :=
  fun v hv => ⟨(h v hv).1, by have := (h v hv).2.1; omega,
    by have := (h v hv).2.2; omega⟩

theorem boundedLits_sub {t : Int} {w w' : List Int}
    (h : boundedLits t w) (hs : ∀ v ∈ w', v ∈ w) : boundedLits t w' :=
  fun v hv => h v (hs v hv)

theorem boundedLits_append {t : Int} {w1 w2 : List Int}
    (h1 : boundedLits t w1) (h2 : boundedLits t w2) :
    boundedLits t (w1 ++ w2) := by
  intro v hv
  rcases List.mem_append.1 hv with h | h
  · exact h1 v h
  · exact h2 v h

theorem forcedPrefix_agree {a a' : Int → Bool} {t : Int} {w : List Int}
    {c : Nat} (h : forcedPrefix a w c)
    (hag : ∀ x : Int, x ≤ t → a' x = a x) (hw : boundedLits t w) :
    forcedPrefix a' w c := by
  intro j hj hl
  rw [satLit_agree hag (hw _ (nth_mem hl)).2.1 (hw _ (nth_mem hl)).2.2]
  exact h j hj hl

theorem exactPrefix_agree {a a' : Int → Bool} {t : Int} {w : List Int}
    {c : Nat} (h : exactPrefix a w c)
    (hag : ∀ x : Int, x ≤ t → a' x = a x) (hw : boundedLits t w) :
    exactPrefix a' w c := by
  intro j hl
  rw [satLit_agree hag (hw _ (nth_mem hl)).2.1 (hw _ (nth_mem hl)).2.2]
  exact h j hl

theorem exactPrefix_single (a : Int → Bool) (l : Int) :
    exactPrefix a [l] (countTrue a [l]) := by
  intro j hl
  simp only [List.length_singleton] at hl
  interval_cases j
  show satLit a (nth [l] 0) = true ↔ 0 < countTrue a [l]
  simp only [nth, List.getD_cons_zero, countTrue, List.filter]
  cases h : satLit a l <;> simp [h]

/-- Overwrite the m fresh variables above t with the unary pattern of
count c, leaving every other variable unchanged. -/
def updRange (a : Int → Bool) (t : Int) (m c : Nat) : Int → Bool :=
  fun x => if t < x ∧ x ≤ t + (m : Int) then decide (x ≤ t + (c : Int))
    else a x

theorem updRange_agree (a : Int → Bool) (t : Int) (m c : Nat) :
    ∀ x : Int, x ≤ t → updRange a t m c x = a x := by
  intro x hx
  unfold updRange
  rw [if_neg (by omega)]

theorem updRange_agree_above (a : Int → Bool) (t : Int) (m c : Nat) :
    ∀ x : Int, t + (m : Int) < x → updRange a t m c x = a x := by
  intro x hx
  unfold updRange
  rw [if_neg (by omega)]

theorem satLit_updRange {a : Int → Bool} {t : Int} {m c j : Nat}
    (ht : 0 ≤ t) (hj : j < m) :
    satLit (updRange a t m c) (nth (freshVars t m) j) =
      decide (j < c) := by
  rw [nth_freshVars hj]
  unfold satLit updRange
  rw [if_pos (by omega), if_pos (by omega)]
  by_cases hc : j < c
  · rw [decide_eq_true (by omega : t + 1 + (j : Int) ≤ t + (c : Int)),
      decide_eq_true hc]
  · rw [decide_eq_false (by omega : ¬ t + 1 + (j : Int) ≤ t + (c : Int)),
      decide_eq_false hc]

theorem exactPrefix_updRange (a : Int → Bool) {t : Int} (m c : Nat)
    (ht : 0 ≤ t) :
    exactPrefix (updRange a t m c) (freshVars t m) c := by
  intro j hl
  rw [freshVars_length] at hl
  rw [satLit_updRange ht hl]
  simp

-- ==== clause semantics: vector access lemmas ===============================

theorem nth_cons_zero (x : Int) (w : List Int) : nth (x :: w) 0 = x := rfl

theorem nth_cons_succ (x : Int) (w : List Int) (j : Nat) :
    nth (x :: w) (j + 1) = nth w j := by
  simp [nth]

theorem mk_odd_vect_nth : ∀ (l : List Int) (i : Nat),
    i < (mk_odd_vect l).length → nth (mk_odd_vect l) i = nth l (2 * i) := by
  intro l
  induction l using mk_odd_vect.induct with
  | case1 x y rest ih =>
    intro i hi
    rcases Nat.eq_zero_or_pos i with rfl | hp
    · rfl
    · obtain ⟨i0, rfl⟩ : ∃ i0, i = i0 + 1 := ⟨i - 1, by omega⟩
      show nth (x :: mk_odd_vect rest) (i0 + 1) = _
      rw [nth_cons_succ]
      rw [ih i0 (by simpa [mk_odd_vect] using hi)]
      have : 2 * (i0 + 1) = (2 * i0 + 1) + 1 := by omega
      rw [this, nth_cons_succ, nth_cons_succ]
  | case2 l h =>
    intro i hi
    cases l with
    | nil => simp [mk_odd_vect] at hi
    | cons x t =>
      cases t with
      | nil => simp [mk_odd_vect] at hi
      | cons y rest => exact absurd rfl (h x y rest)

theorem mk_even_vect_nth : ∀ (l : List Int) (i : Nat),
    i < (mk_even_vect l).length →
    nth (mk_even_vect l) i = nth l (2 * i + 1) := by
  intro l
  induction l using mk_even_vect.induct with
  | case1 x y rest ih =>
    intro i hi
    rcases Nat.eq_zero_or_pos i with rfl | hp
    · rfl
    · obtain ⟨i0, rfl⟩ : ∃ i0, i = i0 + 1 := ⟨i - 1, by omega⟩
      show nth (y :: mk_even_vect rest) (i0 + 1) = _
      rw [nth_cons_succ]
      rw [ih i0 (by simpa [mk_even_vect] using hi)]
      have : 2 * (i0 + 1) + 1 = (2 * i0 + 1 + 1) + 1 := by omega
      rw [this, nth_cons_succ]
      rfl
  | case2 l h =>
    intro i hi
    cases l with
    | nil => simp [mk_even_vect] at hi
    | cons x t =>
      cases t with
      | nil => simp [mk_even_vect] at hi
      | cons y rest => exact absurd rfl (h x y rest)

theorem mk_ksize_vect_nth (iv : List Int) (sz offset : Nat) (i : Nat)
    (hi : i < sz) : nth (mk_ksize_vect iv sz offset) i = nth iv (offset + i) := by
  unfold mk_ksize_vect nth
  rw [List.getD_eq_getElem?_getD, List.getElem?_map, List.getElem?_range hi]
  rfl

theorem mk_half_vect_nth (iv : List Int) (offset : Nat) (i : Nat)
    (hi : i < iv.length / 2) :
    nth (mk_half_vect iv offset) i = nth iv (offset + i) := by
  unfold mk_half_vect nth
  rw [List.getD_eq_getElem?_getD, List.getElem?_map, List.getElem?_range hi]
  rfl

theorem nth_take (w : List Int) (n i : Nat) (hi : i < n) :
    nth (w.take n) i = nth w i := by
  unfold nth
  rcases Nat.lt_or_ge i w.length with h | h
  · rw [List.getD_eq_getElem _ _ (by simp [List.length_take]; omega),
      List.getD_eq_getElem _ _ h]
    exact List.getElem_take w
  · rw [List.getD_eq_default _ _ (by simp [List.length_take]; omega),
      List.getD_eq_default _ _ h]

theorem nth_drop (w : List Int) (n i : Nat) (hn : n ≤ w.length) :
    nth (w.drop n) i = nth w (n + i) := by
  unfold nth
  rcases Nat.lt_or_ge (n + i) w.length with h | h
  · rw [List.getD_eq_getElem _ _ (by simp [List.length_drop]; omega),
      List.getD_eq_getElem _ _ h]
    rw [List.getElem_drop]
  · rw [List.getD_eq_default _ _ (by simp [List.length_drop]; omega),
      List.getD_eq_default _ _ h]

theorem nth_eq_getElem {w : List Int} {i : Nat} (h : i < w.length) :
    nth w i = w[i] := by
  unfold nth
  rw [List.getD_eq_getElem _ _ h]

theorem mk_half_vect_eq_take (iv : List Int) :
    mk_half_vect iv 0 = iv.take (iv.length / 2) := by
  apply List.ext_getElem
  · simp [mk_half_vect_length, List.length_take]
    omega
  · intro i h1 h2
    have hi : i < iv.length / 2 := by
      have := mk_half_vect_length iv 0
      omega
    rw [← nth_eq_getElem h1, ← nth_eq_getElem h2,
      mk_half_vect_nth iv 0 i hi, nth_take iv _ i hi, Nat.zero_add]

theorem mk_half_vect_eq_drop (iv : List Int) (hev : iv.length % 2 = 0) :
    mk_half_vect iv (iv.length / 2) = iv.drop (iv.length / 2) := by
  apply List.ext_getElem
  · simp [mk_half_vect_length, List.length_drop]
    omega
  · intro i h1 h2
    have hi : i < iv.length / 2 := by
      have := mk_half_vect_length iv (iv.length / 2)
      omega
    rw [← nth_eq_getElem h1, ← nth_eq_getElem h2,
      mk_half_vect_nth iv _ i hi, nth_drop iv _ i (by omega)]

theorem mk_ksize_vect_eq_take (iv : List Int) (sz : Nat)
    (hsz : sz ≤ iv.length) : mk_ksize_vect iv sz 0 = iv.take sz := by
  apply List.ext_getElem
  · simp [mk_ksize_vect_length, List.length_take]
    omega
  · intro i h1 h2
    have hi : i < sz := by
      have := mk_ksize_vect_length iv sz 0
      omega
    rw [← nth_eq_getElem h1, ← nth_eq_getElem h2,
      mk_ksize_vect_nth iv sz 0 i hi, nth_take iv sz i hi, Nat.zero_add]

theorem mk_ksize_vect_eq_drop (iv : List Int) (off : Nat)
    (hoff : off ≤ iv.length) :
    mk_ksize_vect iv (iv.length - off) off = iv.drop off := by
  apply List.ext_getElem
  · simp [mk_ksize_vect_length, List.length_drop]
  · intro i h1 h2
    have hi : i < iv.length - off := by
      have := mk_ksize_vect_length iv (iv.length - off) off
      omega
    rw [← nth_eq_getElem h1, ← nth_eq_getElem h2,
      mk_ksize_vect_nth iv _ off i hi, nth_drop iv off i hoff]

theorem countTrue_take_drop (a : Int → Bool) (w : List Int) (n : Nat) :
    countTrue a w = countTrue a (w.take n) + countTrue a (w.drop n) := by
  rw [← countTrue_append, List.take_append_drop]

-- ==== clause semantics: pairwise ===========================================

theorem pairwise_head_iff (a : Int → Bool) (x : Int) (xs : List Int)
    (h0x : x ≠ 0) (h0 : ∀ v ∈ xs, v ≠ 0) :
    (satCNF a (xs.map (fun w => [-x, -w])) = true ↔
      (satLit a x = true → countTrue a xs = 0)) := by
  rw [satCNF_iff]
  constructor
  · intro h hx
    apply (countTrue_eq_zero_iff a xs).2
    intro l hl
    have hc := h [-x, -l] (List.mem_map_of_mem _ hl)
    by_contra hcon
    have hl' : satLit a l = true := by
      revert hcon
      cases satLit a l <;> simp
    exact satClause_block_pair h0x (h0 l hl) hc hx hl'
  · intro h c hc
    obtain ⟨l, hl, rfl⟩ := List.mem_map.1 hc
    by_cases hx : satLit a x = true
    · have := (countTrue_eq_zero_iff a xs).1 (h hx) l hl
      exact satClause_of_lit (by simp)
        (satLit_neg_true_of_false (h0 l hl) this)
    · have hxf : satLit a x = false := by
        revert hx
        cases satLit a x <;> simp
      exact satClause_of_lit (by simp) (satLit_neg_true_of_false h0x hxf)

theorem pairwise_pairs_equisat (a : Int → Bool) :
    ∀ (w : List Int), (∀ v ∈ w, v ≠ 0) →
    (satCNF a (pairwise_pairs w) = true ↔ countTrue a w ≤ 1) := by
  intro w
  induction w with
  | nil =>
    intro h0
    simp [pairwise_pairs, satCNF, countTrue]
  | cons x xs ih =>
    intro h0
    rw [pairwise_pairs, satCNF_append, Bool.and_eq_true, countTrue_cons,
      pairwise_head_iff a x xs (h0 x (by simp))
        (fun v hv => h0 v (by simp [hv])),
      ih (fun v hv => h0 v (by simp [hv]))]
    by_cases hx : satLit a x = true
    · rw [if_pos hx]
      constructor
      · intro ⟨h1, h2⟩
        have := h1 hx
        omega
      · intro h
        exact ⟨fun _ => by omega, by omega⟩
    · rw [if_neg hx]
      constructor
      · intro ⟨h1, h2⟩
        omega
      · intro h
        exact ⟨fun hxx => absurd hxx hx, by omega⟩

-- ==== clause semantics: static totalizer ===================================

theorem to_UA_parts {a : Int → Bool} {outlst alst blst : List Int}
    (hsat : satCNF a (to_UA outlst alst blst) = true) :
    (∀ j, j < blst.length →
      satClause a [-(nth blst j), nth outlst j] = true) ∧
    (∀ i, i < alst.length →
      satClause a [-(nth alst i), nth outlst i] = true) ∧
    (∀ i jj, 1 ≤ i → i ≤ alst.length → 1 ≤ jj → jj ≤ blst.length →
      satClause a [-(nth alst (i - 1)), -(nth blst (jj - 1)),
        nth outlst (i + jj - 1)] = true) := by
  rw [to_UA, satCNF_append, satCNF_append] at hsat
  simp only [Bool.and_eq_true] at hsat
  obtain ⟨⟨h1, h2⟩, h3⟩ := hsat
  refine ⟨?_, ?_, ?_⟩
  · intro j hj
    exact satCNF_mem h1 (List.mem_map.2 ⟨j, List.mem_range.2 hj, rfl⟩)
  · intro i hi
    exact satCNF_mem h2 (List.mem_map.2 ⟨i, List.mem_range.2 hi, rfl⟩)
  · intro i jj hi1 hi2 hj1 hj2
    refine satCNF_mem h3 (List.mem_flatMap.2 ⟨i, ?_, ?_⟩)
    · exact List.mem_range'_1.2 ⟨hi1, by omega⟩
    · exact List.mem_map.2 ⟨jj, List.mem_range'_1.2 ⟨hj1, by omega⟩, rfl⟩

theorem to_UA_sound {a : Int → Bool} {outlst alst blst : List Int}
    {p q : Nat}
    (hsat : satCNF a (to_UA outlst alst blst) = true)
    (hp : forcedPrefix a alst p) (hq : forcedPrefix a blst q)
    (hpl : p ≤ alst.length) (hql : q ≤ blst.length)
    (hlen : alst.length + blst.length ≤ outlst.length)
    (h0a : ∀ v ∈ alst, v ≠ 0) (h0b : ∀ v ∈ blst, v ≠ 0) :
    forcedPrefix a outlst (p + q) := by
  obtain ⟨h1, h2, h3⟩ := to_UA_parts hsat
  intro j hj hjl
  rcases Nat.lt_or_ge j p with hjp | hjp
  · exact satClause_forced_pair (h0a _ (nth_mem (by omega)))
      (h2 j (by omega)) (hp j hjp (by omega))
  · rcases Nat.eq_zero_or_pos p with rfl | hppos
    · exact satClause_forced_pair (h0b _ (nth_mem (by omega)))
        (h1 j (by omega)) (hq j (by omega) (by omega))
    · have hc := h3 p (j + 1 - p) (by omega) (by omega) (by omega) (by omega)
      have e1 : j + 1 - p - 1 = j - p := by omega
      have e2 : p + (j + 1 - p) - 1 = j := by omega
      rw [e1, e2] at hc
      exact satClause_forced_triple (h0a _ (nth_mem (by omega)))
        (h0b _ (nth_mem (by omega))) hc
        (hp (p - 1) (by omega) (by omega)) (hq (j - p) (by omega) (by omega))

theorem to_UA_sat {a : Int → Bool} {outlst alst blst : List Int}
    {cf cs : Nat}
    (hout : forcedPrefix a outlst (cf + cs))
    (ha : exactPrefix a alst cf) (hb : exactPrefix a blst cs)
    (hlen : alst.length + blst.length ≤ outlst.length)
    (h0a : ∀ v ∈ alst, v ≠ 0) (h0b : ∀ v ∈ blst, v ≠ 0) :
    satCNF a (to_UA outlst alst blst) = true := by
  rw [to_UA, satCNF_append, satCNF_append]
  simp only [Bool.and_eq_true]
  refine ⟨⟨?_, ?_⟩, ?_⟩
  · rw [satCNF_iff]
    intro c hc
    obtain ⟨j, hj, rfl⟩ := List.mem_map.1 hc
    rw [List.mem_range] at hj
    by_cases hs : satLit a (nth blst j) = true
    · have : j < cs := (hb j hj).1 hs
      exact satClause_of_lit (by simp)
        (hout j (by omega) (by omega))
    · have hsf : satLit a (nth blst j) = false := by
        revert hs
        cases satLit a (nth blst j) <;> simp
      exact satClause_of_lit (by simp)
        (satLit_neg_true_of_false (h0b _ (nth_mem hj)) hsf)
  · rw [satCNF_iff]
    intro c hc
    obtain ⟨i, hi, rfl⟩ := List.mem_map.1 hc
    rw [List.mem_range] at hi
    by_cases hs : satLit a (nth alst i) = true
    · have : i < cf := (ha i hi).1 hs
      exact satClause_of_lit (by simp)
        (hout i (by omega) (by omega))
    · have hsf : satLit a (nth alst i) = false := by
        revert hs
        cases satLit a (nth alst i) <;> simp
      exact satClause_of_lit (by simp)
        (satLit_neg_true_of_false (h0a _ (nth_mem hi)) hsf)
  · rw [satCNF_iff]
    intro c hc
    simp only [List.mem_flatMap, List.mem_map, List.mem_range'_1] at hc
    obtain ⟨i, hi, jj, hjj, rfl⟩ := hc
    by_cases hsa : satLit a (nth alst (i - 1)) = true
    · by_cases hsb : satLit a (nth blst (jj - 1)) = true
      · have hia : i - 1 < cf := (ha (i - 1) (by omega)).1 hsa
        have hjb : jj - 1 < cs := (hb (jj - 1) (by omega)).1 hsb
        exact satClause_of_lit (by simp)
          (hout (i + jj - 1) (by omega) (by omega))
      · have hsf : satLit a (nth blst (jj - 1)) = false := by
          revert hsb
          cases satLit a (nth blst (jj - 1)) <;> simp
        exact satClause_of_lit (by simp)
          (satLit_neg_true_of_false (h0b _ (nth_mem (by omega))) hsf)
    · have hsf : satLit a (nth alst (i - 1)) = false := by
        revert hsa
        cases satLit a (nth alst (i - 1)) <;> simp
      exact satClause_of_lit (by simp)
        (satLit_neg_true_of_false (h0a _ (nth_mem (by omega))) hsf)

theorem forcedPrefix_self_small {a : Int → Bool} {w : List Int}
    (h : w.length ≤ 1) : forcedPrefix a w (countTrue a w) := by
  intro j hj hjl
  obtain ⟨i, hi, hs⟩ := @countTrue_pos_exists a w (by omega)
  have hi0 : i = 0 := by omega
  have hj0 : j = 0 := by omega
  subst hi0 hj0
  exact hs

theorem exactPrefix_self_small {a : Int → Bool} {w : List Int}
    (h : w.length ≤ 1) : exactPrefix a w (countTrue a w) := by
  rcases Nat.eq_zero_or_pos w.length with hz | hp
  · intro j hjl
    omega
  · have hw1 : w.length = 1 := by omega
    obtain ⟨l, rfl⟩ := List.length_eq_one.1 hw1
    exact exactPrefix_single a l

theorem boundedLits_freshVars {t : Int} (m : Nat) (ht : 0 ≤ t) :
    boundedLits (t + (m : Int)) (freshVars t m) := by
  intro v hv
  obtain ⟨h1, h2⟩ := freshVars_mem hv
  exact ⟨by omega, by omega, by omega⟩

theorem to_TO_rec_sound :
    ∀ (n : Nat) (top : Int) (ilst olst : List Int) (CLS : CNF) (T : Int)
      (a : Int → Bool),
    ilst.length ≤ n → 2 ≤ ilst.length → ilst.length ≤ olst.length →
    (∀ v ∈ ilst, v ≠ 0) → 0 ≤ top →
    to_TO_rec top ilst olst = (CLS, T) →
    satCNF a CLS = true →
    forcedPrefix a olst (countTrue a ilst) := by
  intro n
  induction n with
  | zero =>
    intro top ilst olst CLS T a hn h2 hlen h0 ht hres hsat
    omega
  | succ n ih =>
    intro top ilst olst CLS T a hn h2 hlen h0 ht hres hsat
    set half := ilst.length - ilst.length / 2 with hhalf
    have hh1 : 1 ≤ half := by omega
    have hh2 : half ≤ ilst.length := by omega
    set OF := if half < 2 then ilst.take half else freshVars top half
      with hOF
    set T1 := if half < 2 then top else top + (half : Int) with hT1
    set OS := if ilst.length - half < 2 then ilst.drop half
      else freshVars T1 (ilst.length - half) with hOS
    set T2 := if ilst.length - half < 2 then T1
      else T1 + ((ilst.length - half : Nat) : Int) with hT2
    set RS := if ilst.length - half < 2 then (([] : CNF), T2)
      else to_TO_rec T2 (ilst.drop half) OS with hRS
    set RF := if half < 2 then (([] : CNF), RS.2)
      else to_TO_rec RS.2 (ilst.take half) OF with hRF
    have heq : to_TO_rec top ilst olst =
        (to_UA olst OF OS ++ RS.1 ++ RF.1, RF.2) := by
      rw [to_TO_rec.eq_def, dif_neg (by omega : ¬ ilst.length < 2)]
    rw [heq] at hres
    injection hres with e1 e2
    subst e1 e2
    rw [satCNF_append, satCNF_append] at hsat
    simp only [Bool.and_eq_true] at hsat
    obtain ⟨⟨hsUA, hsRS⟩, hsRF⟩ := hsat
    have hT1ge : top ≤ T1 := by
      rw [hT1]
      split_ifs
      · exact le_refl _
      · omega
    have hT2ge : T1 ≤ T2 := by
      rw [hT2]
      split_ifs
      · exact le_refl _
      · omega
    have hOFlen : OF.length = half := by
      rw [hOF]
      split_ifs
      · rw [List.length_take]
        omega
      · rw [freshVars_length]
    have hOSlen : OS.length = ilst.length - half := by
      rw [hOS]
      split_ifs
      · rw [List.length_drop]
      · rw [freshVars_length]
    have hRS2ge : T2 ≤ RS.2 := by
      by_cases hc : ilst.length - half < 2
      · have h : RS.2 = T2 := by rw [hRS, if_pos hc]
        exact le_of_eq h.symm
      · have hr : RS = to_TO_rec T2 (ilst.drop half) OS := by
          rw [hRS, if_neg hc]
        rw [hr]
        exact (to_TO_rec_okAux (ilst.drop half).length T2 (ilst.drop half) OS
          _ _ (ilst.drop half ++ OS) T2 (le_refl _)
          (okVec_of_mem (fun v hv => List.mem_append_left _ hv))
          (okVec_of_mem (fun v hv => List.mem_append_right _ hv))
          (le_refl _) (by rw [List.length_drop]; omega) rfl).1
    have hOF0 : ∀ v ∈ OF, v ≠ 0 := by
      by_cases hc : half < 2
      · rw [hOF, if_pos hc]
        exact fun v hv => h0 v (List.take_subset _ _ hv)
      · rw [hOF, if_neg hc]
        intro v hv
        obtain ⟨h1v, h2v⟩ := freshVars_mem hv
        omega
    have hOS0 : ∀ v ∈ OS, v ≠ 0 := by
      by_cases hc : ilst.length - half < 2
      · rw [hOS, if_pos hc]
        exact fun v hv => h0 v (List.drop_subset _ _ hv)
      · rw [hOS, if_neg hc]
        intro v hv
        obtain ⟨h1v, h2v⟩ := freshVars_mem hv
        omega
    have hpf : forcedPrefix a OF (countTrue a (ilst.take half)) := by
      by_cases hc : half < 2
      · rw [hOF, if_pos hc]
        exact forcedPrefix_self_small (by rw [List.length_take]; omega)
      · rw [hRF, if_neg hc] at hsRF
        exact ih RS.2 (ilst.take half) OF _ _ a
          (by rw [List.length_take]; omega)
          (by rw [List.length_take]; omega)
          (by rw [List.length_take]; omega)
          (fun v hv => h0 v (List.take_subset _ _ hv))
          (by omega) rfl hsRF
    have hps : forcedPrefix a OS (countTrue a (ilst.drop half)) := by
      by_cases hc : ilst.length - half < 2
      · rw [hOS, if_pos hc]
        exact forcedPrefix_self_small (by rw [List.length_drop]; omega)
      · rw [hRS, if_neg hc] at hsRS
        exact ih T2 (ilst.drop half) OS _ _ a
          (by rw [List.length_drop]; omega)
          (by rw [List.length_drop]; omega)
          (by rw [List.length_drop]; omega)
          (fun v hv => h0 v (List.drop_subset _ _ hv))
          (by omega) rfl hsRS
    have hcfle : countTrue a (ilst.take half) ≤ OF.length := by
      have h := countTrue_le a (ilst.take half)
      rw [List.length_take] at h
      omega
    have hcsle : countTrue a (ilst.drop half) ≤ OS.length := by
      have h := countTrue_le a (ilst.drop half)
      rw [List.length_drop] at h
      omega
    rw [countTrue_take_drop a ilst half]
    exact to_UA_sound hsUA hpf hps hcfle hcsle (by omega) hOF0 hOS0

theorem to_TO_rec_complete :
    ∀ (n : Nat) (top : Int) (ilst olst : List Int) (CLS : CNF) (T : Int)
      (a : Int → Bool),
    ilst.length ≤ n → 2 ≤ ilst.length → ilst.length ≤ olst.length →
    0 ≤ top → boundedLits top ilst → boundedLits top olst →
    to_TO_rec top ilst olst = (CLS, T) →
    forcedPrefix a olst (countTrue a ilst) →
    ∃ a', (∀ x : Int, x ≤ top → a' x = a x) ∧ satCNF a' CLS = true := by
  intro n
  induction n with
  | zero =>
    intro top ilst olst CLS T a hn h2 hlen ht hbi hbo hres hforced
    omega
  | succ n ih =>
    intro top ilst olst CLS T a hn h2 hlen ht hbi hbo hres hforced
    set half := ilst.length - ilst.length / 2 with hhalf
    have hh1 : 1 ≤ half := by omega
    have hh2 : half ≤ ilst.length := by omega
    set OF := if half < 2 then ilst.take half else freshVars top half
      with hOF
    set T1 := if half < 2 then top else top + (half : Int) with hT1
    set OS := if ilst.length - half < 2 then ilst.drop half
      else freshVars T1 (ilst.length - half) with hOS
    set T2 := if ilst.length - half < 2 then T1
      else T1 + ((ilst.length - half : Nat) : Int) with hT2
    set RS := if ilst.length - half < 2 then (([] : CNF), T2)
      else to_TO_rec T2 (ilst.drop half) OS with hRS
    set RF := if half < 2 then (([] : CNF), RS.2)
      else to_TO_rec RS.2 (ilst.take half) OF with hRF
    have heq : to_TO_rec top ilst olst =
        (to_UA olst OF OS ++ RS.1 ++ RF.1, RF.2) := by
      rw [to_TO_rec.eq_def, dif_neg (by omega : ¬ ilst.length < 2)]
    rw [heq] at hres
    injection hres with e1 e2
    subst e1 e2
    have hT1ge : top ≤ T1 := by
      rw [hT1]
      split_ifs
      · exact le_refl _
      · omega
    have hT2ge : T1 ≤ T2 := by
      rw [hT2]
      split_ifs
      · exact le_refl _
      · omega
    have hOFlen : OF.length = half := by
      rw [hOF]
      split_ifs
      · rw [List.length_take]
        omega
      · rw [freshVars_length]
    have hOSlen : OS.length = ilst.length - half := by
      rw [hOS]
      split_ifs
      · rw [List.length_drop]
      · rw [freshVars_length]
    have hRS2ge : T2 ≤ RS.2 := by
      by_cases hc : ilst.length - half < 2
      · have h : RS.2 = T2 := by rw [hRS, if_pos hc]
        exact le_of_eq h.symm
      · have hr : RS = to_TO_rec T2 (ilst.drop half) OS := by
          rw [hRS, if_neg hc]
        rw [hr]
        exact (to_TO_rec_okAux (ilst.drop half).length T2 (ilst.drop half) OS
          _ _ (ilst.drop half ++ OS) T2 (le_refl _)
          (okVec_of_mem (fun v hv => List.mem_append_left _ hv))
          (okVec_of_mem (fun v hv => List.mem_append_right _ hv))
          (le_refl _) (by rw [List.length_drop]; omega) rfl).1
    set cf := countTrue a (ilst.take half) with hcf
    set cs := countTrue a (ilst.drop half) with hcs
    have hcsum : countTrue a ilst = cf + cs := by
      rw [hcf, hcs]
      exact countTrue_take_drop a ilst half
    have hcfle : cf ≤ half := by
      have h := countTrue_le a (ilst.take half)
      rw [List.length_take] at h
      omega
    have hcsle : cs ≤ ilst.length - half := by
      have h := countTrue_le a (ilst.drop half)
      rw [List.length_drop] at h
      omega
    have hbtake : boundedLits top (ilst.take half) :=
      boundedLits_sub hbi (List.take_subset _ _)
    have hbdrop : boundedLits top (ilst.drop half) :=
      boundedLits_sub hbi (List.drop_subset _ _)
    have hbOF : boundedLits T1 OF := by
      by_cases hc : half < 2
      · rw [hOF, if_pos hc]
        exact boundedLits_mono hbtake hT1ge
      · rw [hOF, if_neg hc, hT1, if_neg hc]
        exact boundedLits_freshVars half ht
    have hbOS : boundedLits T2 OS := by
      by_cases hc : ilst.length - half < 2
      · rw [hOS, if_pos hc]
        exact boundedLits_mono hbdrop (by omega)
      · rw [hOS, if_neg hc, hT2, if_neg hc]
        exact boundedLits_freshVars _ (by omega)
    set a1 := if half < 2 then a else updRange a top half cf with ha1
    have ha1ag : ∀ x : Int, x ≤ top → a1 x = a x := by
      by_cases hc : half < 2
      · rw [ha1, if_pos hc]
        exact fun x _ => rfl
      · rw [ha1, if_neg hc]
        exact updRange_agree a top half cf
    have ha1OF : exactPrefix a1 OF cf := by
      by_cases hc : half < 2
      · rw [ha1, if_pos hc, hOF, if_pos hc]
        have hsm := @exactPrefix_self_small a (ilst.take half)
          (by rw [List.length_take]; omega)
        rw [← hcf] at hsm
        exact hsm
      · rw [ha1, if_neg hc, hOF, if_neg hc]
        exact exactPrefix_updRange a half cf ht
    set a2 := if ilst.length - half < 2 then a1
      else updRange a1 T1 (ilst.length - half) cs with ha2
    have ha2ag : ∀ x : Int, x ≤ T1 → a2 x = a1 x := by
      by_cases hc : ilst.length - half < 2
      · rw [ha2, if_pos hc]
        exact fun x _ => rfl
      · rw [ha2, if_neg hc]
        exact updRange_agree a1 T1 (ilst.length - half) cs
    have ha2ag0 : ∀ x : Int, x ≤ top → a2 x = a x := fun x hx =>
      (ha2ag x (by omega)).trans (ha1ag x hx)
    have ha2cs : countTrue a2 (ilst.drop half) = cs := by
      rw [hcs]
      exact countTrue_agree ha2ag0 (fun l hl => (hbdrop l hl).2)
    have ha2OS : exactPrefix a2 OS cs := by
      by_cases hc : ilst.length - half < 2
      · rw [ha2, if_pos hc, hOS, if_pos hc]
        have hc1 : countTrue a1 (ilst.drop half) = cs := by
          rw [hcs]
          exact countTrue_agree ha1ag (fun l hl => (hbdrop l hl).2)
        have hsm := @exactPrefix_self_small a1 (ilst.drop half)
          (by rw [List.length_drop]; omega)
        rw [hc1] at hsm
        exact hsm
      · rw [ha2, if_neg hc, hOS, if_neg hc]
        exact exactPrefix_updRange a1 (ilst.length - half) cs (by omega)
    have ha2OF : exactPrefix a2 OF cf := exactPrefix_agree ha1OF ha2ag hbOF
    have hUAsat : satCNF a2 (to_UA olst OF OS) = true := by
      refine to_UA_sat ?_ ha2OF ha2OS (by omega)
        (fun v hv => (hbOF v hv).1) (fun v hv => (hbOS v hv).1)
      have hfo : forcedPrefix a2 olst (countTrue a ilst) :=
        forcedPrefix_agree hforced ha2ag0 hbo
      rw [hcsum] at hfo
      exact hfo
    have hokUA : okCNF (ilst ++ olst) top T2 (to_UA olst OF OS) := by
      apply to_UA_ok
      · exact okVec_of_mem (fun v hv => List.mem_append_right _ hv)
      · by_cases hc : half < 2
        · rw [hOF, if_pos hc]
          exact okVec_of_mem (fun v hv =>
            List.mem_append_left _ (List.take_subset _ _ hv))
        · have h1 : T1 = top + (half : Int) := by rw [hT1, if_neg hc]
          rw [hOF, if_neg hc]
          intro v hv
          obtain ⟨hv1, hv2⟩ := freshVars_mem hv
          exact okLit_fresh (by omega) (by omega)
      · by_cases hc : ilst.length - half < 2
        · rw [hOS, if_pos hc]
          exact okVec_of_mem (fun v hv =>
            List.mem_append_left _ (List.drop_subset _ _ hv))
        · have h1 : T2 = T1 + ((ilst.length - half : Nat) : Int) := by
            rw [hT2, if_neg hc]
          rw [hOS, if_neg hc]
          intro v hv
          obtain ⟨hv1, hv2⟩ := freshVars_mem hv
          exact okLit_fresh (by omega) (by omega)
      · omega
    have hVle : ∀ m ∈ ilst ++ olst, m ≤ T2 ∧ -m ≤ T2 := by
      intro m hm
      rcases List.mem_append.1 hm with h | h
      · obtain ⟨-, h1, h2'⟩ := hbi m h
        exact ⟨by omega, by omega⟩
      · obtain ⟨-, h1, h2'⟩ := hbo m h
        exact ⟨by omega, by omega⟩
    obtain ⟨a3, ha3ag, ha3RS⟩ : ∃ a3, (∀ x : Int, x ≤ T2 → a3 x = a2 x) ∧
        satCNF a3 RS.1 = true := by
      by_cases hc : ilst.length - half < 2
      · have h : RS.1 = ([] : CNF) := by rw [hRS, if_pos hc]
        rw [h]
        exact ⟨a2, fun x _ => rfl, rfl⟩
      · have hr : RS = to_TO_rec T2 (ilst.drop half) OS := by
          rw [hRS, if_neg hc]
        rw [hr]
        refine ih T2 (ilst.drop half) OS _ _ a2
          (by rw [List.length_drop]; omega)
          (by rw [List.length_drop]; omega)
          (by rw [List.length_drop]; omega)
          (by omega)
          (boundedLits_mono hbdrop (by omega))
          hbOS rfl ?_
        rw [ha2cs]
        exact exactPrefix_forced ha2OS
    obtain ⟨a4, ha4ag, ha4RF⟩ : ∃ a4, (∀ x : Int, x ≤ RS.2 → a4 x = a3 x) ∧
        satCNF a4 RF.1 = true := by
      by_cases hc : half < 2
      · have h : RF.1 = ([] : CNF) := by rw [hRF, if_pos hc]
        rw [h]
        exact ⟨a3, fun x _ => rfl, rfl⟩
      · have hr : RF = to_TO_rec RS.2 (ilst.take half) OF := by
          rw [hRF, if_neg hc]
        rw [hr]
        have hag3 : ∀ x : Int, x ≤ top → a3 x = a x := fun x hx =>
          (ha3ag x (by omega)).trans (ha2ag0 x hx)
        refine ih RS.2 (ilst.take half) OF _ _ a3
          (by rw [List.length_take]; omega)
          (by rw [List.length_take]; omega)
          (by rw [List.length_take]; omega)
          (by omega)
          (boundedLits_mono hbtake (by omega))
          (boundedLits_mono hbOF (by omega))
          rfl ?_
        have hec : countTrue a3 (ilst.take half) = cf := by
          rw [hcf]
          exact countTrue_agree hag3 (fun l hl => (hbtake l hl).2)
        rw [hec]
        exact forcedPrefix_agree (exactPrefix_forced ha2OF)
          (fun x hx => ha3ag x hx) (boundedLits_mono hbOF hT2ge)
    refine ⟨a4, ?_, ?_⟩
    · intro x hx
      rw [ha4ag x (by omega), ha3ag x (by omega), ha2ag0 x hx]
    · rw [satCNF_append, satCNF_append]
      simp only [Bool.and_eq_true]
      refine ⟨⟨?_, ?_⟩, ha4RF⟩
      · have h34 : ∀ x : Int, x ≤ T2 → a4 x = a2 x := fun x hx =>
          (ha4ag x (by omega)).trans (ha3ag x hx)
        rw [satCNF_agree_okCNF hokUA h34 hVle ht]
        exact hUAsat
      · by_cases hc : ilst.length - half < 2
        · have h : RS.1 = ([] : CNF) := by rw [hRS, if_pos hc]
          rw [h]
          rfl
        · have hr : RS = to_TO_rec T2 (ilst.drop half) OS := by
            rw [hRS, if_neg hc]
          have hok : okCNF (ilst.drop half ++ OS) T2 RS.2 RS.1 := by
            rw [hr]
            exact (to_TO_rec_okAux (ilst.drop half).length T2 (ilst.drop half)
              OS _ _ (ilst.drop half ++ OS) T2 (le_refl _)
              (okVec_of_mem (fun v hv => List.mem_append_left _ hv))
              (okVec_of_mem (fun v hv => List.mem_append_right _ hv))
              (le_refl _) (by rw [List.length_drop]; omega) rfl).2
          have hV2 : ∀ m ∈ ilst.drop half ++ OS, m ≤ RS.2 ∧ -m ≤ RS.2 := by
            intro m hm
            rcases List.mem_append.1 hm with h | h
            · obtain ⟨-, h1, h2'⟩ := hbdrop m h
              exact ⟨by omega, by omega⟩
            · obtain ⟨-, h1, h2'⟩ := hbOS m h
              exact ⟨by omega, by omega⟩
          rw [satCNF_agree_okCNF hok ha4ag hV2 (by omega)]
          exact ha3RS

theorem to_TO_sound {top : Int} {invars : List Int} {a : Int → Bool}
    (h0 : ∀ v ∈ invars, v ≠ 0) (ht : 0 ≤ top)
    (hsat : satCNF a (to_TO top invars).2.1 = true) :
    forcedPrefix a (to_TO top invars).1 (countTrue a invars) := by
  by_cases h2 : invars.length < 2
  · have heq : to_TO top invars = (invars, [], top) := by
      unfold to_TO
      rw [if_pos h2]
    rw [heq]
    exact @forcedPrefix_self_small a invars (by omega)
  · set r := to_TO_rec (top + (invars.length : Int)) invars
      (freshVars top invars.length) with hr
    have heq : to_TO top invars = (freshVars top invars.length, r.1, r.2) := by
      unfold to_TO
      rw [if_neg h2]
    rw [heq] at hsat ⊢
    exact to_TO_rec_sound invars.length (top + (invars.length : Int)) invars
      (freshVars top invars.length) r.1 r.2 a (le_refl _) (by omega)
      (le_of_eq (by rw [freshVars_length])) h0 (by omega) (by rw [hr]) hsat

theorem to_TO_complete {top : Int} {invars : List Int} {a : Int → Bool}
    (ht : 0 ≤ top) (hb : boundedLits top invars) :
    ∃ a', (∀ x : Int, x ≤ top → a' x = a x) ∧
      satCNF a' (to_TO top invars).2.1 = true ∧
      exactPrefix a' (to_TO top invars).1 (countTrue a invars) := by
  by_cases h2 : invars.length < 2
  · have heq : to_TO top invars = (invars, [], top) := by
      unfold to_TO
      rw [if_pos h2]
    rw [heq]
    exact ⟨a, fun x _ => rfl, rfl, @exactPrefix_self_small a invars (by omega)⟩
  · set r := to_TO_rec (top + (invars.length : Int)) invars
      (freshVars top invars.length) with hr
    have heq : to_TO top invars = (freshVars top invars.length, r.1, r.2) := by
      unfold to_TO
      rw [if_neg h2]
    rw [heq]
    set c := countTrue a invars with hcdef
    set a1 := updRange a top invars.length c with ha1
    have ha1ag : ∀ x : Int, x ≤ top → a1 x = a x := updRange_agree a top _ c
    have ha1c : countTrue a1 invars = c := by
      rw [hcdef]
      exact countTrue_agree ha1ag (fun l hl => (hb l hl).2)
    have ha1ex : exactPrefix a1 (freshVars top invars.length) c :=
      exactPrefix_updRange a invars.length c ht
    obtain ⟨a2, ha2ag, ha2sat⟩ := to_TO_rec_complete invars.length
      (top + (invars.length : Int)) invars (freshVars top invars.length)
      r.1 r.2 a1 (le_refl _) (by omega)
      (le_of_eq (by rw [freshVars_length]))
      (by omega) (boundedLits_mono hb (by omega))
      (boundedLits_freshVars _ ht) (by rw [hr])
      (by rw [ha1c]; exact exactPrefix_forced ha1ex)
    refine ⟨a2, fun x hx => (ha2ag x (by omega)).trans (ha1ag x hx),
      ha2sat, ?_⟩
    exact exactPrefix_agree ha1ex ha2ag (boundedLits_freshVars _ ht)

theorem to_encode_atmostN_equisat (top k : Int) (lhs : List Int)
    (hb : boundedLits top lhs) (ht : 0 ≤ top) (hk : 0 < k)
    (h31 : k < 2 ^ 31) (a : Int → Bool) :
    (∃ a', (∀ x : Int, x ≤ top → a' x = a x) ∧
      satCNF a' (to_encode_atmostN top lhs k).1 = true) ↔
    (countTrue a lhs : Int) ≤ k := by
  have hu : usize k = k.toNat := usize_toNat (by omega) (by omega)
  by_cases hg : lhs.length ≤ usize k
  · have heq : to_encode_atmostN top lhs k = ([], top) := by
      unfold to_encode_atmostN
      rw [if_pos hg]
    rw [heq]
    constructor
    · intro _
      have hc := countTrue_le a lhs
      omega
    · intro _
      exact ⟨a, fun x _ => rfl, rfl⟩
  · have hk0 : ¬ k = 0 := by omega
    set r := to_TO top lhs with hrdef
    have heq : to_encode_atmostN top lhs k =
        (r.2.1 ++ [[-(nth r.1 k.toNat)]], r.2.2) := by
      unfold to_encode_atmostN
      rw [if_neg hg, if_neg hk0]
    rw [heq]
    have hlen2 : 2 ≤ lhs.length := by omega
    have hout : r.1 = freshVars top lhs.length := by
      rw [hrdef]
      unfold to_TO
      rw [if_neg (by omega : ¬ lhs.length < 2)]
    have hkl : k.toNat < r.1.length := by
      rw [hout, freshVars_length]
      omega
    have hvpos : nth r.1 k.toNat = top + 1 + (k.toNat : Int) := by
      rw [hout]
      exact nth_freshVars (by omega)
    constructor
    · rintro ⟨a', hag, hs⟩
      rw [satCNF_append] at hs
      simp only [Bool.and_eq_true] at hs
      obtain ⟨hs1, hs2⟩ := hs
      by_contra hgt
      have hfp := to_TO_sound (fun v hv => (hb v hv).1) ht hs1
      have hcc : countTrue a' lhs = countTrue a lhs :=
        countTrue_agree hag (fun l hl => (hb l hl).2)
      have hkc : k.toNat < countTrue a' lhs := by omega
      have htrue := hfp k.toNat hkc hkl
      have hlit : satLit a' (-(nth r.1 k.toNat)) = true := by
        simp only [satCNF, List.all_cons, List.all_nil, satClause,
          List.any_cons, List.any_nil, Bool.and_true, Bool.or_false] at hs2
        exact hs2
      rw [hvpos] at htrue hlit
      unfold satLit at htrue hlit
      rw [if_pos (by omega : (0 : Int) < top + 1 + (k.toNat : Int))] at htrue
      rw [if_neg (by omega : ¬ (0 : Int) < -(top + 1 + (k.toNat : Int))),
        neg_neg, htrue] at hlit
      simp at hlit
    · intro hle
      obtain ⟨a', hag, hsat, hex⟩ := to_TO_complete ht hb
      refine ⟨a', hag, ?_⟩
      rw [satCNF_append]
      simp only [Bool.and_eq_true]
      refine ⟨hsat, ?_⟩
      have hxf : satLit a' (nth r.1 k.toNat) = false := by
        have hiff := hex k.toNat hkl
        have hnot : ¬ k.toNat < countTrue a lhs := by omega
        cases hsl : satLit a' (nth r.1 k.toNat)
        · rfl
        · exact absurd (hiff.1 hsl) hnot
      have hnz : nth r.1 k.toNat ≠ 0 := by
        rw [hvpos]
        omega
      have hneg := satLit_neg_true_of_false hnz hxf
      simp only [satCNF, List.all_cons, List.all_nil, satClause,
        List.any_cons, List.any_nil, Bool.and_true, Bool.or_false]
      exact hneg

-- ==== clause semantics: bitwise ============================================

/-- Canonical assignment used for completeness of the bitwise encoder: the
naux fresh bit variables above top hold the big-endian binary code of the
index i0 of the unique true literal. -/
def bitAssign (a : Int → Bool) (top : Int) (naux i0 : Nat) : Int → Bool :=
  fun x =>
    if top < x ∧ x ≤ top + (naux : Int) then
      Nat.testBit i0 (naux - 1 - (x - top - 1).toNat)
    else a x

theorem bitAssign_agree (a : Int → Bool) (top : Int) (naux i0 : Nat) :
    ∀ x : Int, x ≤ top → bitAssign a top naux i0 x = a x :=
  fun x hx => if_neg (by omega)

theorem bitAssign_fresh (a : Int → Bool) {top : Int} (naux i0 : Nat)
    {j : Nat} (hj : j < naux) :
    bitAssign a top naux i0 (top + 1 + (j : Int)) =
      Nat.testBit i0 (naux - 1 - j) := by
  unfold bitAssign
  rw [if_pos (by omega)]
  congr 1
  omega

theorem bitwise_cls_iff (top : Int) (vars : List Int) (a : Int → Bool)
    (h0 : ∀ v ∈ vars, v ≠ 0) :
    (satCNF a (bitwise_encode_atmost1 top vars).1 = true ↔
      ∀ i : Nat, ∀ h : i < vars.length, satLit a vars[i] = true →
        ∀ j, j < Nat.clog 2 vars.length →
          satLit a (if Nat.testBit i (Nat.clog 2 vars.length - 1 - j)
            then nth (freshVars top (Nat.clog 2 vars.length)) j
            else -(nth (freshVars top (Nat.clog 2 vars.length)) j)) =
            true) := by
  show satCNF a (vars.enum.flatMap (fun p =>
    (List.range (Nat.clog 2 vars.length)).map (fun j =>
      [-p.2, if Nat.testBit p.1 (Nat.clog 2 vars.length - 1 - j)
             then nth (freshVars top (Nat.clog 2 vars.length)) j
             else -(nth (freshVars top (Nat.clog 2 vars.length)) j)]))) =
      true ↔ _
  rw [satCNF_iff]
  constructor
  · intro hs i h htrue j hj
    have hcmem : [-vars[i],
        if Nat.testBit i (Nat.clog 2 vars.length - 1 - j)
        then nth (freshVars top (Nat.clog 2 vars.length)) j
        else -(nth (freshVars top (Nat.clog 2 vars.length)) j)] ∈
        vars.enum.flatMap (fun p =>
          (List.range (Nat.clog 2 vars.length)).map (fun jj =>
            [-p.2, if Nat.testBit p.1 (Nat.clog 2 vars.length - 1 - jj)
                   then nth (freshVars top (Nat.clog 2 vars.length)) jj
                   else -(nth (freshVars top (Nat.clog 2 vars.length)) jj)])) := by
      rw [List.mem_flatMap]
      refine ⟨(i, vars[i]), ?_, ?_⟩
      · rw [List.mem_iff_getElem]
        exact ⟨i, by rw [List.enum_length]; exact h, List.getElem_enum _ _ _⟩
      · rw [List.mem_map]
        exact ⟨j, List.mem_range.2 hj, rfl⟩
    exact satClause_forced_pair (h0 _ (List.getElem_mem h)) (hs _ hcmem) htrue
  · intro hyp c hc
    rw [List.mem_flatMap] at hc
    obtain ⟨p, hp, hcm⟩ := hc
    rw [List.mem_map] at hcm
    obtain ⟨j, hjr, rfl⟩ := hcm
    rw [List.mem_range] at hjr
    have hgp := List.mem_enum_iff_getElem?.1 hp
    have hip : p.1 < vars.length := (List.getElem?_eq_some.1 hgp).1
    have hp2 : p.2 = vars[p.1] := by
      rw [List.getElem?_eq_getElem hip] at hgp
      exact (Option.some.inj hgp).symm
    by_cases hsv : satLit a p.2 = true
    · have hlit := hyp p.1 hip (by rw [← hp2]; exact hsv) j hjr
      exact satClause_of_lit
        (List.mem_cons_of_mem _ (List.mem_singleton_self _)) hlit
    · have hnz : p.2 ≠ 0 := h0 _ (enum_snd_mem hp).1
      have hft : satLit a p.2 = false := by
        revert hsv
        cases satLit a p.2 <;> simp
      exact satClause_of_lit (List.mem_cons_self _ _)
        (satLit_neg_true_of_false hnz hft)

theorem bitwise_encode_atmost1_equisat (top : Int) (vars : List Int)
    (hb : boundedLits top vars) (ht : 0 ≤ top) (a : Int → Bool) :
    (∃ a', (∀ x : Int, x ≤ top → a' x = a x) ∧
      satCNF a' (bitwise_encode_atmost1 top vars).1 = true) ↔
    countTrue a vars ≤ 1 := by
  have h0 : ∀ v ∈ vars, v ≠ 0 := fun v hv => (hb v hv).1
  have hpow : vars.length ≤ 2 ^ Nat.clog 2 vars.length :=
    Nat.le_pow_clog (by norm_num) _
  constructor
  · rintro ⟨a', hag, hs⟩
    by_contra hgt
    have hcc : countTrue a' vars = countTrue a vars :=
      countTrue_agree hag (fun l hl => (hb l hl).2)
    obtain ⟨i1, i2, h12, h2len, s1, s2⟩ :=
      @countTrue_two_positions a' vars (by omega)
    rw [nth_eq_getElem (by omega)] at s1
    rw [nth_eq_getElem h2len] at s2
    have hne : i1 ≠ i2 := by omega
    have hbit : ∃ b, b < Nat.clog 2 vars.length ∧
        Nat.testBit i1 b ≠ Nat.testBit i2 b := by
      by_contra hall
      push_neg at hall
      apply hne
      apply Nat.eq_of_testBit_eq
      intro b
      by_cases hbn : b < Nat.clog 2 vars.length
      · exact hall b hbn
      · have hble : 2 ^ Nat.clog 2 vars.length ≤ 2 ^ b :=
          Nat.pow_le_pow_right (by norm_num) (by omega)
        have e1 : Nat.testBit i1 b = false :=
          Nat.testBit_lt_two_pow (by omega)
        have e2 : Nat.testBit i2 b = false :=
          Nat.testBit_lt_two_pow (by omega)
        rw [e1, e2]
    obtain ⟨b, hbn, hneq⟩ := hbit
    have hjn : Nat.clog 2 vars.length - 1 - b < Nat.clog 2 vars.length := by
      omega
    have hjb : Nat.clog 2 vars.length - 1 -
        (Nat.clog 2 vars.length - 1 - b) = b := by omega
    have hc1 := (bitwise_cls_iff top vars a' h0).1 hs i1 (by omega) s1
      (Nat.clog 2 vars.length - 1 - b) hjn
    have hc2 := (bitwise_cls_iff top vars a' h0).1 hs i2 h2len s2
      (Nat.clog 2 vars.length - 1 - b) hjn
    rw [hjb, nth_freshVars hjn] at hc1 hc2
    have hnz : top + 1 + ((Nat.clog 2 vars.length - 1 - b : Nat) : Int) ≠ 0 :=
      by omega
    cases htb1 : Nat.testBit i1 b <;> cases htb2 : Nat.testBit i2 b
    · exact hneq (htb1.trans htb2.symm)
    · rw [htb1, if_neg (by simp)] at hc1
      rw [htb2, if_pos rfl] at hc2
      rw [satLit_false_of_neg hnz hc1] at hc2
      cases hc2
    · rw [htb1, if_pos rfl] at hc1
      rw [htb2, if_neg (by simp)] at hc2
      rw [satLit_false_of_neg hnz hc2] at hc1
      cases hc1
    · exact hneq (htb1.trans htb2.symm)
  · intro hle
    rcases Nat.eq_zero_or_pos (countTrue a vars) with hz | hp
    · refine ⟨a, fun x _ => rfl, ?_⟩
      rw [bitwise_cls_iff top vars a h0]
      intro i hi htrue j hj
      have hfalse := (countTrue_eq_zero_iff a vars).1 hz vars[i]
        (List.getElem_mem hi)
      rw [hfalse] at htrue
      cases htrue
    · have h1 : countTrue a vars = 1 := by omega
      obtain ⟨i0, hi0, hs0, hothers⟩ := countTrue_eq_one_exists h1
      refine ⟨bitAssign a top (Nat.clog 2 vars.length) i0,
        bitAssign_agree a top _ i0, ?_⟩
      rw [bitwise_cls_iff top vars _ h0]
      intro i hi htrue j hj
      have hsagree : satLit (bitAssign a top (Nat.clog 2 vars.length) i0)
          vars[i] = satLit a vars[i] :=
        satLit_agree (bitAssign_agree a top _ i0)
          (hb _ (List.getElem_mem hi)).2.1 (hb _ (List.getElem_mem hi)).2.2
      rw [hsagree] at htrue
      have hii0 : i = i0 := by
        by_contra hne
        have hof := hothers i hi hne
        rw [nth_eq_getElem hi] at hof
        rw [hof] at htrue
        cases htrue
      subst hii0
      rw [nth_freshVars hj]
      have hfr := @bitAssign_fresh a top (Nat.clog 2 vars.length) i j hj
      cases htb : Nat.testBit i (Nat.clog 2 vars.length - 1 - j)
      · rw [if_neg (by simp)]
        apply satLit_neg_true_of_false (by omega)
        unfold satLit
        rw [if_pos (by omega)]
        rw [hfr, htb]
      · rw [if_pos rfl]
        unfold satLit
        rw [if_pos (by omega)]
        rw [hfr, htb]

-- ==== clause semantics: ladder =============================================

theorem satClause_pair_cases {a : Int → Bool} {x y : Int}
    (h : satClause a [x, y] = true) :
    satLit a x = true ∨ satLit a y = true := by
  obtain ⟨l, hl, hs⟩ := satClause_elim h
  rcases (by simpa using hl : l = x ∨ l = y) with rfl | rfl
  · exact Or.inl hs
  · exact Or.inr hs

theorem satClause_triple_cases {a : Int → Bool} {x y z : Int}
    (h : satClause a [x, y, z] = true) :
    satLit a x = true ∨ satLit a y = true ∨ satLit a z = true := by
  obtain ⟨l, hl, hs⟩ := satClause_elim h
  rcases (by simpa using hl : l = x ∨ l = y ∨ l = z) with rfl | rfl | rfl
  · exact Or.inl hs
  · exact Or.inr (Or.inl hs)
  · exact Or.inr (Or.inr hs)

theorem ladder_equals1_branch3 (top : Int) (vars : List Int)
    (h3 : 3 ≤ vars.length) :
    (ladder_encode_equals1 top vars).1 =
      ((List.range' 1 (vars.length - 1 - 1)).map (fun i =>
        [-(nth ((0 : Int) :: freshVars top (vars.length - 1)) (i + 1)),
         nth ((0 : Int) :: freshVars top (vars.length - 1)) i])) ++
      [[nth ((0 : Int) :: freshVars top (vars.length - 1)) 1, nth vars 0],
       [-(nth vars 0),
        -(nth ((0 : Int) :: freshVars top (vars.length - 1)) 1)]] ++
      ((List.range' 2 (vars.length - 2)).flatMap (fun i =>
        [[-(nth ((0 : Int) :: freshVars top (vars.length - 1)) (i - 1)),
          nth ((0 : Int) :: freshVars top (vars.length - 1)) i,
          nth vars (i - 1)],
         [nth ((0 : Int) :: freshVars top (vars.length - 1)) (i - 1),
          -(nth vars (i - 1))],
         [-(nth vars (i - 1)),
          -(nth ((0 : Int) :: freshVars top (vars.length - 1)) i)]])) ++
      [[-(nth ((0 : Int) :: freshVars top (vars.length - 1))
          (vars.length - 1)),
        nth vars (vars.length - 1)],
       [-(nth vars (vars.length - 1)),
        nth ((0 : Int) :: freshVars top (vars.length - 1))
          (vars.length - 1)]] := by
  unfold ladder_encode_equals1
  rw [if_neg (by omega), if_neg (by omega), if_neg (by omega)]

theorem ladder_equals1_sound {top : Int} {vars : List Int} {a : Int → Bool}
    (hb : boundedLits top vars) (ht : 0 ≤ top) (hn : 1 ≤ vars.length)
    (hs : satCNF a (ladder_encode_equals1 top vars).1 = true) :
    countTrue a vars = 1 := by
  by_cases h1 : vars.length = 1
  · obtain ⟨v, rfl⟩ := List.length_eq_one.1 h1
    have heq : (ladder_encode_equals1 top [v]).1 = [[nth [v] 0]] := by
      unfold ladder_encode_equals1
      rw [if_neg (by simp), if_pos (by simp)]
    rw [heq] at hs
    have hv : satLit a v = true := by
      obtain ⟨l, hl, hsl⟩ := satClause_elim
        (satCNF_mem hs (List.mem_singleton_self _))
      rcases (by simpa [nth] using hl : l = v) with rfl
      exact hsl
    rw [countTrue_cons, if_pos hv]
    rfl
  by_cases h2 : vars.length = 2
  · obtain ⟨v, w, rfl⟩ := List.length_eq_two.1 h2
    have heq : (ladder_encode_equals1 top [v, w]).1 =
        [[nth [v, w] 0, nth [v, w] 1],
         [-(nth [v, w] 0), -(nth [v, w] 1)]] := by
      unfold ladder_encode_equals1
      rw [if_neg (by simp), if_neg (by simp), if_pos (by simp)]
    rw [heq] at hs
    have hvw := satClause_pair_cases (satCNF_mem hs (List.mem_cons_self _ _))
    have hneg := satClause_pair_cases (satCNF_mem hs
      (List.mem_cons_of_mem _ (List.mem_singleton_self _)))
    have hnv : nth [v, w] 0 = v := rfl
    have hnw : nth [v, w] 1 = w := rfl
    rw [hnv, hnw] at hvw hneg
    have h0v : v ≠ 0 := (hb v (by simp)).1
    have h0w : w ≠ 0 := (hb w (by simp)).1
    rw [countTrue_cons, countTrue_cons]
    cases hv : satLit a v <;> cases hw : satLit a w
    · rcases hvw with h | h
      · rw [hv] at h
        cases h
      · rw [hw] at h
        cases h
    · simp [countTrue]
    · simp [countTrue]
    · rcases hneg with h | h
      · rw [satLit_neg a h0v, hv] at h
        cases h
      · rw [satLit_neg a h0w, hw] at h
        cases h
  have h3 : 3 ≤ vars.length := by omega
  rw [ladder_equals1_branch3 top vars h3] at hs
  set A := (0 : Int) :: freshVars top (vars.length - 1) with hA
  rw [satCNF_append, satCNF_append, satCNF_append] at hs
  simp only [Bool.and_eq_true] at hs
  obtain ⟨⟨⟨hsV, hsF⟩, hsM⟩, hsL⟩ := hs
  have hAx : ∀ i : Nat, 1 ≤ i → i ≤ vars.length - 1 →
      nth A i = top + (i : Int) :=
    fun i hi1 hi2 => ladder_aux_getD hi1 hi2
  have hval : ∀ i : Nat, 1 ≤ i → i ≤ vars.length - 1 - 1 →
      satLit a (nth A (i + 1)) = true → satLit a (nth A i) = true := by
    intro i hi1 hi2 hx
    have hc := satCNF_mem hsV (List.mem_map.2
      ⟨i, List.mem_range'_1.2 ⟨by omega, by omega⟩, rfl⟩)
    exact satClause_forced_pair
      (by rw [hAx (i + 1) (by omega) (by omega)]; omega) hc hx
  have hmono : ∀ d : Nat, ∀ i : Nat, 1 ≤ i → i + d ≤ vars.length - 1 →
      satLit a (nth A (i + d)) = true → satLit a (nth A i) = true := by
    intro d
    induction d with
    | zero =>
      intro i _ _ h
      simpa using h
    | succ d ih =>
      intro i hi1 hid h
      have hidx : i + (d + 1) = (i + 1) + d := by omega
      rw [hidx] at h
      exact hval i hi1 (by omega) (ih (i + 1) (by omega) (by omega) h)
  have hup : ∀ j : Nat, 1 ≤ j → j ≤ vars.length - 1 →
      satLit a (nth vars j) = true → satLit a (nth A j) = true := by
    intro j hj1 hj2 hv
    by_cases hje : j = vars.length - 1
    · subst hje
      have hc := satCNF_mem hsL
        (List.mem_cons_of_mem _ (List.mem_singleton_self _))
      exact satClause_forced_pair (hb _ (nth_mem (by omega))).1 hc hv
    · have hc := satCNF_mem hsM (List.mem_flatMap.2 ⟨j + 1,
        List.mem_range'_1.2 ⟨by omega, by omega⟩,
        List.mem_cons_of_mem _ (List.mem_cons_self _ _)⟩)
      have hred : j + 1 - 1 = j := by omega
      rw [hred] at hc
      rcases satClause_pair_cases hc with h | h
      · exact h
      · rw [satLit_neg a (hb _ (nth_mem (by omega))).1, hv] at h
        cases h
  have hdown : ∀ j : Nat, j ≤ vars.length - 2 →
      satLit a (nth vars j) = true →
      satLit a (nth A (j + 1)) = false := by
    intro j hj2 hv
    by_cases hj0 : j = 0
    · subst hj0
      have hc := satCNF_mem hsF
        (List.mem_cons_of_mem _ (List.mem_singleton_self _))
      have hneg := satClause_forced_pair (hb _ (nth_mem (by omega))).1 hc hv
      exact satLit_false_of_neg
        (by rw [hAx 1 (by omega) (by omega)]; omega) hneg
    · have hc := satCNF_mem hsM (List.mem_flatMap.2 ⟨j + 1,
        List.mem_range'_1.2 ⟨by omega, by omega⟩,
        List.mem_cons_of_mem _ (List.mem_cons_of_mem _
          (List.mem_singleton_self _))⟩)
      have hred : j + 1 - 1 = j := by omega
      rw [hred] at hc
      have hneg := satClause_forced_pair (hb _ (nth_mem (by omega))).1 hc hv
      exact satLit_false_of_neg
        (by rw [hAx (j + 1) (by omega) (by omega)]; omega) hneg
  have huniq : ∀ j1 j2 : Nat, j1 < j2 → j2 < vars.length →
      satLit a (nth vars j1) = true → satLit a (nth vars j2) = true →
      False := by
    intro j1 j2 h12 hj2 hv1 hv2
    have hx2 : satLit a (nth A j2) = true := hup j2 (by omega) (by omega) hv2
    have hx1 : satLit a (nth A (j1 + 1)) = false := hdown j1 (by omega) hv1
    have hx1' : satLit a (nth A (j1 + 1)) = true := by
      apply hmono (j2 - (j1 + 1)) (j1 + 1) (by omega) (by omega)
      have hidx : j1 + 1 + (j2 - (j1 + 1)) = j2 := by omega
      rw [hidx]
      exact hx2
    rw [hx1] at hx1'
    cases hx1'
  have hexist : ∃ j0, j0 < vars.length ∧ satLit a (nth vars j0) = true := by
    by_cases hXp : satLit a (nth A (vars.length - 1)) = true
    · have hc := satCNF_mem hsL (List.mem_cons_self _ _)
      exact ⟨vars.length - 1, by omega, satClause_forced_pair
        (by rw [hAx _ (by omega) (by omega)]; omega) hc hXp⟩
    · by_cases hX1 : satLit a (nth A 1) = true
      · have hfind : ∀ m : Nat, ∀ i : Nat, 1 ≤ i → i ≤ vars.length - 1 →
            vars.length - 1 - i ≤ m → satLit a (nth A i) = true →
            ∃ t, 1 ≤ t ∧ t + 1 ≤ vars.length - 1 ∧
              satLit a (nth A t) = true ∧
              satLit a (nth A (t + 1)) = false := by
          intro m
          induction m with
          | zero =>
            intro i hi1 hi2 hm hXi
            have hie : i = vars.length - 1 := by omega
            rw [hie] at hXi
            exact absurd hXi hXp
          | succ m ih =>
            intro i hi1 hi2 hm hXi
            by_cases hie : i = vars.length - 1
            · rw [hie] at hXi
              exact absurd hXi hXp
            · by_cases hnext : satLit a (nth A (i + 1)) = true
              · exact ih (i + 1) (by omega) (by omega) (by omega) hnext
              · have hf : satLit a (nth A (i + 1)) = false := by
                  revert hnext
                  cases satLit a (nth A (i + 1)) <;> simp
                exact ⟨i, hi1, by omega, hXi, hf⟩
        obtain ⟨t, ht1, ht2, hXt, hXt1⟩ := hfind vars.length 1 (by omega)
          (by omega) (by omega) hX1
        have hc := satCNF_mem hsM (List.mem_flatMap.2 ⟨t + 1,
          List.mem_range'_1.2 ⟨by omega, by omega⟩,
          List.mem_cons_self _ _⟩)
        have hred : t + 1 - 1 = t := by omega
        rw [hred] at hc
        rcases satClause_triple_cases hc with h | h | h
        · rw [satLit_neg a (by rw [hAx t ht1 (by omega)]; omega), hXt] at h
          cases h
        · rw [hXt1] at h
          cases h
        · exact ⟨t, by omega, h⟩
      · have hc := satCNF_mem hsF (List.mem_cons_self _ _)
        rcases satClause_pair_cases hc with h | h
        · exact absurd h hX1
        · exact ⟨0, by omega, h⟩
  obtain ⟨j0, hj0, hvj0⟩ := hexist
  refine countTrue_of_unique (fun j hj => ⟨?_, ?_⟩) hj0
  · intro hjt
    by_contra hne
    rcases Nat.lt_or_ge j j0 with hlt | hge
    · exact huniq j j0 hlt hj0 hjt hvj0
    · exact huniq j0 j (by omega) hj hvj0 hjt
  · intro hje
    subst hje
    exact hvj0

theorem ladder_equals1_complete {top : Int} {vars : List Int} {a : Int → Bool}
    (hb : boundedLits top vars) (ht : 0 ≤ top)
    (hc : countTrue a vars = 1) :
    ∃ a', (∀ x : Int, x ≤ top → a' x = a x) ∧
      satCNF a' (ladder_encode_equals1 top vars).1 = true := by
  obtain ⟨j0, hj0, hs0, hothers⟩ := countTrue_eq_one_exists hc
  by_cases h1 : vars.length = 1
  · refine ⟨a, fun x _ => rfl, ?_⟩
    have heq : (ladder_encode_equals1 top vars).1 = [[nth vars 0]] := by
      unfold ladder_encode_equals1
      rw [if_neg (by omega), if_pos h1]
    rw [heq]
    have hj00 : j0 = 0 := by omega
    subst hj00
    rw [satCNF_iff]
    intro c hcm
    rw [List.mem_singleton] at hcm
    subst hcm
    exact satClause_of_lit (List.mem_singleton_self _) hs0
  by_cases h2 : vars.length = 2
  · refine ⟨a, fun x _ => rfl, ?_⟩
    have heq : (ladder_encode_equals1 top vars).1 =
        [[nth vars 0, nth vars 1], [-(nth vars 0), -(nth vars 1)]] := by
      unfold ladder_encode_equals1
      rw [if_neg (by omega), if_neg (by omega), if_pos h2]
    rw [heq]
    rw [satCNF_iff]
    intro c hcm
    rcases (by simpa using hcm : c = [nth vars 0, nth vars 1] ∨
        c = [-(nth vars 0), -(nth vars 1)]) with rfl | rfl
    · rcases Nat.lt_or_ge j0 1 with h | h
      · have hz : j0 = 0 := by omega
        subst hz
        exact satClause_of_lit (List.mem_cons_self _ _) hs0
      · have ho : j0 = 1 := by omega
        subst ho
        exact satClause_of_lit
          (List.mem_cons_of_mem _ (List.mem_singleton_self _)) hs0
    · rcases Nat.lt_or_ge j0 1 with h | h
      · have hz : j0 = 0 := by omega
        subst hz
        have hf := hothers 1 (by omega) (by omega)
        exact satClause_of_lit
          (List.mem_cons_of_mem _ (List.mem_singleton_self _))
          (satLit_neg_true_of_false (hb _ (nth_mem (by omega))).1 hf)
      · have ho : j0 = 1 := by omega
        subst ho
        have hf := hothers 0 (by omega) (by omega)
        exact satClause_of_lit (List.mem_cons_self _ _)
          (satLit_neg_true_of_false (hb _ (nth_mem (by omega))).1 hf)
  have h3 : 3 ≤ vars.length := by omega
  refine ⟨updRange a top (vars.length - 1) j0,
    updRange_agree a top _ j0, ?_⟩
  rw [ladder_equals1_branch3 top vars h3]
  set A := (0 : Int) :: freshVars top (vars.length - 1) with hA
  have hag : ∀ x : Int, x ≤ top →
      updRange a top (vars.length - 1) j0 x = a x :=
    updRange_agree a top _ j0
  have hXval : ∀ i : Nat, 1 ≤ i → i ≤ vars.length - 1 →
      satLit (updRange a top (vars.length - 1) j0) (nth A i) =
        decide (i ≤ j0) := by
    intro i hi1 hi2
    obtain ⟨i', rfl⟩ : ∃ i', i = i' + 1 := ⟨i - 1, by omega⟩
    rw [hA, nth_cons_succ]
    rw [satLit_updRange ht (by omega)]
    exact decide_eq_decide.2 (by omega)
  have hAnz : ∀ i : Nat, 1 ≤ i → i ≤ vars.length - 1 → nth A i ≠ 0 := by
    intro i hi1 hi2
    rw [show nth A i = top + (i : Int) from ladder_aux_getD hi1 hi2]
    omega
  have hvv : ∀ j : Nat, j < vars.length →
      satLit (updRange a top (vars.length - 1) j0) (nth vars j) =
        if j = j0 then true else false := by
    intro j hj
    rw [satLit_agree hag (hb _ (nth_mem hj)).2.1 (hb _ (nth_mem hj)).2.2]
    by_cases hje : j = j0
    · subst hje
      rw [if_pos rfl]
      exact hs0
    · rw [if_neg hje]
      exact hothers j hj hje
  rw [satCNF_append, satCNF_append, satCNF_append]
  simp only [Bool.and_eq_true]
  refine ⟨⟨⟨?_, ?_⟩, ?_⟩, ?_⟩
  · rw [satCNF_iff]
    intro c hcm
    rw [List.mem_map] at hcm
    obtain ⟨i, hir, rfl⟩ := hcm
    rw [List.mem_range'_1] at hir
    by_cases hxi1 : i + 1 ≤ j0
    · apply satClause_of_lit
        (List.mem_cons_of_mem _ (List.mem_singleton_self _))
      rw [hXval i (by omega) (by omega)]
      exact decide_eq_true (by omega)
    · apply satClause_of_lit (List.mem_cons_self _ _)
      apply satLit_neg_true_of_false (hAnz (i + 1) (by omega) (by omega))
      rw [hXval (i + 1) (by omega) (by omega)]
      exact decide_eq_false (by omega)
  · rw [satCNF_iff]
    intro c hcm
    rcases (by simpa using hcm : c = [nth A 1, nth vars 0] ∨
        c = [-(nth vars 0), -(nth A 1)]) with rfl | rfl
    · by_cases hj00 : j0 = 0
      · apply satClause_of_lit
          (List.mem_cons_of_mem _ (List.mem_singleton_self _))
        rw [hvv 0 (by omega), if_pos hj00.symm]
      · apply satClause_of_lit (List.mem_cons_self _ _)
        rw [hXval 1 (by omega) (by omega)]
        exact decide_eq_true (by omega)
    · by_cases hj00 : j0 = 0
      · apply satClause_of_lit
          (List.mem_cons_of_mem _ (List.mem_singleton_self _))
        apply satLit_neg_true_of_false (hAnz 1 (by omega) (by omega))
        rw [hXval 1 (by omega) (by omega)]
        exact decide_eq_false (by omega)
      · apply satClause_of_lit (List.mem_cons_self _ _)
        apply satLit_neg_true_of_false (hb _ (nth_mem (by omega))).1
        rw [hvv 0 (by omega), if_neg (by omega)]
  · rw [satCNF_iff]
    intro c hcm
    rw [List.mem_flatMap] at hcm
    obtain ⟨i, hir, hcm⟩ := hcm
    rw [List.mem_range'_1] at hir
    rcases (by simpa using hcm :
        c = [-(nth A (i - 1)), nth A i, nth vars (i - 1)] ∨
        c = [nth A (i - 1), -(nth vars (i - 1))] ∨
        c = [-(nth vars (i - 1)), -(nth A i)]) with rfl | rfl | rfl
    · by_cases hvt : i - 1 = j0
      · apply satClause_of_lit (List.mem_cons_of_mem _
          (List.mem_cons_of_mem _ (List.mem_singleton_self _)))
        rw [hvv (i - 1) (by omega), if_pos hvt]
      · rcases Nat.lt_or_ge j0 (i - 1) with hlt | hge
        · apply satClause_of_lit (List.mem_cons_self _ _)
          apply satLit_neg_true_of_false (hAnz (i - 1) (by omega) (by omega))
          rw [hXval (i - 1) (by omega) (by omega)]
          exact decide_eq_false (by omega)
        · apply satClause_of_lit (List.mem_cons_of_mem _
            (List.mem_cons_self _ _))
          rw [hXval i (by omega) (by omega)]
          exact decide_eq_true (by omega)
    · by_cases hvt : i - 1 = j0
      · apply satClause_of_lit (List.mem_cons_self _ _)
        rw [hXval (i - 1) (by omega) (by omega)]
        exact decide_eq_true (by omega)
      · apply satClause_of_lit
          (List.mem_cons_of_mem _ (List.mem_singleton_self _))
        apply satLit_neg_true_of_false (hb _ (nth_mem (by omega))).1
        rw [hvv (i - 1) (by omega), if_neg hvt]
    · by_cases hvt : i - 1 = j0
      · apply satClause_of_lit
          (List.mem_cons_of_mem _ (List.mem_singleton_self _))
        apply satLit_neg_true_of_false (hAnz i (by omega) (by omega))
        rw [hXval i (by omega) (by omega)]
        exact decide_eq_false (by omega)
      · apply satClause_of_lit (List.mem_cons_self _ _)
        apply satLit_neg_true_of_false (hb _ (nth_mem (by omega))).1
        rw [hvv (i - 1) (by omega), if_neg hvt]
  · rw [satCNF_iff]
    intro c hcm
    rcases (by simpa using hcm :
        c = [-(nth A (vars.length - 1)), nth vars (vars.length - 1)] ∨
        c = [-(nth vars (vars.length - 1)), nth A (vars.length - 1)])
        with rfl | rfl
    · by_cases hvt : vars.length - 1 = j0
      · apply satClause_of_lit
          (List.mem_cons_of_mem _ (List.mem_singleton_self _))
        rw [hvv (vars.length - 1) (by omega), if_pos hvt]
      · apply satClause_of_lit (List.mem_cons_self _ _)
        apply satLit_neg_true_of_false
          (hAnz (vars.length - 1) (by omega) (by omega))
        rw [hXval (vars.length - 1) (by omega) (by omega)]
        exact decide_eq_false (by omega)
    · by_cases hvt : vars.length - 1 = j0
      · apply satClause_of_lit
          (List.mem_cons_of_mem _ (List.mem_singleton_self _))
        rw [hXval (vars.length - 1) (by omega) (by omega)]
        exact decide_eq_true (by omega)
      · apply satClause_of_lit (List.mem_cons_self _ _)
        apply satLit_neg_true_of_false (hb _ (nth_mem (by omega))).1
        rw [hvv (vars.length - 1) (by omega), if_neg hvt]

theorem ladder_encode_atmost1_equisat (top : Int) (vars : List Int)
    (hb : boundedLits top vars) (ht : 0 ≤ top) (a : Int → Bool) :
    (∃ a', (∀ x : Int, x ≤ top → a' x = a x) ∧
      satCNF a' (ladder_encode_atmost1 top vars).1 = true) ↔
    countTrue a vars ≤ 1 := by
  have heq : ladder_encode_atmost1 top vars =
      ladder_encode_equals1 (top + 1) (vars ++ [top + 1]) := rfl
  rw [heq]
  have hb' : boundedLits (top + 1) (vars ++ [top + 1]) := by
    refine boundedLits_append (boundedLits_mono hb (by omega)) ?_
    intro v hv
    rw [List.mem_singleton] at hv
    subst hv
    exact ⟨by omega, by omega, by omega⟩
  constructor
  · rintro ⟨a', hag, hs⟩
    have h1 := ladder_equals1_sound hb' (by omega) (by simp) hs
    rw [countTrue_append] at h1
    have hcc : countTrue a' vars = countTrue a vars :=
      countTrue_agree hag (fun l hl => (hb l hl).2)
    omega
  · intro hle
    by_cases hz : countTrue a vars = 0
    · have hsl : satLit (updRange a top 1 1) (top + 1) = true := by
        unfold satLit
        rw [if_pos (by omega)]
        unfold updRange
        rw [if_pos (by omega)]
        exact decide_eq_true (by omega)
      have hcnt : countTrue (updRange a top 1 1) (vars ++ [top + 1]) = 1 := by
        rw [countTrue_append]
        have hv : countTrue (updRange a top 1 1) vars = countTrue a vars :=
          countTrue_agree (updRange_agree a top 1 1)
            (fun l hl => (hb l hl).2)
        have hone : countTrue (updRange a top 1 1) [top + 1] = 1 := by
          rw [countTrue_cons, hsl, if_pos rfl]
          rfl
        omega
      obtain ⟨a2, hag2, hs2⟩ := ladder_equals1_complete hb' (by omega) hcnt
      exact ⟨a2, fun x hx => (hag2 x (by omega)).trans
        (updRange_agree a top 1 1 x hx), hs2⟩
    · have hsl : satLit (updRange a top 1 0) (top + 1) = false := by
        unfold satLit
        rw [if_pos (by omega)]
        unfold updRange
        rw [if_pos (by omega)]
        exact decide_eq_false (by omega)
      have hcnt : countTrue (updRange a top 1 0) (vars ++ [top + 1]) = 1 := by
        rw [countTrue_append]
        have hv : countTrue (updRange a top 1 0) vars = countTrue a vars :=
          countTrue_agree (updRange_agree a top 1 0)
            (fun l hl => (hb l hl).2)
        have hzero : countTrue (updRange a top 1 0) [top + 1] = 0 := by
          rw [countTrue_cons, hsl, if_neg (by simp)]
          rfl
        omega
      obtain ⟨a2, hag2, hs2⟩ := ladder_equals1_complete hb' (by omega) hcnt
      exact ⟨a2, fun x hx => (hag2 x (by omega)).trans
        (updRange_agree a top 1 0 x hx), hs2⟩

-- ==== clause semantics: sorting networks ===================================

theorem nth_append_left {w1 w2 : List Int} {j : Nat} (h : j < w1.length) :
    nth (w1 ++ w2) j = nth w1 j := by
  unfold nth
  exact List.getD_append w1 w2 0 j h

theorem nth_append_right {w1 w2 : List Int} {j : Nat} (h : w1.length ≤ j) :
    nth (w1 ++ w2) j = nth w2 (j - w1.length) := by
  unfold nth
  exact List.getD_append_right w1 w2 0 j h

theorem boundedLits_okVec {V : List Int} {b T : Int} {w : List Int}
    (h : okVec V b T w) (hV : boundedLits b V) (hb : 0 ≤ b) (hbT : b ≤ T) :
    boundedLits T w := by
  intro v hv
  rcases h v hv with hm | hm | hm | hm
  · obtain ⟨h1, h2, h3⟩ := hV v hm
    exact ⟨h1, by omega, by omega⟩
  · obtain ⟨h1, h2, h3⟩ := hV (-v) hm
    exact ⟨by omega, by omega, by omega⟩
  · exact ⟨by omega, by omega, by omega⟩
  · exact ⟨by omega, by omega, by omega⟩

theorem countTrue_replicate_false {a : Int → Bool} {n : Nat} {x : Int}
    (h : satLit a x = false) : countTrue a (List.replicate n x) = 0 := by
  apply (countTrue_eq_zero_iff a _).2
  intro l hl
  rw [(List.mem_replicate.1 hl).2]
  exact h

theorem forcedPrefix_odd {a : Int → Bool} {w : List Int} {p : Nat}
    (h : forcedPrefix a w p) :
    forcedPrefix a (mk_odd_vect w) ((p + 1) / 2) := by
  intro j hj hjl
  rw [mk_odd_vect_nth w j hjl]
  rw [mk_odd_vect_length] at hjl
  exact h (2 * j) (by omega) (by omega)

theorem forcedPrefix_even {a : Int → Bool} {w : List Int} {p : Nat}
    (h : forcedPrefix a w p) :
    forcedPrefix a (mk_even_vect w) (p / 2) := by
  intro j hj hjl
  rw [mk_even_vect_nth w j hjl]
  rw [mk_even_vect_length] at hjl
  exact h (2 * j + 1) (by omega) (by omega)

theorem exactPrefix_odd {a : Int → Bool} {w : List Int} {p : Nat}
    (h : exactPrefix a w p) :
    exactPrefix a (mk_odd_vect w) ((p + 1) / 2) := by
  intro j hjl
  rw [mk_odd_vect_nth w j hjl]
  rw [mk_odd_vect_length] at hjl
  rw [h (2 * j) (by omega)]
  constructor
  · intro hlt
    omega
  · intro hlt
    omega

theorem exactPrefix_even {a : Int → Bool} {w : List Int} {p : Nat}
    (h : exactPrefix a w p) :
    exactPrefix a (mk_even_vect w) (p / 2) := by
  intro j hjl
  rw [mk_even_vect_nth w j hjl]
  rw [mk_even_vect_length] at hjl
  rw [h (2 * j + 1) (by omega)]
  constructor
  · intro hlt
    omega
  · intro hlt
    omega

theorem sortn_half_merge_recur_sound :
    ∀ (n : Nat) (top : Int) (av bv : List Int) (zvar : Int)
      (CV : List Int) (CLS : CNF) (T : Int) (a : Int → Bool) (p q : Nat),
    av.length ≤ n → bv.length = av.length → (∃ k, av.length = 2 ^ k) →
    boundedLits top av → boundedLits top bv → 0 ≤ top →
    p ≤ av.length → q ≤ bv.length →
    sortn_half_merge_recur top av bv zvar = (CV, CLS, T) →
    satCNF a CLS = true →
    forcedPrefix a av p → forcedPrefix a bv q →
    forcedPrefix a CV (p + q) := by
  intro n
  induction n with
  | zero =>
    intro top av bv zvar CV CLS T a p q hn hlen hpow hba hbb ht hp hq hres
      hsat hfa hfb
    obtain ⟨k, hk⟩ := hpow
    have hk1 : 1 ≤ 2 ^ k := Nat.one_le_two_pow
    omega
  | succ n ih =>
    intro top av bv zvar CV CLS T a p q hn hlen hpow hba hbb ht hp hq hres
      hsat hfa hfb
    obtain ⟨k, hk⟩ := hpow
    have hk1 : 1 ≤ 2 ^ k := Nat.one_le_two_pow
    have h0 : ¬ av.length = 0 := by omega
    by_cases h1 : av.length = 1
    · have heq : sortn_half_merge_recur top av bv zvar =
          ([top + 1, top + 2],
           [[-(nth av 0), top + 1], [-(nth bv 0), top + 1],
            [-(nth av 0), -(nth bv 0), top + 2]], top + 2) := by
        rw [sortn_half_merge_recur.eq_def]
        rw [if_neg h0, if_pos h1]
      rw [heq] at hres
      injection hres with hCV hres
      injection hres with hCLS hT
      subst hCV hCLS hT
      have hc1 := satCNF_mem hsat (List.mem_cons_self _ _)
      have hc2 := satCNF_mem hsat (List.mem_cons_of_mem _
        (List.mem_cons_self _ _))
      have hc3 := satCNF_mem hsat (List.mem_cons_of_mem _
        (List.mem_cons_of_mem _ (List.mem_singleton_self _)))
      have h0a : nth av 0 ≠ 0 := (hba _ (nth_mem (by omega))).1
      have h0b : nth bv 0 ≠ 0 := (hbb _ (nth_mem (by omega))).1
      intro j hj hjl
      simp only [List.length_cons, List.length_nil] at hjl
      interval_cases j
      · show satLit a (nth [top + 1, top + 2] 0) = true
        rcases Nat.eq_zero_or_pos p with rfl | hpp
        · have hb0 : satLit a (nth bv 0) = true := hfb 0 (by omega) (by omega)
          exact satClause_forced_pair h0b hc2 hb0
        · have ha0 : satLit a (nth av 0) = true := hfa 0 (by omega) (by omega)
          exact satClause_forced_pair h0a hc1 ha0
      · show satLit a (nth [top + 1, top + 2] 1) = true
        have ha0 : satLit a (nth av 0) = true := hfa 0 (by omega) (by omega)
        have hb0 : satLit a (nth bv 0) = true := hfb 0 (by omega) (by omega)
        exact satClause_forced_triple h0a h0b hc3 ha0 hb0
    · obtain ⟨k2, rfl⟩ : ∃ k2, k = k2 + 1 := by
        rcases k with _ | k2
        · omega
        · exact ⟨k2, rfl⟩
      have hk2 : av.length = 2 ^ k2 * 2 := by rw [hk, pow_succ]
      have hpos : 1 ≤ 2 ^ k2 := Nat.one_le_two_pow
      have hoddA : (mk_odd_vect av).length = 2 ^ k2 := by
        rw [mk_odd_vect_length, hk2]
        omega
      have hevenA : (mk_even_vect av).length = 2 ^ k2 := by
        rw [mk_even_vect_length, hk2]
        omega
      have hoddB : (mk_odd_vect bv).length = 2 ^ k2 := by
        rw [mk_odd_vect_length, hlen, hk2]
        omega
      have hevenB : (mk_even_vect bv).length = 2 ^ k2 := by
        rw [mk_even_vect_length, hlen, hk2]
        omega
      set r1 := sortn_half_merge_recur top (mk_odd_vect av) (mk_odd_vect bv)
        zvar with hr1
      set r2 := sortn_half_merge_recur r1.2.2 (mk_even_vect av)
        (mk_even_vect bv) zvar with hr2
      set r3 := create_vvect r2.2.2 [nth r1.1 0] (2 * av.length - 2) with hr3
      have heq : sortn_half_merge_recur top av bv zvar =
          (r3.1 ++ [nth r2.1 (r2.1.length - 1)],
           r1.2.1 ++ r2.2.1 ++
           ((List.range (av.length - 1)).flatMap (fun i =>
             [[-(nth r1.1 (i + 1)),
               nth (r3.1 ++ [nth r2.1 (r2.1.length - 1)]) (2 * i + 1)],
              [-(nth r2.1 i),
               nth (r3.1 ++ [nth r2.1 (r2.1.length - 1)]) (2 * i + 1)],
              [-(nth r1.1 (i + 1)), -(nth r2.1 i),
               nth (r3.1 ++ [nth r2.1 (r2.1.length - 1)]) (2 * i + 2)]])),
           r3.2) := by
        rw [sortn_half_merge_recur.eq_def]
        rw [if_neg h0, if_neg h1]
      rw [heq] at hres
      injection hres with hCV hres
      injection hres with hCLS hT
      subst hCV hCLS hT
      rw [satCNF_append, satCNF_append] at hsat
      simp only [Bool.and_eq_true] at hsat
      obtain ⟨⟨hs1, hs2⟩, hs3⟩ := hsat
      obtain ⟨m1, m2, m3, m4⟩ := sortn_half_merge_recur_okAux
        (mk_odd_vect av).length top (mk_odd_vect av) (mk_odd_vect bv) zvar
        r1.1 r1.2.1 r1.2.2 (le_refl _) (by rw [hoddB, hoddA]) ⟨k2, hoddA⟩
        (by rw [hr1])
      obtain ⟨m1', m2', m3', m4'⟩ := sortn_half_merge_recur_okAux
        (mk_even_vect av).length r1.2.2 (mk_even_vect av) (mk_even_vect bv)
        zvar r2.1 r2.2.1 r2.2.2 (le_refl _) (by rw [hevenB, hevenA])
        ⟨k2, hevenA⟩ (by rw [hr2])
      have hDlen : r1.1.length = av.length := by
        rw [m2, hoddA, hk2]
        omega
      have hElen : r2.1.length = av.length := by
        rw [m2', hevenA, hk2]
        omega
      have hbD : boundedLits r1.2.2 r1.1 :=
        boundedLits_okVec m3
          (boundedLits_append (boundedLits_sub hba (mk_odd_vect_subset av))
            (boundedLits_sub hbb (mk_odd_vect_subset bv))) ht m1
      have hbE : boundedLits r2.2.2 r2.1 :=
        boundedLits_okVec m3'
          (boundedLits_append
            (boundedLits_mono (boundedLits_sub hba (mk_even_vect_subset av)) m1)
            (boundedLits_mono (boundedLits_sub hbb (mk_even_vect_subset bv)) m1))
          (by omega) m1'
      have hD := ih top (mk_odd_vect av) (mk_odd_vect bv) zvar r1.1 r1.2.1
        r1.2.2 a ((p + 1) / 2) ((q + 1) / 2) (by rw [hoddA]; omega)
        (by rw [hoddB, hoddA]) ⟨k2, hoddA⟩
        (boundedLits_sub hba (mk_odd_vect_subset av))
        (boundedLits_sub hbb (mk_odd_vect_subset bv)) ht
        (by rw [hoddA]; omega) (by rw [hoddB]; omega)
        (by rw [hr1]) hs1 (forcedPrefix_odd hfa) (forcedPrefix_odd hfb)
      have hE := ih r1.2.2 (mk_even_vect av) (mk_even_vect bv) zvar r2.1
        r2.2.1 r2.2.2 a (p / 2) (q / 2) (by rw [hevenA]; omega)
        (by rw [hevenB, hevenA]) ⟨k2, hevenA⟩
        (boundedLits_mono (boundedLits_sub hba (mk_even_vect_subset av)) m1)
        (boundedLits_mono (boundedLits_sub hbb (mk_even_vect_subset bv)) m1)
        (by omega) (by rw [hevenA]; omega) (by rw [hevenB]; omega)
        (by rw [hr2]) hs2 (forcedPrefix_even hfa) (forcedPrefix_even hfb)
      have hDE : (p + 1) / 2 + (q + 1) / 2 + (p / 2 + q / 2) = p + q := by
        omega
      have hr31len : r3.1.length = 2 * av.length - 1 := by
        rw [hr3]
        show (([nth r1.1 0] ++ freshVars r2.2.2 (2 * av.length - 2)) :
          List Int).length = 2 * av.length - 1
        rw [List.length_append, freshVars_length, List.length_singleton]
        omega
      intro j hj hjl
      rw [List.length_append, List.length_singleton, hr31len] at hjl
      rcases Nat.eq_zero_or_pos j with rfl | hjpos
      · rw [nth_append_left (by omega)]
        have hcv0 : nth r3.1 0 = nth r1.1 0 := by
          rw [hr3]
          show nth ([nth r1.1 0] ++ freshVars r2.2.2 (2 * av.length - 2)) 0 =
            nth r1.1 0
          rw [nth_append_left (by simp)]
          rfl
        rw [hcv0]
        exact hD 0 (by omega) (by omega)
      rcases Nat.lt_or_ge j (2 * av.length - 1) with hjmid | hjlast
      · rcases Nat.even_or_odd j with ⟨i, hi⟩ | ⟨i, hi⟩
        · -- j = 2 * i, j ≥ 2: clause 3 at index i - 1
          obtain ⟨i', rfl⟩ : ∃ i', i = i' + 1 := ⟨i - 1, by omega⟩
          have hc := satCNF_mem hs3 (List.mem_flatMap.2 ⟨i',
            List.mem_range.2 (by omega),
            List.mem_cons_of_mem _ (List.mem_cons_of_mem _
              (List.mem_singleton_self _))⟩)
          have hji : j = 2 * i' + 2 := by omega
          subst hji
          refine satClause_forced_triple
            ((hbD _ (nth_mem (by omega))).1) ((hbE _ (nth_mem (by omega))).1)
            hc ?_ ?_
          · exact hD (i' + 1) (by omega) (by omega)
          · exact hE i' (by omega) (by omega)
        · -- j = 2 * i + 1
          subst hi
          rcases Nat.lt_or_ge i (p / 2 + q / 2) with hiE | hiE
          · have hc := satCNF_mem hs3 (List.mem_flatMap.2 ⟨i,
              List.mem_range.2 (by omega),
              List.mem_cons_of_mem _ (List.mem_cons_self _ _)⟩)
            exact satClause_forced_pair ((hbE _ (nth_mem (by omega))).1) hc
              (hE i (by omega) (by omega))
          · have hc := satCNF_mem hs3 (List.mem_flatMap.2 ⟨i,
              List.mem_range.2 (by omega),
              List.mem_cons_self _ _⟩)
            exact satClause_forced_pair ((hbD _ (nth_mem (by omega))).1) hc
              (hD (i + 1) (by omega) (by omega))
      · have hje : j = 2 * av.length - 1 := by omega
        subst hje
        rw [nth_append_right (by omega), hr31len]
        have hz : 2 * av.length - 1 - (2 * av.length - 1) = 0 := by omega
        rw [hz]
        show satLit a (nth r2.1 (r2.1.length - 1)) = true
        have hpq : p = av.length ∧ q = av.length := by
          constructor <;> omega
        exact hE (r2.1.length - 1) (by rw [hElen]; omega)
          (by omega)

-- ==== claim theorems ========================================================

/-- C2: for every encoder call — the at-most and at-least entry points and
the incremental totalizer operations construction, increase, merge and
extend — the top id returned by the call is at least the top id passed in,
and every auxiliary variable referenced in the produced clauses (any
literal that is not an input literal up to sign) has an id at most the
final top id.  The bound rhs is a C int, top ids are nonnegative, and the
trees fed to increase, merge and extend carry count variables that are
either input literals or ids allocated in the window (b, top], which is how
the library builds them. -/
theorem claim_C2_top_id_monotone (lhs : List Int) (rhs top enc b : Int)
    (krhs : Nat) (ta tb : TotTree)
    (h1 : -(2 ^ 31) ≤ rhs) (h2 : rhs < 2 ^ 31) (h3 : lhs.length < 2 ^ 31)
    (htop : 0 ≤ top) (hb0 : 0 ≤ b) (hb : b ≤ top)
    (hta : okTree lhs b top ta) (htb : okTree lhs b top tb) :
    (top ≤ (_encode_atmost lhs rhs top enc).2 ∧
      ∀ c ∈ (_encode_atmost lhs rhs top enc).1, ∀ l ∈ c,
        l ∉ lhs → -l ∉ lhs →
        l ≤ (_encode_atmost lhs rhs top enc).2 ∧
        -l ≤ (_encode_atmost lhs rhs top enc).2) ∧
    (top ≤ (_encode_atleast lhs rhs top enc).2.1 ∧
      ∀ c ∈ (_encode_atleast lhs rhs top enc).1, ∀ l ∈ c,
        l ∉ lhs → -l ∉ lhs →
        l ≤ (_encode_atleast lhs rhs top enc).2.1 ∧
        -l ≤ (_encode_atleast lhs rhs top enc).2.1) ∧
    (top ≤ (itot_new top lhs krhs).2.2 ∧
      ∀ c ∈ (itot_new top lhs krhs).2.1, ∀ l ∈ c,
        l ∉ lhs → -l ∉ lhs →
        l ≤ (itot_new top lhs krhs).2.2 ∧
        -l ≤ (itot_new top lhs krhs).2.2) ∧
    (top ≤ (itot_increase ta krhs top).2.2 ∧
      ∀ c ∈ (itot_increase ta krhs top).2.1, ∀ l ∈ c,
        l ∉ lhs → -l ∉ lhs →
        l ≤ (itot_increase ta krhs top).2.2 ∧
        -l ≤ (itot_increase ta krhs top).2.2) ∧
    (top ≤ (itot_merge ta tb krhs top).2.2 ∧
      ∀ c ∈ (itot_merge ta tb krhs top).2.1, ∀ l ∈ c,
        l ∉ lhs → -l ∉ lhs →
        l ≤ (itot_merge ta tb krhs top).2.2 ∧
        -l ≤ (itot_merge ta tb krhs top).2.2) ∧
    (top ≤ (itot_extend lhs ta krhs top).2.2 ∧
      ∀ c ∈ (itot_extend lhs ta krhs top).2.1, ∀ l ∈ c,
        l ∉ lhs → -l ∉ lhs →
        l ≤ (itot_extend lhs ta krhs top).2.2 ∧
        -l ≤ (itot_extend lhs ta krhs top).2.2) := by
  obtain ⟨m1, m2⟩ := _encode_atmost_ok lhs rhs top enc h1 h2 (by omega)
  obtain ⟨l1, l2⟩ := _encode_atleast_ok lhs rhs top enc h2 h3
  obtain ⟨n1, n2, _⟩ := itot_new_ok top lhs krhs lhs top
    (okVec_of_mem (fun v hv => hv)) (le_refl _)
  obtain ⟨i1, _, i3⟩ := itot_increase_ok ta krhs top lhs b hta hb
  obtain ⟨g1, _, g3⟩ := itot_merge_ok ta tb krhs top lhs b hta htb hb
  obtain ⟨e1, e2, _⟩ := itot_extend_ok lhs ta krhs top lhs b
    (okVec_of_mem (fun v hv => hv)) hta hb
  exact ⟨⟨m1, okCNF_aux_bound m2 htop m1⟩,
    ⟨l1, okCNF_aux_bound l2 htop l1⟩,
    ⟨n1, okCNF_aux_bound n2 htop n1⟩,
    ⟨i1, okCNF_aux_bound i3 hb0 (by omega)⟩,
    ⟨g1, okCNF_aux_bound g3 hb0 (by omega)⟩,
    ⟨e1, okCNF_aux_bound e2 hb0 (by omega)⟩⟩

/-- Witness for claim C2. -/
theorem claim_C2_witness :
    ((-(2 ^ 31) : Int) ≤ 1 ∧ (1 : Int) < 2 ^ 31 ∧
      ([1, -2, 3] : List Int).length < 2 ^ 31 ∧
      (0 : Int) ≤ 5 ∧ (0 : Int) ≤ 4 ∧ (4 : Int) ≤ 5 ∧
      okTree [1, -2, 3] 4 5 (TotTree.leaf [1] 1) ∧
      okTree [1, -2, 3] 4 5 (TotTree.leaf [5] 1)) ∧
    ((5 ≤ (_encode_atmost [1, -2, 3] 1 5 enc_tot).2 ∧
      ∀ c ∈ (_encode_atmost [1, -2, 3] 1 5 enc_tot).1, ∀ l ∈ c,
        l ∉ ([1, -2, 3] : List Int) → -l ∉ ([1, -2, 3] : List Int) →
        l ≤ (_encode_atmost [1, -2, 3] 1 5 enc_tot).2 ∧
        -l ≤ (_encode_atmost [1, -2, 3] 1 5 enc_tot).2) ∧
    (5 ≤ (_encode_atleast [1, -2, 3] 1 5 enc_tot).2.1 ∧
      ∀ c ∈ (_encode_atleast [1, -2, 3] 1 5 enc_tot).1, ∀ l ∈ c,
        l ∉ ([1, -2, 3] : List Int) → -l ∉ ([1, -2, 3] : List Int) →
        l ≤ (_encode_atleast [1, -2, 3] 1 5 enc_tot).2.1 ∧
        -l ≤ (_encode_atleast [1, -2, 3] 1 5 enc_tot).2.1) ∧
    (5 ≤ (itot_new 5 [1, -2, 3] 1).2.2 ∧
      ∀ c ∈ (itot_new 5 [1, -2, 3] 1).2.1, ∀ l ∈ c,
        l ∉ ([1, -2, 3] : List Int) → -l ∉ ([1, -2, 3] : List Int) →
        l ≤ (itot_new 5 [1, -2, 3] 1).2.2 ∧
        -l ≤ (itot_new 5 [1, -2, 3] 1).2.2) ∧
    (5 ≤ (itot_increase (TotTree.leaf [1] 1) 1 5).2.2 ∧
      ∀ c ∈ (itot_increase (TotTree.leaf [1] 1) 1 5).2.1, ∀ l ∈ c,
        l ∉ ([1, -2, 3] : List Int) → -l ∉ ([1, -2, 3] : List Int) →
        l ≤ (itot_increase (TotTree.leaf [1] 1) 1 5).2.2 ∧
        -l ≤ (itot_increase (TotTree.leaf [1] 1) 1 5).2.2) ∧
    (5 ≤ (itot_merge (TotTree.leaf [1] 1) (TotTree.leaf [5] 1) 1 5).2.2 ∧
      ∀ c ∈ (itot_merge (TotTree.leaf [1] 1) (TotTree.leaf [5] 1) 1 5).2.1,
        ∀ l ∈ c,
        l ∉ ([1, -2, 3] : List Int) → -l ∉ ([1, -2, 3] : List Int) →
        l ≤ (itot_merge (TotTree.leaf [1] 1) (TotTree.leaf [5] 1) 1 5).2.2 ∧
        -l ≤ (itot_merge (TotTree.leaf [1] 1)
          (TotTree.leaf [5] 1) 1 5).2.2) ∧
    (5 ≤ (itot_extend [1, -2, 3] (TotTree.leaf [1] 1) 1 5).2.2 ∧
      ∀ c ∈ (itot_extend [1, -2, 3] (TotTree.leaf [1] 1) 1 5).2.1, ∀ l ∈ c,
        l ∉ ([1, -2, 3] : List Int) → -l ∉ ([1, -2, 3] : List Int) →
        l ≤ (itot_extend [1, -2, 3] (TotTree.leaf [1] 1) 1 5).2.2 ∧
        -l ≤ (itot_extend [1, -2, 3] (TotTree.leaf [1] 1) 1 5).2.2)) :=
  ⟨⟨by norm_num, by norm_num, by norm_num, by norm_num, by norm_num,
    by norm_num,
    fun v hv => by
      simp only [List.mem_singleton] at hv
      subst hv
      exact Or.inl (by simp),
    fun v hv => by
      simp only [List.mem_singleton] at hv
      subst hv
      exact Or.inr (Or.inr (Or.inl ⟨by norm_num, by norm_num⟩))⟩,
   claim_C2_top_id_monotone [1, -2, 3] 1 5 enc_tot 4 1
    (TotTree.leaf [1] 1) (TotTree.leaf [5] 1)
    (by norm_num) (by norm_num) (by norm_num) (by norm_num) (by norm_num)
    (by norm_num)
    (fun v hv => by
      simp only [List.mem_singleton] at hv
      subst hv
      exact Or.inl (by simp))
    (fun v hv => by
      simp only [List.mem_singleton] at hv
      subst hv
      exact Or.inr (Or.inr (Or.inl ⟨by norm_num, by norm_num⟩)))⟩

/-- C7: when the input literal vector contains no zero entries, no clause
emitted by the at-most or at-least entry point contains the literal 0 for
any tag and any bound — in particular the ladder sentinel auxvars[0] = 0
never reaches a clause and the network padding literal is a freshly
allocated variable, not 0.  Bounds as in the C types; top ids are
nonnegative. -/
theorem claim_C7_no_zero_literals (lhs : List Int) (rhs top enc : Int)
    (h0 : ∀ v ∈ lhs, v ≠ 0) (htop : 0 ≤ top)
    (h1 : -(2 ^ 31) ≤ rhs) (h2 : rhs < 2 ^ 31) (h3 : lhs.length < 2 ^ 31) :
    (∀ c ∈ (_encode_atmost lhs rhs top enc).1, ∀ l ∈ c, l ≠ 0) ∧
    (∀ c ∈ (_encode_atleast lhs rhs top enc).1, ∀ l ∈ c, l ≠ 0) := by
  obtain ⟨m1, m2⟩ := _encode_atmost_ok lhs rhs top enc h1 h2 (by omega)
  obtain ⟨l1, l2⟩ := _encode_atleast_ok lhs rhs top enc h2 h3
  exact ⟨okCNF_no_zero m2 h0 htop, okCNF_no_zero l2 h0 htop⟩

/-- Witness for claim C7. -/
theorem claim_C7_witness :
    ((∀ v ∈ ([1, -2, 3] : List Int), v ≠ 0) ∧ (0 : Int) ≤ 5 ∧
      (-(2 ^ 31) : Int) ≤ 1 ∧ (1 : Int) < 2 ^ 31 ∧
      ([1, -2, 3] : List Int).length < 2 ^ 31) ∧
    ((∀ c ∈ (_encode_atmost [1, -2, 3] 1 5 enc_ladd).1, ∀ l ∈ c, l ≠ 0) ∧
     (∀ c ∈ (_encode_atleast [1, -2, 3] 1 5 enc_ladd).1, ∀ l ∈ c,
       l ≠ 0)) :=
  ⟨⟨by decide, by norm_num, by norm_num, by norm_num, by norm_num⟩,
   claim_C7_no_zero_literals [1, -2, 3] 1 5 enc_ladd (by decide)
     (by norm_num) (by norm_num) (by norm_num) (by norm_num)⟩

/-- C3: for every literal vector of size n and every tag, _encode_atmost
with rhs >= n appends zero clauses; with rhs = n-1 (n >= 1) it appends
exactly the one clause listing the negations of all inputs; with rhs = 0
(and 0 different from n-1) it appends exactly one negated unit clause per
input.  The bound is a C int, whence the hypothesis rhs < 2^31. -/
theorem claim_C3_baseline_shortcuts (lhs : List Int) (rhs top enc : Int)
    (h31 : rhs < 2 ^ 31) :
    (((lhs.length : Int) ≤ rhs → _encode_atmost lhs rhs top enc = ([], top)) ∧
     (1 ≤ lhs.length → rhs = (lhs.length : Int) - 1 →
       _encode_atmost lhs rhs top enc = ([lhs.map (fun v => -v)], top)) ∧
     (rhs = 0 → lhs.length ≠ 1 →
       _encode_atmost lhs rhs top enc = (lhs.map (fun v => [-v]), top))) := by
  have h64 : rhs < 2 ^ 64 → 0 ≤ rhs → usize rhs = rhs.toNat := fun a b =>
    usize_toNat b a
  refine ⟨?_, ?_, ?_⟩
  · intro hge
    have h0 : (0 : Int) ≤ rhs := le_trans (by positivity) hge
    have hu : usize rhs = rhs.toNat := h64 (by omega) h0
    exact encode_atmost_branch1 lhs rhs top enc (by omega)
  · intro hn hrhs
    have h0 : (0 : Int) ≤ rhs := by omega
    have hu : usize rhs = rhs.toNat := h64 (by omega) h0
    exact encode_atmost_branch2 lhs rhs top enc (by omega) (by omega)
  · intro hrhs hn1
    subst hrhs
    have hu : usize 0 = 0 := by simp [usize]
    rcases Nat.eq_zero_or_pos lhs.length with hz | hpos
    · rw [List.length_eq_zero] at hz
      subst hz
      rfl
    · exact encode_atmost_branch3 lhs top enc (by omega) (by omega)

/-- Witness for claim C3. -/
theorem claim_C3_witness :
    ((2 : Int) < 2 ^ 31) ∧
    (((([1, -2] : List Int).length : Int) ≤ 2 →
       _encode_atmost [1, -2] 2 5 enc_tot = ([], 5)) ∧
     (1 ≤ ([1, -2] : List Int).length → (2 : Int) = (([1, -2] : List Int).length : Int) - 1 →
       _encode_atmost [1, -2] 2 5 enc_tot = ([[-1, 2]], 5)) ∧
     ((2 : Int) = 0 → ([1, -2] : List Int).length ≠ 1 →
       _encode_atmost [1, -2] 2 5 enc_tot = ([[-1], [2]], 5))) :=
  ⟨by norm_num, claim_C3_baseline_shortcuts [1, -2] 2 5 enc_tot (by norm_num)⟩

/-- C4: _encode_atleast negates the caller's literal buffer in place
exactly in the general branch 1 < rhs < n, and leaves it unchanged in the
three shortcut branches rhs <= 0, rhs = 1 and rhs = n. -/
theorem claim_C4_atleast_buffer (lhs : List Int) (rhs top enc : Int) :
    ((1 < rhs → rhs < (lhs.length : Int) →
       (_encode_atleast lhs rhs top enc).2.2 = lhs.map (fun x => -x)) ∧
     (rhs ≤ 0 ∨ rhs = 1 ∨ rhs = (lhs.length : Int) →
       (_encode_atleast lhs rhs top enc).2.2 = lhs)) := by
  constructor
  · intro h1 h2
    unfold _encode_atleast
    split_ifs <;> first | omega | rfl
  · intro h
    unfold _encode_atleast
    rcases h with h | h | h <;> split_ifs <;> first | omega | rfl

/-- Witness for claim C4. -/
theorem claim_C4_witness :
    (((1 : Int) < 2 → (2 : Int) < (([1, 2, 3] : List Int).length : Int) →
       (_encode_atleast [1, 2, 3] 2 3 enc_tot).2.2 = [-1, -2, -3]) ∧
     ((2 : Int) ≤ 0 ∨ (2 : Int) = 1 ∨ (2 : Int) = (([1, 2, 3] : List Int).length : Int) →
       (_encode_atleast [1, 2, 3] 2 3 enc_tot).2.2 = [1, 2, 3])) := by
  have h := claim_C4_atleast_buffer [1, 2, 3] 2 3 enc_tot
  exact ⟨fun a b => by rw [h.1 a b]; rfl, h.2⟩

/-- C5: with a pairwise, bitwise or ladder tag and a bound rhs other than 1
inside the general range 0 < rhs < n-1, _encode_atmost emits nothing and
leaves the top id unchanged. -/
theorem claim_C5_silent_noop (lhs : List Int) (rhs top enc : Int)
    (henc : enc = enc_exp ∨ enc = enc_bitw ∨ enc = enc_ladd)
    (h31 : rhs < 2 ^ 31)
    (h0 : 0 < rhs) (h1 : rhs < (lhs.length : Int) - 1) (h2 : rhs ≠ 1) :
    _encode_atmost lhs rhs top enc = ([], top) := by
  have hu : usize rhs = rhs.toNat := usize_toNat (by omega) (by omega)
  have hb1 : ¬ lhs.length ≤ usize rhs := by omega
  have hb2 : ¬ usize rhs = lhs.length - 1 := by omega
  unfold _encode_atmost
  rw [if_neg hb1, if_neg hb2, if_neg h0.ne', if_neg, if_neg, if_neg, if_neg,
    if_neg, if_neg, if_neg h2] <;>
  rcases henc with h | h | h <;> subst h <;> decide

/-- Witness for claim C5. -/
theorem claim_C5_witness :
    _encode_atmost [1, 2, 3, 4, 5] 2 5 enc_exp = ([], 5) :=
  claim_C5_silent_noop [1, 2, 3, 4, 5] 2 5 enc_exp (Or.inl rfl)
    (by norm_num) (by norm_num) (by norm_num) (by norm_num)

/-- C6: itot_increase with a bound already covered by the tree's vector,
that is min(rhs+1, nof_input) <= vars.size(), appends no clauses, leaves
the top id unchanged and leaves every node of the tree unchanged. -/
theorem claim_C6_increase_noop (t : TotTree) (rhs : Nat) (top : Int)
    (h : min (rhs + 1) t.nof_input ≤ t.vars.length) :
    itot_increase t rhs top = (t, [], top) := by
  unfold itot_increase
  rw [if_pos h]

/-- Witness for claim C6. -/
theorem claim_C6_witness :
    min (2 + 1) (TotTree.node [5, 6, 7] 3
      (TotTree.node [3, 4] 2 (TotTree.leaf [1] 1) (TotTree.leaf [2] 1))
      (TotTree.leaf [8] 1)).nof_input ≤ (TotTree.node [5, 6, 7] 3
      (TotTree.node [3, 4] 2 (TotTree.leaf [1] 1) (TotTree.leaf [2] 1))
      (TotTree.leaf [8] 1)).vars.length ∧
    itot_increase (TotTree.node [5, 6, 7] 3
      (TotTree.node [3, 4] 2 (TotTree.leaf [1] 1) (TotTree.leaf [2] 1))
      (TotTree.leaf [8] 1)) 2 8 = (TotTree.node [5, 6, 7] 3
      (TotTree.node [3, 4] 2 (TotTree.leaf [1] 1) (TotTree.leaf [2] 1))
      (TotTree.leaf [8] 1), [], 8) :=
  ⟨by decide, claim_C6_increase_noop _ 2 8 (by decide)⟩

/-- C9 is refuted on the code: seqcounter_encode_atmost1 reads
vars[vars.size()], one position past the end of the vector, so under the
total Option semantics the out-of-range branch is reached on the non-empty
input [1, 2, 3] and the result is none. -/
theorem claim_C9_out_of_range :
    seqcounter_encode_atmost1 3 [1, 2, 3] = none ∧
    seqcounter_encode_atmost1 1 [1] = none := by
  constructor <;> rfl

/-- C10: a negative bound falls into the unsigned rhs >= n shortcut, so
_encode_atmost emits nothing and leaves the top id unchanged; yet at-most
rhs < 0 is unsatisfiable, since any assignment makes a non-negative number
of literals true.  The bound is a C int and the vector length is below
2^63. -/
theorem claim_C10_negative_bound (lhs : List Int) (rhs top enc : Int)
    (hneg : rhs < 0) (hint : -(2 ^ 31) ≤ rhs) (hlen : lhs.length < 2 ^ 63) :
    _encode_atmost lhs rhs top enc = ([], top) ∧
    ∀ count : Nat, ¬ ((count : Int) ≤ rhs) := by
  constructor
  · have hu : 2 ^ 63 ≤ usize rhs := usize_of_neg hint hneg
    exact encode_atmost_branch1 lhs rhs top enc (by omega)
  · intro count
    omega

/-- C8: the block size of cardn_encode_atmostN, computed in the source as
floor(log(rhs)/log(2)) + 1 followed by round(exp(log(2)*exponent)) and
modelled by cardn_nkval under exact real semantics of log and exp, equals
the smallest power of two strictly greater than rhs; in particular it is
strictly greater than rhs. -/
theorem claim_C8_cardn_nkval (rhs : Nat) (h : 1 ≤ rhs) :
    cardn_nkval rhs = 2 ^ (⌊Real.log (rhs : ℝ) / Real.log 2⌋ + 1).toNat ∧
    rhs < cardn_nkval rhs ∧
    ∀ m : Nat, rhs < 2 ^ m → cardn_nkval rhs ≤ 2 ^ m := by
  have hfl : ⌊Real.log (rhs : ℝ) / Real.log 2⌋ = Nat.log 2 rhs := by
    rw [Real.log_div_log, show (2 : ℝ) = ((2 : ℕ) : ℝ) by norm_num,
      Real.floor_logb_natCast (Nat.cast_nonneg rhs), Int.log_natCast]
  refine ⟨?_, ?_, ?_⟩
  · have ht : ((Nat.log 2 rhs : Int) + 1).toNat = Nat.log 2 rhs + 1 := by
      omega
    unfold cardn_nkval
    rw [hfl, ht]
  · exact Nat.lt_pow_succ_log_self (by norm_num) rhs
  · intro m hm
    have hlt : Nat.log 2 rhs < m := Nat.log_lt_of_lt_pow (by omega) hm
    exact Nat.pow_le_pow_right (by norm_num) (by omega)

/-- Witness for claim C8. -/
theorem claim_C8_witness :
    cardn_nkval 5 = 2 ^ (⌊Real.log (5 : Nat) / Real.log 2⌋ + 1).toNat ∧
    5 < cardn_nkval 5 ∧
    ∀ m : Nat, 5 < 2 ^ m → cardn_nkval 5 ≤ 2 ^ m :=
  claim_C8_cardn_nkval 5 (by norm_num)

/-- Witness for claim C10. -/
theorem claim_C10_witness :
    (_encode_atmost [1, 2] (-1) 2 enc_tot = ([], 2) ∧
      ∀ count : Nat, ¬ ((count : Int) ≤ (-1 : Int))) :=
  claim_C10_negative_bound [1, 2] (-1) 2 enc_tot (by norm_num) (by norm_num)
    (by norm_num)

end Cardenc
